import Mathlib

/-!
# Verification of the autonomous delivery agent core

A shallow embedding of the grid environment, the moving-obstacle model, the
search strategies (breadth-first, uniform-cost, best-first, hill-climbing,
simulated annealing) and the delivery-agent controller, together with proofs
and refutations of the specification claims.

Conventions of the embedding:
* Python integers are `ℤ` (coordinates, times) or `ℕ` (counters, sizes).
* `float('inf')` together with integer costs is `ℕ∞`; the float keys that mix
  integers with real-valued heuristics are `WithTop ℚ`.
* Mutable state is passed explicitly; loops that are not structurally bounded
  in the source take an explicit fuel argument and return `none` when the
  fuel is exhausted.
* `random.randint` / `random.choice` draw from an explicit stream of naturals
  `rng : ℕ → ℕ` at a running index; the float comparison
  `random.random() < math.exp(...)` of simulated annealing is abstracted as a
  Boolean oracle (its value never matters for the claims below, which are
  proved for every oracle).
-/

set_option maxHeartbeats 1600000
set_option linter.unusedVariables false

abbrev Pos := ℤ × ℤ

/-- `TerrainType` enum of `environment/grid.py`. -/
inductive TerrainType where
  | FLAT
  | HILLS
  | MOUNTAINS
  | WATER
deriving DecidableEq, Repr

/-- A grid cell: terrain plus static-obstacle flag (`Cell` of `grid.py`). -/
structure Cell where
  terrain : TerrainType
  is_obstacle : Bool
deriving DecidableEq

/-- `Cell._get_terrain_cost`: movement cost by terrain type. -/
def Cell.get_terrain_cost (c : Cell) : ℕ :=
  match c.terrain with
  | .FLAT => 1
  | .HILLS => 2
  | .MOUNTAINS => 3
  | .WATER => 4

/-- The stored `Cell.cost` attribute. The Python class keeps it equal to
`_get_terrain_cost()` (set in the constructor and recomputed by
`Grid.set_terrain`), so it is modelled as a derived value. -/
def Cell.cost (c : Cell) : ℕ := c.get_terrain_cost

/-- `Grid` of `grid.py`: width × height array of cells.  The array is
modelled as a total function on coordinates; all accessors bounds-check
before reading, exactly as the source does. -/
structure Grid where
  width : ℕ
  height : ℕ
  cells : Pos → Cell

/-- `Grid.__init__` / `_initialize_grid`: all flat, no obstacles. -/
def Grid.init (width height : ℕ) : Grid :=
  ⟨width, height, fun _ => ⟨.FLAT, false⟩⟩

/-- `Grid.is_valid_position`. -/
def Grid.is_valid_position (g : Grid) (x y : ℤ) : Bool :=
  decide (0 ≤ x) && decide (x < (g.width : ℤ)) &&
    decide (0 ≤ y) && decide (y < (g.height : ℤ))

/-- `Grid.set_terrain` (the stored cost is derived, see `Cell.cost`). -/
def Grid.set_terrain (g : Grid) (x y : ℤ) (terrain : TerrainType) : Grid :=
  if g.is_valid_position x y then
    { g with cells := fun p => if p = (x, y) then ⟨terrain, (g.cells p).is_obstacle⟩ else g.cells p }
  else g

/-- `Grid.set_obstacle`. -/
def Grid.set_obstacle (g : Grid) (x y : ℤ) (b : Bool := true) : Grid :=
  if g.is_valid_position x y then
    { g with cells := fun p => if p = (x, y) then ⟨(g.cells p).terrain, b⟩ else g.cells p }
  else g

/-- `Grid.is_traversable` — the `time` parameter is accepted (default `0`)
and ignored, exactly as in the source. -/
def Grid.is_traversable (g : Grid) (x y : ℤ) (time : ℤ := 0) : Bool :=
  g.is_valid_position x y && !(g.cells (x, y)).is_obstacle

/-- `Grid.get_cost`: cell cost in bounds, `float('inf')` out of bounds. -/
def Grid.get_cost (g : Grid) (x y : ℤ) : ℕ∞ :=
  if g.is_valid_position x y then ((g.cells (x, y)).cost : ℕ∞) else ⊤

/-- `Grid.get_neighbors`: 4-connected neighbours in the order
up, right, down, left, filtered to in-bounds positions. -/
def Grid.get_neighbors (g : Grid) (x y : ℤ) : List Pos :=
  [(x, y + 1), (x + 1, y), (x, y - 1), (x - 1, y)].filter fun p => g.is_valid_position p.1 p.2

/-! ## Moving obstacles (`environment/obstacles.py`) -/

/-- Python's `round` on the value of the interpolation expression:
round half to even, modelled over exact rationals. -/
def pyRound (q : ℚ) : ℤ :=
  let f := ⌊q⌋
  if q - f < 1 / 2 then f
  else if 1 / 2 < q - f then f + 1
  else if f % 2 = 0 then f else f + 1

/-- `MovingObstacle`: identifier plus `(time, x, y)` waypoint schedule. -/
structure MovingObstacle where
  obstacle_id : String
  schedule : List (ℤ × ℤ × ℤ)

/-- Stable insertion by time: the inserted waypoint (which preceded the
rest of the list in the original schedule) goes before every already-placed
waypoint of equal time. -/
def insertByTime (w : ℤ × ℤ × ℤ) : List (ℤ × ℤ × ℤ) → List (ℤ × ℤ × ℤ)
  | [] => [w]
  | a :: rest => if a.1 < w.1 then a :: insertByTime w rest else w :: a :: rest

/-- A stable sort by time (insertion sort).  Python's `sorted(..., key=...)`
is stable, and any stable by-time sort produces the same list. -/
def sortByTime : List (ℤ × ℤ × ℤ) → List (ℤ × ℤ × ℤ)
  | [] => []
  | w :: rest => insertByTime w (sortByTime rest)

/-- `MovingObstacle.__init__` sorts the schedule by time. -/
def MovingObstacle.make (obstacle_id : String) (schedule : List (ℤ × ℤ × ℤ)) : MovingObstacle :=
  ⟨obstacle_id, sortByTime schedule⟩

/-- `MovingObstacle.max_time` (computed in the constructor from the
schedule; derived here). -/
def MovingObstacle.max_time (ob : MovingObstacle) : ℤ :=
  (ob.schedule.map fun w => w.1).foldl max 0

/-- One coordinate of the linear interpolation
`int(round(v1 + ratio * (v2 - v1)))` with `ratio = (time - t1) / (t2 - t1)`. -/
def MovingObstacle.interp1 (t1 v1 t2 v2 time : ℤ) : ℤ :=
  pyRound ((v1 : ℚ) + ((time : ℚ) - (t1 : ℚ)) / ((t2 : ℚ) - (t1 : ℚ)) * ((v2 : ℚ) - (v1 : ℚ)))

/-- The `for i in range(len(schedule) - 1)` scan of
`get_position_at_time`: first adjacent pair whose time span contains
`time` interpolates; the trailing cases are the post-loop
`return self.schedule[-1][1], self.schedule[-1][2]`. -/
def MovingObstacle.segLoop : List (ℤ × ℤ × ℤ) → ℤ → Pos
  | a :: b :: rest, time =>
    if a.1 ≤ time ∧ time ≤ b.1 then
      if b.1 = a.1 then (a.2.1, a.2.2)
      else (MovingObstacle.interp1 a.1 a.2.1 b.1 b.2.1 time,
            MovingObstacle.interp1 a.1 a.2.2 b.1 b.2.2 time)
    else MovingObstacle.segLoop (b :: rest) time
  | [a], _ => (a.2.1, a.2.2)
  | [], _ => (0, 0)

/-- `MovingObstacle.get_position_at_time`.  On the empty schedule the Python
code would raise an `IndexError`; the embedding returns a dummy value there
and every theorem below assumes a non-empty schedule. -/
def MovingObstacle.get_position_at_time (ob : MovingObstacle) (time : ℤ) : Pos :=
  match ob.schedule with
  | [] => (0, 0)
  | first :: rest =>
    let lastw := (first :: rest).getLastD (0, 0, 0)
    if time ≤ first.1 then (first.2.1, first.2.2)
    else if lastw.1 ≤ time then (lastw.2.1, lastw.2.2)
    else MovingObstacle.segLoop (first :: rest) time

/-- `DynamicGrid` of `obstacles.py`: base grid, moving obstacles (the dict
values), and the materialised occupancy set for the last queried time. -/
structure DynamicGrid where
  base_grid : Grid
  moving_obstacles : List MovingObstacle
  dynamic_obstacles : List Pos

/-- `DynamicGrid.__init__`. -/
def DynamicGrid.init (g : Grid) : DynamicGrid := ⟨g, [], []⟩

/-- `DynamicGrid.add_moving_obstacle` (dict assignment keyed by id). -/
def DynamicGrid.add_moving_obstacle (dg : DynamicGrid) (obstacle_id : String)
    (schedule : List (ℤ × ℤ × ℤ)) : DynamicGrid :=
  { dg with moving_obstacles :=
      (dg.moving_obstacles.filter fun ob => ob.obstacle_id ≠ obstacle_id) ++
        [MovingObstacle.make obstacle_id schedule] }

/-- `DynamicGrid.update_dynamic_obstacles`: clear and recompute the
occupancy set for the given time. -/
def DynamicGrid.update_dynamic_obstacles (dg : DynamicGrid) (time : ℤ) : DynamicGrid :=
  { dg with dynamic_obstacles := dg.moving_obstacles.map fun ob => ob.get_position_at_time time }

/-- `DynamicGrid.is_traversable`: static check first (returning with the
cached set untouched on failure), then recompute occupancy for `time` and
test membership.  Returns the Boolean answer together with the mutated
object. -/
def DynamicGrid.is_traversable (dg : DynamicGrid) (x y : ℤ) (time : ℤ := 0) :
    Bool × DynamicGrid :=
  if !dg.base_grid.is_traversable x y then (false, dg)
  else
    let dg' := dg.update_dynamic_obstacles time
    (!(dg'.dynamic_obstacles.contains (x, y)), dg')

/-! ## The traversability/cost interface seen by the search strategies

Every search strategy holds `self.grid` and calls exactly three methods on
it: `get_neighbors`, `is_traversable` (always without a time argument, so at
the default time `0`) and `get_cost`.  Either a `Grid` or a `DynamicGrid`
may be passed (Python duck typing; `DynamicGrid.__getattr__` delegates
`get_neighbors` / `get_cost` to the base grid).  `GridLike` is that
interface. -/
structure GridLike where
  get_neighbors : ℤ → ℤ → List Pos
  is_traversable : ℤ → ℤ → Bool
  get_cost : ℤ → ℤ → ℕ∞

/-- The interface of a static `Grid`. -/
def Grid.toGridLike (g : Grid) : GridLike where
  get_neighbors := g.get_neighbors
  is_traversable := fun x y => g.is_traversable x y
  get_cost := g.get_cost

/-- The interface of a `DynamicGrid`.  `is_traversable(x, y)` is called with
the default `time = 0`; its Boolean result is a pure function of the
receiver's base grid and obstacle list (the cached occupancy set is
overwritten before being read), so the state thread is dropped here. -/
def DynamicGrid.toGridLike (dg : DynamicGrid) : GridLike where
  get_neighbors := dg.base_grid.get_neighbors
  is_traversable := fun x y => (dg.is_traversable x y).1
  get_cost := dg.base_grid.get_cost

/-! ## Search nodes (`algorithms/uninformed_search.py`) -/

/-- `Node`: position, optional parent reference, accumulated cost, time. -/
inductive Node where
  | mk (x y : ℤ) (parent : Option Node) (cost : ℕ∞) (time : ℕ)

def Node.x : Node → ℤ
  | ⟨x, _, _, _, _⟩ => x

def Node.y : Node → ℤ
  | ⟨_, y, _, _, _⟩ => y

def Node.parent : Node → Option Node
  | ⟨_, _, p, _, _⟩ => p

def Node.cost : Node → ℕ∞
  | ⟨_, _, _, c, _⟩ => c

def Node.time : Node → ℕ
  | ⟨_, _, _, _, t⟩ => t

/-- The `(node.x, node.y)` pair; `Node.__eq__` and `Node.__hash__` compare
exactly this. -/
def Node.pos (n : Node) : Pos := (n.x, n.y)

/-- The Python field assignment `node.cost = c`. -/
def Node.setCost : Node → ℕ∞ → Node
  | ⟨x, y, p, _, t⟩, c => ⟨x, y, p, c, t⟩

/-- The Python field assignment `node.parent = p`. -/
def Node.setParent : Node → Option Node → Node
  | ⟨x, y, _, c, t⟩, p => ⟨x, y, p, c, t⟩

/-- The goal-to-start position list collected by following parent links in
`reconstruct_path`, before the final reversal. -/
def Node.chainList : Node → List Pos
  | ⟨x, y, none, _, _⟩ => [(x, y)]
  | ⟨x, y, some p, _, _⟩ => (x, y) :: p.chainList

/-- `UninformedSearch.reconstruct_path` (shared by every tree search). -/
def reconstruct_path (node : Node) : List Pos := node.chainList.reverse

/-- `UninformedSearch.get_successors` (also inherited by `AStarSearch`):
one successor per traversable neighbour. -/
def get_successors (G : GridLike) (node : Node) : List Node :=
  (G.get_neighbors node.x node.y).filterMap fun p =>
    if G.is_traversable p.1 p.2 then
      some (Node.mk p.1 p.2 (some node) (node.cost + G.get_cost p.1 p.2) (node.time + 1))
    else none

/-- `(path, cost, nodes_expanded)` — the uniform result triple. -/
abbrev SearchResult := List Pos × ℕ∞ × ℕ

/-! ## Association-list maps keyed by position

The Python dicts `explored` / `g_score` / `f_score`. -/

def lookupK {β : Type} : List (Pos × β) → Pos → Option β
  | [], _ => none
  | (q, v) :: rest, p => if q = p then some v else lookupK rest p

/-- `m.get(p, d)` — dict lookup with default. -/
def getDK {β : Type} (m : List (Pos × β)) (p : Pos) (d : β) : β :=
  (lookupK m p).getD d

/-- `m[p] = v` — dict assignment. -/
def setK {β : Type} : List (Pos × β) → Pos → β → List (Pos × β)
  | [], p, v => [(p, v)]
  | (q, w) :: rest, p, v => if q = p then (q, v) :: rest else (q, w) :: setK rest p v

/-- Removing the minimum-key entry of a `heapq` list.  The binary heap is
modelled as a plain list from which `heappop` removes the first entry with
the least key; the claims below never depend on how key ties are broken. -/
def popMin {κ α : Type} [LinearOrder κ] : List (κ × α) → Option ((κ × α) × List (κ × α))
  | [] => none
  | e :: rest =>
    match popMin rest with
    | none => some (e, [])
    | some (m, rest') => if e.1 ≤ m.1 then some (e, rest) else some (m, e :: rest')

/-! ## Breadth-first search (`BFS.search`) -/

/-- The `while frontier` loop of `BFS.search`.  State: FIFO frontier,
`explored` position set, `nodes_expanded`. -/
def bfsLoop (G : GridLike) (goal : Pos) :
    ℕ → List Node → Finset Pos → ℕ → Option SearchResult
  | 0, _, _, _ => none
  | _ + 1, [], _, nexp => some ([], ⊤, nexp)
  | fuel + 1, current :: frontier, explored, nexp =>
    let nexp := nexp + 1
    if current.pos = goal then some (reconstruct_path current, current.cost, nexp)
    else
      let step := (get_successors G current).foldl
        (fun (acc : List Node × Finset Pos) s =>
          if s.pos ∈ acc.2 then acc else (acc.1 ++ [s], insert s.pos acc.2))
        (frontier, explored)
      bfsLoop G goal fuel step.1 step.2 nexp

/-- `BFS.search`. -/
def BFS.search (G : GridLike) (start goal : Pos) (fuel : ℕ) : Option SearchResult :=
  if start = goal then some ([start], 0, 0)
  else bfsLoop G goal fuel [Node.mk start.1 start.2 none 0 0] {start} 0

/-! ## Uniform-cost search (`UniformCostSearch.search`) -/

/-- The `for successor in self.get_successors(current)` relaxation loop of
`UniformCostSearch.search`: push (and record) every successor whose tentative
cost beats the best known cost at its position. -/
def ucsExpand (G : GridLike) (current_cost : ℕ∞) :
    List Node → List (ℕ∞ × Node) → List (Pos × ℕ∞) → List (ℕ∞ × Node) × List (Pos × ℕ∞)
  | [], frontier, explored => (frontier, explored)
  | s :: rest, frontier, explored =>
    let new_cost := current_cost + G.get_cost s.x s.y
    if new_cost < getDK explored s.pos ⊤ then
      ucsExpand G current_cost rest
        (frontier ++ [(new_cost, s.setCost new_cost)]) (setK explored s.pos new_cost)
    else ucsExpand G current_cost rest frontier explored

/-- The `while frontier` loop of `UniformCostSearch.search`: pop the least
key, return on goal, lazily skip stale entries, otherwise relax. -/
def ucsLoop (G : GridLike) (goal : Pos) :
    ℕ → List (ℕ∞ × Node) → List (Pos × ℕ∞) → ℕ → Option SearchResult
  | 0, _, _, _ => none
  | fuel + 1, frontier, explored, nexp =>
    match popMin frontier with
    | none => some ([], ⊤, nexp)
    | some ((current_cost, current), rest) =>
      let nexp := nexp + 1
      if current.pos = goal then some (reconstruct_path current, current.cost, nexp)
      else if getDK explored current.pos ⊤ < current_cost then
        ucsLoop G goal fuel rest explored nexp
      else
        let step := ucsExpand G current_cost (get_successors G current) rest explored
        ucsLoop G goal fuel step.1 step.2 nexp

/-- `UniformCostSearch.search`. -/
def UCS.search (G : GridLike) (start goal : Pos) (fuel : ℕ) : Option SearchResult :=
  ucsLoop G goal fuel [((0 : ℕ∞), Node.mk start.1 start.2 none 0 0)] [(start, (0 : ℕ∞))] 0

/-! ## Best-first search (`AStarSearch.search`, `informed_search.py`) -/

/-- Coercion of the integer-or-infinite `g` values into the float domain in
which they are added to heuristic values. -/
def toQ : ℕ∞ → WithTop ℚ
  | ⊤ => ⊤
  | (n : ℕ) => ((n : ℚ) : WithTop ℚ)

/-- `AStarSearch.manhattan_distance`. -/
def manhattan_distance (x1 y1 x2 y2 : ℤ) : ℚ :=
  |(x1 : ℚ) - (x2 : ℚ)| + |(y1 : ℚ) - (y2 : ℚ)|

/-- `AStarSearch.chebyshev_distance`.  (`euclidean_distance` involves an
irrational square root and is not representable here; every theorem about
`AStar.search` below is quantified over an arbitrary rational-valued
heuristic, which covers all selectable heuristics up to the ordering of
their float keys.) -/
def chebyshev_distance (x1 y1 x2 y2 : ℤ) : ℚ :=
  max |(x1 : ℚ) - (x2 : ℚ)| |(y1 : ℚ) - (y2 : ℚ)|

/-- The successor relaxation loop of `AStarSearch.search`: re-enqueue
whenever the tentative `g` (computed from the `g_score` dict, not from the
popped node) improves; record `g_score`, `f_score`, rebind the successor's
parent and cost, push with key `f = g + h`. -/
def astarExpand (G : GridLike) (hfn : ℤ → ℤ → ℤ → ℤ → ℚ) (goal : Pos) (current : Node) :
    List Node → List (WithTop ℚ × Node) → List (Pos × ℕ∞) → List (Pos × WithTop ℚ) →
      List (WithTop ℚ × Node) × List (Pos × ℕ∞) × List (Pos × WithTop ℚ)
  | [], open_set, g_score, f_score => (open_set, g_score, f_score)
  | s :: rest, open_set, g_score, f_score =>
    let tentative_g := getDK g_score current.pos ⊤ + G.get_cost s.x s.y
    if tentative_g < getDK g_score s.pos ⊤ then
      let s' := (s.setParent (some current)).setCost tentative_g
      let h_value := hfn s.x s.y goal.1 goal.2
      let f_value := toQ tentative_g + (h_value : WithTop ℚ)
      astarExpand G hfn goal current rest (open_set ++ [(f_value, s')])
        (setK g_score s.pos tentative_g) (setK f_score s.pos f_value)
    else astarExpand G hfn goal current rest open_set g_score f_score

/-- The `while open_set` loop of `AStarSearch.search`.  There is no stale
check: every popped node is expanded. -/
def astarLoop (G : GridLike) (hfn : ℤ → ℤ → ℤ → ℤ → ℚ) (goal : Pos) :
    ℕ → List (WithTop ℚ × Node) → List (Pos × ℕ∞) → List (Pos × WithTop ℚ) → ℕ →
      Option SearchResult
  | 0, _, _, _, _ => none
  | fuel + 1, open_set, g_score, f_score, nexp =>
    match popMin open_set with
    | none => some ([], ⊤, nexp)
    | some ((_, current), rest) =>
      let nexp := nexp + 1
      if current.pos = goal then some (reconstruct_path current, current.cost, nexp)
      else
        let step := astarExpand G hfn goal current (get_successors G current) rest g_score f_score
        astarLoop G hfn goal fuel step.1 step.2.1 step.2.2 nexp

/-- `AStarSearch.search` with heuristic function `hfn`. -/
def AStar.search (G : GridLike) (hfn : ℤ → ℤ → ℤ → ℤ → ℚ) (start goal : Pos) (fuel : ℕ) :
    Option SearchResult :=
  astarLoop G hfn goal fuel [((0 : WithTop ℚ), Node.mk start.1 start.2 none 0 0)]
    [(start, (0 : ℕ∞))] [(start, ((hfn start.1 start.2 goal.1 goal.2 : ℚ) : WithTop ℚ))] 0

/-! ## Local search (`algorithms/local_search.py`)

`random.randint` / `random.choice` consume one value of the stream
`rng : ℕ → ℕ` at the running index; `random.random()` (used only by the
annealing acceptance test, compared against `math.exp(...)`) is abstracted
as the Boolean oracle `accept`. -/

/-- `random.randint(a, b)` (both ends inclusive) at stream index `i`. -/
def randint (rng : ℕ → ℕ) (i : ℕ) (a b : ℕ) : ℕ := a + rng i % (b - a + 1)

/-- `HillClimbing.get_path_cost` (duplicated verbatim on
`SimulatedAnnealing`): sum of the destination-cell costs along the path,
the first element contributing nothing. -/
def get_path_cost (G : GridLike) (path : List Pos) : ℕ∞ :=
  (path.drop 1).foldl (fun acc p => acc + G.get_cost p.1 p.2) 0

/-- The bounded random walk of `HillClimbing.generate_random_path`
(`for _ in range(max_length)`), threading the visited set and the stream
index.  Returns the path only if the walk reaches the goal. -/
def genRandomLoop (G : GridLike) (goal : Pos) (rng : ℕ → ℕ) :
    ℕ → List Pos → Finset Pos → Pos → ℕ → Option (List Pos) × ℕ
  | 0, _, _, _, i => (none, i)
  | budget + 1, path, visited, current, i =>
    let neighbors := (G.get_neighbors current.1 current.2).filter
      fun n => G.is_traversable n.1 n.2 && decide (n ∉ visited)
    if neighbors = [] then (none, i)
    else
      let next_pos := neighbors.getD (rng i % neighbors.length) (0, 0)
      let path' := path ++ [next_pos]
      if next_pos = goal then (some path', i + 1)
      else genRandomLoop G goal rng budget path' (insert next_pos visited) next_pos (i + 1)

/-- `HillClimbing.generate_random_path`. -/
def HillClimbing.generate_random_path (G : GridLike) (start goal : Pos) (rng : ℕ → ℕ)
    (max_length : ℕ) (i : ℕ) : Option (List Pos) × ℕ :=
  genRandomLoop G goal rng max_length [start] {start} start i

/-- The `while queue and len(visited) < 100` loop of
`HillClimbing._find_alternative_route` (a bounded breadth-first search).
The fuel argument only guards the recursion: every iteration pops one
entry and at most `1 + 4 * 103` entries are ever enqueued (each push
inserts a fresh position into `visited`, whose size the loop caps at 100
before expanding, so it never exceeds 103), hence fuel `600` can never be
exhausted. -/
def findAltLoop (G : GridLike) (endp : Pos) (max_steps : ℕ) :
    ℕ → List (Pos × List Pos) → Finset Pos → Option (List Pos)
  | 0, _, _ => none
  | fuel + 1, queue, visited =>
    match queue with
    | [] => none
    | (current, path) :: rest =>
      if 100 ≤ visited.card then none
      else if max_steps + 2 < path.length then findAltLoop G endp max_steps fuel rest visited
      else if current = endp then some (path.drop 1)
      else
        let step := (G.get_neighbors current.1 current.2).foldl
          (fun (acc : List (Pos × List Pos) × Finset Pos) nb =>
            if G.is_traversable nb.1 nb.2 && decide (nb ∉ acc.2) then
              (acc.1 ++ [(nb, path ++ [nb])], insert nb acc.2)
            else acc)
          (rest, visited)
        findAltLoop G endp max_steps fuel step.1 step.2

/-- `HillClimbing._find_alternative_route`. -/
def find_alternative_route (G : GridLike) (start endp : Pos) (max_steps : ℕ) :
    Option (List Pos) :=
  findAltLoop G endp max_steps 600 [(start, [start])] {start}

/-- `HillClimbing.mutate_path`: replace a random contiguous segment by an
alternative route if one is found and non-empty (`if new_segment:`),
otherwise return the path unchanged. -/
def mutate_path (G : GridLike) (rng : ℕ → ℕ) (path : List Pos) (i : ℕ) : List Pos × ℕ :=
  if path.length < 3 then (path, i)
  else
    let start_idx := randint rng i 0 (path.length - 2)
    let end_idx := randint rng (i + 1) (start_idx + 1) (path.length - 1)
    let new_segment := find_alternative_route G (path.getD start_idx (0, 0))
      (path.getD end_idx (0, 0)) (end_idx - start_idx)
    match new_segment with
    | some seg =>
      if seg ≠ [] then (path.take start_idx ++ seg ++ path.drop (end_idx + 1), i + 2)
      else (path, i + 2)
    | none => (path, i + 2)

/-- The `for iteration in range(self.max_iterations)` loop of
`HillClimbing.search`.  State: current path/cost, best path/cost,
`nodes_evaluated`, stream index. -/
def hcIterate (G : GridLike) (goal : Pos) (rng : ℕ → ℕ) :
    ℕ → List Pos → ℕ∞ → Option (List Pos) → ℕ∞ → ℕ → ℕ →
      Option (List Pos) × ℕ∞ × ℕ × ℕ
  | 0, _, _, best_path, best_cost, nev, i => (best_path, best_cost, nev, i)
  | iters + 1, current_path, current_cost, best_path, best_cost, nev, i =>
    let m := mutate_path G rng current_path i
    let new_path := m.1
    if new_path = [] ∨ new_path.getLast? ≠ some goal then
      hcIterate G goal rng iters current_path current_cost best_path best_cost nev m.2
    else
      let new_cost := get_path_cost G new_path
      let nev := nev + 1
      let cc := if new_cost < current_cost then (new_path, new_cost)
        else (current_path, current_cost)
      let bb := if cc.2 < best_cost then (some cc.1, cc.2) else (best_path, best_cost)
      hcIterate G goal rng iters cc.1 cc.2 bb.1 bb.2 nev m.2

/-- The `for restart in range(self.max_restarts)` loop of
`HillClimbing.search`. -/
def hcRestarts (G : GridLike) (start goal : Pos) (rng : ℕ → ℕ) (max_iterations : ℕ) :
    ℕ → Option (List Pos) → ℕ∞ → ℕ → ℕ → Option (List Pos) × ℕ∞ × ℕ × ℕ
  | 0, best_path, best_cost, nev, i => (best_path, best_cost, nev, i)
  | r + 1, best_path, best_cost, nev, i =>
    let gp : Option (List Pos) × ℕ :=
      match best_path with
      | none => HillClimbing.generate_random_path G start goal rng 50 i
      | some bp => (some bp, i)
    if gp.1 = none ∨ gp.1 = some [] then
      hcRestarts G start goal rng max_iterations r best_path best_cost nev gp.2
    else
      let current_path := gp.1.getD []
      let current_cost := get_path_cost G current_path
      let res := hcIterate G goal rng max_iterations current_path current_cost
        best_path best_cost (nev + 1) gp.2
      hcRestarts G start goal rng max_iterations r res.1 res.2.1 res.2.2.1 res.2.2.2

/-- `HillClimbing.search` (constructor defaults: `max_restarts = 10`,
`max_iterations = 100`; `initial_path` defaults to `None`). -/
def HillClimbing.search (G : GridLike) (max_restarts max_iterations : ℕ) (start goal : Pos)
    (initial_path : Option (List Pos)) (rng : ℕ → ℕ) : Option (List Pos) × ℕ∞ × ℕ :=
  let best_cost : ℕ∞ :=
    if initial_path = none ∨ initial_path = some [] then ⊤
    else get_path_cost G (initial_path.getD [])
  let res := hcRestarts G start goal rng max_iterations max_restarts initial_path best_cost 0 0
  (res.1, res.2.1, res.2.2.1)

/-- The `while temperature > 1` loop of `SimulatedAnnealing.search`.
Note that the `continue` taken when the mutated path is empty or does not
end at the goal skips the `temperature *= cooling_rate` update, exactly as
in the source. -/
def saLoop (G : GridLike) (goal : Pos) (cooling_rate : ℚ) (rng : ℕ → ℕ) (accept : ℕ → Bool) :
    ℕ → List Pos → ℕ∞ → List Pos → ℕ∞ → ℚ → ℕ → ℕ → Option (List Pos × ℕ∞ × ℕ)
  | 0, _, _, _, _, _, _, _ => none
  | fuel + 1, current_path, current_cost, best_path, best_cost, temperature, nev, i =>
    if temperature ≤ 1 then some (best_path, best_cost, nev)
    else
      let m := mutate_path G rng current_path i
      let new_path := m.1
      let nev := nev + 1
      if new_path = [] ∨ new_path.getLast? ≠ some goal then
        saLoop G goal cooling_rate rng accept fuel current_path current_cost
          best_path best_cost temperature nev m.2
      else
        let new_cost := get_path_cost G new_path
        let acc := decide (new_cost < current_cost) || accept m.2
        let i' := if new_cost < current_cost then m.2 else m.2 + 1
        if acc then
          let bb := if new_cost < best_cost then (new_path, new_cost)
            else (best_path, best_cost)
          saLoop G goal cooling_rate rng accept fuel new_path new_cost
            bb.1 bb.2 (temperature * cooling_rate) nev i'
        else
          saLoop G goal cooling_rate rng accept fuel current_path current_cost
            best_path best_cost (temperature * cooling_rate) nev i'

/-- `SimulatedAnnealing.search` (constructor defaults:
`initial_temp = 1000`, `cooling_rate = 0.95`).  Unlike the other
strategies, the seed path is a required argument. -/
def SimulatedAnnealing.search (G : GridLike) (initial_temp cooling_rate : ℚ)
    (start goal : Pos) (initial_path : List Pos) (rng : ℕ → ℕ) (accept : ℕ → Bool)
    (fuel : ℕ) : Option (List Pos × ℕ∞ × ℕ) :=
  let current_cost := get_path_cost G initial_path
  saLoop G goal cooling_rate rng accept fuel initial_path current_cost
    initial_path current_cost initial_temp 1 0

/-! ## The delivery agent (`agent/delivery_agent.py`) -/

/-- `AgentState` enum. -/
inductive AgentState where
  | PLANNING
  | MOVING
  | REPLANNING
  | COMPLETED
deriving DecidableEq, Repr

/-- `DeliveryAgent` run state. -/
structure DeliveryAgent where
  start : Pos
  goal : Pos
  grid : Grid
  fuel : ℕ
  time_limit : ℕ
  position : Pos
  path : List Pos
  cost : ℕ∞
  time_elapsed : ℕ
  fuel_remaining : ℕ∞
  state : AgentState
  replan_count : ℕ
  total_nodes_expanded : ℕ

/-- `DeliveryAgent.__init__`. -/
def DeliveryAgent.init (start goal : Pos) (grid : Grid)
    (fuel : ℕ := 100) (time_limit : ℕ := 100) : DeliveryAgent :=
  ⟨start, goal, grid, fuel, time_limit, start, [], 0, 0, (fuel : ℕ∞), .PLANNING, 0, 0⟩

/-- `DeliveryAgent.move`: one step along the planned path.  The index
`self.path[1]` is modelled with a default that is never reached, the guard
`len(self.path) <= 1` having already returned. -/
def DeliveryAgent.move (a : DeliveryAgent) : Bool × DeliveryAgent :=
  if a.path = [] ∨ a.position = a.goal then (false, { a with state := .COMPLETED })
  else if a.path.length ≤ 1 then (false, a)
  else
    let next_pos := a.path.getD 1 (0, 0)
    let move_cost := a.grid.get_cost next_pos.1 next_pos.2
    if a.fuel_remaining < move_cost ∨ a.time_limit ≤ a.time_elapsed then (false, a)
    else
      (true, { a with
        position := next_pos,
        cost := a.cost + move_cost,
        fuel_remaining := a.fuel_remaining - move_cost,
        time_elapsed := a.time_elapsed + 1,
        path := a.path.drop 1 })

/-! ## Specification-side notions: steps, walks, reachability, cost -/

/-- One legal expansion step: `q` is one of the (in-bounds, 4-connected)
neighbours of `p` and is traversable — precisely the filter used by
`get_successors`. -/
def StepOK (G : GridLike) (p q : Pos) : Prop :=
  q ∈ G.get_neighbors p.1 p.2 ∧ G.is_traversable q.1 q.2 = true

/-- A walk through the environment recorded as its list of positions,
starting at `s`.  Its cost is `get_path_cost` (the origin is free). -/
def IsWalkFrom (G : GridLike) (s : Pos) (l : List Pos) : Prop :=
  l.head? = some s ∧ l.Chain' (StepOK G)

/-- `t` can be reached from `s` by a walk. -/
def Reachable (G : GridLike) (s t : Pos) : Prop :=
  ∃ l, IsWalkFrom G s l ∧ l.getLast? = some t

/-- `c` is the least cost of any walk from `s` to `t` (and some walk
attains it). -/
def IsLeastWalkCost (G : GridLike) (s t : Pos) (c : ℕ∞) : Prop :=
  (∃ l, IsWalkFrom G s l ∧ l.getLast? = some t ∧ get_path_cost G l = c) ∧
    ∀ l, IsWalkFrom G s l → l.getLast? = some t → c ≤ get_path_cost G l

/-- A single 4-connected step: exactly one coordinate changes, by exactly
one. -/
def FourStep (p q : Pos) : Prop :=
  (q.1 = p.1 ∧ (q.2 = p.2 + 1 ∨ q.2 = p.2 - 1)) ∨
    (q.2 = p.2 ∧ (q.1 = p.1 + 1 ∨ q.1 = p.1 - 1))

/-- The parent chain of a node is rooted at `s` and every child-parent link
is a legal expansion step (costs unconstrained). -/
inductive WalkChain (G : GridLike) (s : Pos) : Node → Prop where
  | root (c : ℕ∞) (t : ℕ) : WalkChain G s (Node.mk s.1 s.2 none c t)
  | step (par : Node) (x y : ℤ) (c : ℕ∞) (t : ℕ) :
      WalkChain G s par → StepOK G par.pos (x, y) →
      WalkChain G s (Node.mk x y (some par) c t)

/-- As `WalkChain`, but additionally every node's recorded cost is the cost
of its parent chain. -/
inductive GoodChain (G : GridLike) (s : Pos) : Node → Prop where
  | root (t : ℕ) : GoodChain G s (Node.mk s.1 s.2 none 0 t)
  | step (par : Node) (x y : ℤ) (t : ℕ) :
      GoodChain G s par → StepOK G par.pos (x, y) →
      GoodChain G s (Node.mk x y (some par) (par.cost + G.get_cost x y) t)

/-- The in-bounds positions of a grid, as a finite set. -/
def Grid.validFinset (g : Grid) : Finset Pos :=
  (Finset.range g.width ×ˢ Finset.range g.height).image fun p => ((p.1 : ℤ), (p.2 : ℤ))

/-- Fuel that provably suffices for `bfsLoop` on grid `g`
(every iteration pops one entry; at most `width * height + 1` entries are
ever enqueued since each enqueue inserts a fresh position into `explored`). -/
def Grid.bfsFuel (g : Grid) : ℕ := 2 * (g.width * g.height + 1) + 2

/-- Fuel that provably suffices for `ucsLoop` and `astarLoop` on grid `g`
(see the potential-function lemmas below). -/
def Grid.dijkstraFuel (g : Grid) : ℕ :=
  (g.width * g.height + 1) * (4 * (g.width * g.height + 1) + 2) + 2

/-! ## Concrete fixtures used by counterexamples and witnesses -/

/-- A 3×3 all-flat grid. -/
def gFlat3 : Grid := Grid.init 3 3

/-- A 2×1 grid whose cell `(1,0)` is a static obstacle: `(1,0)` is in
bounds yet unreachable, and `get_cost 1 0 = 1`. -/
def gBlocked : Grid := (Grid.init 2 1).set_obstacle 1 0

/-- A freshly initialised agent (empty path, state `PLANNING`). -/
def agentFresh : DeliveryAgent := DeliveryAgent.init (0, 0) (1, 1) gFlat3 100 100

/-- An obstacle whose schedule holds two waypoints with equal times and
different coordinates. -/
def obsDup : MovingObstacle := MovingObstacle.make "o1" [(0, 0, 0), (0, 1, 1)]

/-- An obstacle with strictly increasing waypoint times. -/
def obsW : MovingObstacle := MovingObstacle.make "w" [(0, 0, 0), (2, 4, 4)]

/-- Dynamic grid over a 2×2 base with one obstacle sitting at `(1,1)` at
time 0 and at `(9,9)` from time 5 on. -/
def dgA : DynamicGrid := (DynamicGrid.init (Grid.init 2 2)).add_moving_obstacle "m" [(0, 1, 1), (5, 9, 9)]

/-- Same base grid and same time-0 occupancy as `dgA`, but a schedule that
differs from `dgA`'s everywhere after time 0. -/
def dgB : DynamicGrid := (DynamicGrid.init (Grid.init 2 2)).add_moving_obstacle "m" [(0, 1, 1), (7, 3, 3)]

/-- A constant random stream (any stream works wherever this is used). -/
def rng0 : ℕ → ℕ := fun _ => 0

/-- An agent mid-mission with two waypoints left but no fuel. -/
def agentLowFuel : DeliveryAgent :=
  { DeliveryAgent.init (0, 0) (2, 2) gFlat3 0 100 with
    path := [(0, 0), (1, 0)], state := .MOVING }

/-- Sum of the finite values of a cost map (in every state the searches
reach, all stored values are finite). -/
def mapValSum (m : List (Pos × ℕ∞)) : ℕ := (m.map fun e => e.2.untop' 0).sum

/-- Termination potential of a cost map: stored values plus a reserve for
the at most `n` keys not yet present (each worth more than any storable
value, see `MapB`). -/
def mapPotential (n : ℕ) (m : List (Pos × ℕ∞)) : ℕ :=
  mapValSum m + (n - m.length) * (4 * n + 1)

/-- Bookkeeping invariant of the `explored` / `g_score` dictionaries on
grid `g` with start `s`: distinct keys, keys in bounds (or the start), and
every stored value at most `4 ·` (number of keys): a fresh key's value is
one relaxation step (cost ≤ 4) above an existing value. -/
structure MapB (s : Pos) (g : Grid) (m : List (Pos × ℕ∞)) : Prop where
  nodup : (m.map Prod.fst).Nodup
  keys_sub : ∀ e ∈ m, (e : Pos × ℕ∞).1 ∈ insert s g.validFinset
  vals_le : ∀ e ∈ m, (e : Pos × ℕ∞).2 ≤ ((4 * m.length : ℕ) : ℕ∞)

/-- All relaxations out of `p` (recorded at value `w`) are reflected in the
map `m`: every legal step target has a recorded value at most `w` plus the
step cost. -/
def ClosedAt (G : GridLike) (m : List (Pos × ℕ∞)) (p : Pos) (w : ℕ∞) : Prop :=
  ∀ q, StepOK G p q → ∃ wq, lookupK m q = some wq ∧ wq ≤ w + G.get_cost q.1 q.2

/-- The correctness invariant of the UCS loop state: frontier entries carry
cost-correct chains keyed by their cost and dominate their recorded value;
recorded values are chain costs; every recorded position is pending on the
frontier at its recorded value or fully relaxed; the start is recorded at
`0`; a recorded goal is always pending (the loop returns at a goal pop
before the stale check can drop one). -/
structure UCSInv (G : GridLike) (s goal : Pos) (frontier : List (ℕ∞ × Node))
    (explored : List (Pos × ℕ∞)) : Prop where
  fr_chain : ∀ e ∈ frontier, GoodChain G s (e : ℕ∞ × Node).2 ∧ (e : ℕ∞ × Node).2.cost = e.1
  fr_rec : ∀ e ∈ frontier, ∃ w, lookupK explored (e : ℕ∞ × Node).2.pos = some w ∧ w ≤ e.1
  exp_ach : ∀ p w, lookupK explored p = some w →
    ∃ nd, GoodChain G s nd ∧ nd.pos = p ∧ nd.cost = w
  exp_cut : ∀ p w, lookupK explored p = some w →
    (∃ e ∈ frontier, (e : ℕ∞ × Node).2.pos = p ∧ e.1 = w) ∨ ClosedAt G explored p w
  start_rec : lookupK explored s = some 0
  goal_open : ∀ w, lookupK explored goal = some w →
    ∃ e ∈ frontier, (e : ℕ∞ × Node).2.pos = goal ∧ e.1 = w

/-- The heuristic value of a position, as an `f`-key summand. -/
def fH (hfn : ℤ → ℤ → ℤ → ℤ → ℚ) (goal p : Pos) : WithTop ℚ :=
  ((hfn p.1 p.2 goal.1 goal.2 : ℚ) : WithTop ℚ)

/-- The correctness invariant of the A* loop state (the `f_score` dict is
never read back by the algorithm and carries no invariant).  Open entries
carry cost-correct chains whose key is the node cost plus the heuristic at
the node position and dominate their recorded `g_score`; recorded values
are chain costs; every recorded position is pending at its recorded value
or fully relaxed; the start is recorded at `0`; a recorded goal is always
pending. -/
structure AInv (G : GridLike) (hfn : ℤ → ℤ → ℤ → ℤ → ℚ) (s goal : Pos)
    (open_set : List (WithTop ℚ × Node)) (g_score : List (Pos × ℕ∞)) : Prop where
  fr_chain : ∀ e ∈ open_set, GoodChain G s (e : WithTop ℚ × Node).2 ∧
    (e.1 = toQ (e : WithTop ℚ × Node).2.cost + fH hfn goal (e : WithTop ℚ × Node).2.pos ∨
      (e.1 = 0 ∧ (e : WithTop ℚ × Node).2.cost = 0))
  fr_rec : ∀ e ∈ open_set, ∃ w,
    lookupK g_score (e : WithTop ℚ × Node).2.pos = some w ∧ w ≤ (e : WithTop ℚ × Node).2.cost
  exp_ach : ∀ p w, lookupK g_score p = some w →
    ∃ nd, GoodChain G s nd ∧ nd.pos = p ∧ nd.cost = w
  exp_cut : ∀ p w, lookupK g_score p = some w →
    (∃ e ∈ open_set, (e : WithTop ℚ × Node).2.pos = p ∧
      (e : WithTop ℚ × Node).2.cost = w) ∨ ClosedAt G g_score p w
  start_rec : lookupK g_score s = some 0
  goal_open : ∀ w, lookupK g_score goal = some w →
    ∃ e ∈ open_set, (e : WithTop ℚ × Node).2.pos = goal ∧ (e : WithTop ℚ × Node).2.cost = w

/-- Consistency of a heuristic on an environment: it vanishes at the goal,
and decreases by at most the step cost along any legal step. -/
def ConsistentH (G : GridLike) (hfn : ℤ → ℤ → ℤ → ℤ → ℚ) (goal : Pos) : Prop :=
  fH hfn goal goal = 0 ∧ (∀ p, 0 ≤ fH hfn goal p) ∧
    ∀ p q, StepOK G p q → fH hfn goal p ≤ toQ (G.get_cost q.1 q.2) + fH hfn goal q

/-! # Theorems -/

/-! ## Basic grid lemmas -/

theorem is_valid_position_iff (g : Grid) (x y : ℤ) :
    g.is_valid_position x y = true ↔
      0 ≤ x ∧ x < (g.width : ℤ) ∧ 0 ≤ y ∧ y < (g.height : ℤ) := by
  simp [Grid.is_valid_position, and_assoc]

/-- Claim C5: for every position `(x,y)` outside `[0,width) × [0,height)`,
`Grid.is_traversable` returns `false` and `Grid.get_cost` returns infinity,
for any time argument. -/
theorem C5_out_of_bounds_query (g : Grid) (x y time : ℤ)
    (h : ¬ (0 ≤ x ∧ x < (g.width : ℤ) ∧ 0 ≤ y ∧ y < (g.height : ℤ))) :
    g.is_traversable x y time = false ∧ g.get_cost x y = ⊤ := by
  have hv : g.is_valid_position x y = false := by
    rw [Bool.eq_false_iff, Ne, is_valid_position_iff]
    exact h
  exact ⟨by simp [Grid.is_traversable, hv], by simp [Grid.get_cost, hv]⟩

theorem C5_out_of_bounds_query_witness :
    (¬ ((0 : ℤ) ≤ 5 ∧ (5 : ℤ) < (gFlat3.width : ℤ) ∧ (0 : ℤ) ≤ 0 ∧ (0 : ℤ) < (gFlat3.height : ℤ))) ∧
      (gFlat3.is_traversable 5 0 7 = false ∧ gFlat3.get_cost 5 0 = ⊤) :=
  ⟨by decide, C5_out_of_bounds_query gFlat3 5 0 7 (by decide)⟩

/-- Claim C6: `DynamicGrid.is_traversable (x, y, t)` holds iff the base
grid reports `(x, y)` traversable and no registered moving obstacle sits at
`(x, y)` at time `t`; re-querying the updated object at the same time gives
the same answer. -/
theorem C6_dynamic_traversability (dg : DynamicGrid) (x y time : ℤ) :
    ((dg.is_traversable x y time).1 = true ↔
      (dg.base_grid.is_traversable x y = true ∧
        ∀ ob ∈ dg.moving_obstacles, ob.get_position_at_time time ≠ (x, y))) ∧
    (((dg.is_traversable x y time).2.is_traversable x y time).1 =
      (dg.is_traversable x y time).1) := by
  constructor
  · by_cases hb : dg.base_grid.is_traversable x y = true
    · simp [DynamicGrid.is_traversable, DynamicGrid.update_dynamic_obstacles, hb,
        List.mem_map]
    · simp [DynamicGrid.is_traversable, hb, Bool.eq_false_iff.mpr hb]
  · by_cases hb : dg.base_grid.is_traversable x y = true
    · simp [DynamicGrid.is_traversable, DynamicGrid.update_dynamic_obstacles, hb]
    · simp [DynamicGrid.is_traversable, hb]

/-! ## Claim C3: `DeliveryAgent.move` failure cases -/

/-- Counterexample to claim C3 as stated: on an agent whose path is empty
(the freshly initialised agent), `move` returns failure but mutates the
lifecycle state from `PLANNING` to `COMPLETED`. -/
theorem C3_counterexample :
    agentFresh.path = [] ∧ agentFresh.move.1 = false ∧
      agentFresh.move.2.state ≠ agentFresh.state := by
  refine ⟨rfl, rfl, ?_⟩
  decide

/-- Claim C3 (amended): `move` returns failure in each of the four listed
situations; in the empty-path case it additionally sets the lifecycle state
to `COMPLETED` (mutating nothing else), while in the remaining cases
(fewer than two waypoints with the goal not yet reached, insufficient fuel,
or exhausted time budget) it leaves the agent entirely unchanged. -/
theorem C3_move_failure_cases (a : DeliveryAgent) :
    (a.path = [] → a.move = (false, { a with state := .COMPLETED })) ∧
    (a.path ≠ [] → a.position ≠ a.goal →
      (a.path.length ≤ 1 ∨
        a.fuel_remaining < a.grid.get_cost (a.path.getD 1 (0, 0)).1 (a.path.getD 1 (0, 0)).2 ∨
        a.time_limit ≤ a.time_elapsed) →
      a.move = (false, a)) := by
  constructor
  · intro h
    unfold DeliveryAgent.move
    simp [h]
  · intro h hpos hcase
    unfold DeliveryAgent.move
    rw [if_neg (by simp [h, hpos])]
    by_cases hl : a.path.length ≤ 1
    · rw [if_pos hl]
    · rw [if_neg hl, if_pos]
      rcases hcase with hc | hc | hc
      · exact absurd hc hl
      · exact Or.inl hc
      · exact Or.inr hc

theorem C3_move_failure_cases_witness :
    agentLowFuel.move = (false, agentLowFuel) :=
  (C3_move_failure_cases agentLowFuel).2 (by decide) (by decide) (by decide)

/-! ## Claim C10: the tree searches consult only time-0 traversability -/

/-- Claim C10: BFS, UCS and A* evaluate traversability with no time
argument (so at the default time 0); over two environments whose static
cells agree, the returned `(path, cost, nodes-expanded)` triples agree
regardless of what the moving-obstacle schedules do at times other than 0
(formally: provided the obstacles' interpolated time-0 positions agree). -/
theorem C10_searches_depend_on_time0_only (dg1 dg2 : DynamicGrid)
    (hbase : dg1.base_grid = dg2.base_grid)
    (hocc : dg1.moving_obstacles.map (fun ob => ob.get_position_at_time 0) =
      dg2.moving_obstacles.map (fun ob => ob.get_position_at_time 0))
    (hfn : ℤ → ℤ → ℤ → ℤ → ℚ) (start goal : Pos) (fuel : ℕ) :
    BFS.search dg1.toGridLike start goal fuel = BFS.search dg2.toGridLike start goal fuel ∧
    UCS.search dg1.toGridLike start goal fuel = UCS.search dg2.toGridLike start goal fuel ∧
    AStar.search dg1.toGridLike hfn start goal fuel =
      AStar.search dg2.toGridLike hfn start goal fuel := by
  have hG : dg1.toGridLike = dg2.toGridLike := by
    unfold DynamicGrid.toGridLike
    congr 1
    · rw [hbase]
    · funext x y
      simp only [DynamicGrid.is_traversable, DynamicGrid.update_dynamic_obstacles, hbase, hocc]
      by_cases hb : (!dg2.base_grid.is_traversable x y) = true
      · simp [hb]
      · simp [hb]
    · rw [hbase]
  rw [hG]
  exact ⟨rfl, rfl, rfl⟩

theorem C10_searches_depend_on_time0_only_witness :
    dgA.base_grid = dgB.base_grid ∧
    dgA.moving_obstacles.map (fun ob => ob.get_position_at_time 0) =
      dgB.moving_obstacles.map (fun ob => ob.get_position_at_time 0) ∧
    (BFS.search dgA.toGridLike (0, 0) (1, 1) 20 = BFS.search dgB.toGridLike (0, 0) (1, 1) 20 ∧
     UCS.search dgA.toGridLike (0, 0) (1, 1) 20 = UCS.search dgB.toGridLike (0, 0) (1, 1) 20 ∧
     AStar.search dgA.toGridLike manhattan_distance (0, 0) (1, 1) 20 =
       AStar.search dgB.toGridLike manhattan_distance (0, 0) (1, 1) 20) :=
  ⟨rfl, by decide,
    C10_searches_depend_on_time0_only dgA dgB rfl (by decide) manhattan_distance (0, 0) (1, 1) 20⟩

/-! ## Claim C9: `MovingObstacle.get_position_at_time` at and around waypoints -/

theorem pyRound_intCast (n : ℤ) : pyRound ((n : ℤ) : ℚ) = n := by
  unfold pyRound
  norm_num

theorem interp1_right (t1 v1 t2 v2 : ℤ) (h : t1 ≠ t2) :
    MovingObstacle.interp1 t1 v1 t2 v2 t2 = v2 := by
  unfold MovingObstacle.interp1
  have hne : ((t2 : ℚ) - (t1 : ℚ)) ≠ 0 := sub_ne_zero.mpr (by exact_mod_cast h.symm)
  rw [div_self hne, one_mul]
  have : (v1 : ℚ) + ((v2 : ℚ) - (v1 : ℚ)) = ((v2 : ℤ) : ℚ) := by ring
  rw [this, pyRound_intCast]

/-- `getLast?` membership, by induction. -/
theorem getLast?_mem_self {α : Type} {l : List α} {z : α} (h : l.getLast? = some z) : z ∈ l := by
  induction l with
  | nil => simp at h
  | cons x rest ih =>
    cases rest with
    | nil => simp_all
    | cons y r =>
      rw [List.getLast?_cons_cons] at h
      exact List.mem_cons_of_mem _ (ih h)

/-- In a time-sorted list the head's time bounds the last time. -/
theorem head_time_le_last {l : List (ℤ × ℤ × ℤ)} {a w : ℤ × ℤ × ℤ}
    (h : l.Chain' fun u v => u.1 ≤ v.1) (ha : l.head? = some a)
    (hw : l.getLast? = some w) : a.1 ≤ w.1 := by
  induction l generalizing a with
  | nil => simp at ha
  | cons x rest ih =>
    obtain rfl : x = a := by simpa using ha
    cases rest with
    | nil =>
      obtain rfl : x = w := by simpa using hw
      exact le_refl _
    | cons y r =>
      rw [List.getLast?_cons_cons] at hw
      have hc := List.chain'_cons.mp h
      exact le_trans hc.1 (ih hc.2 rfl hw)

/-- Under strictly increasing times, a waypoint whose time is at most the
head's time is the head. -/
theorem waypoint_eq_head {l : List (ℤ × ℤ × ℤ)} {a w : ℤ × ℤ × ℤ}
    (hp : l.Pairwise fun u v => u.1 < v.1) (ha : l.head? = some a)
    (hw : w ∈ l) (hle : w.1 ≤ a.1) : w = a := by
  cases l with
  | nil => simp at ha
  | cons x rest =>
    obtain rfl : x = a := by simpa using ha
    rcases List.mem_cons.mp hw with rfl | hmem
    · rfl
    · exact absurd ((List.pairwise_cons.mp hp).1 w hmem) (not_lt.mpr hle)

/-- Under strictly increasing times, a waypoint whose time is at least the
last time is the last waypoint. -/
theorem waypoint_eq_last {l : List (ℤ × ℤ × ℤ)} {z w : ℤ × ℤ × ℤ}
    (hp : l.Pairwise fun u v => u.1 < v.1) (hz : l.getLast? = some z)
    (hw : w ∈ l) (hle : z.1 ≤ w.1) : w = z := by
  induction l with
  | nil => simp at hw
  | cons x rest ih =>
    cases rest with
    | nil =>
      obtain rfl : x = z := by simpa using hz
      simpa using hw
    | cons y r =>
      rw [List.getLast?_cons_cons] at hz
      rcases List.mem_cons.mp hw with rfl | hmem
      · have hzmem : z ∈ y :: r := getLast?_mem_self hz
        have := (List.pairwise_cons.mp hp).1 z hzmem
        exact absurd (lt_of_le_of_lt hle this) (lt_irrefl _)
      · exact ih (List.pairwise_cons.mp hp).2 hz hmem

/-- The segment scan returns the exact coordinates of a strictly later
waypoint queried exactly at its own time. -/
theorem segLoop_at_waypoint :
    ∀ (l : List (ℤ × ℤ × ℤ)) (w : ℤ × ℤ × ℤ),
      l.Chain' (fun u v => u.1 < v.1) →
      ∀ a, l.head? = some a → a.1 < w.1 → w ∈ l →
      MovingObstacle.segLoop l w.1 = (w.2.1, w.2.2) := by
  intro l
  induction l with
  | nil => intro w _ a ha; simp at ha
  | cons x rest ih =>
    intro w hchain a ha hlt hw
    obtain rfl : x = a := by simpa using ha
    have hwrest : w ∈ rest := by
      rcases List.mem_cons.mp hw with rfl | hmem
      · exact absurd hlt (lt_irrefl _)
      · exact hmem
    cases rest with
    | nil => simp at hwrest
    | cons b r =>
      have hab : x.1 < b.1 := (List.chain'_cons.mp hchain).1
      have hchain' : (b :: r).Chain' fun u v => u.1 < v.1 := (List.chain'_cons.mp hchain).2
      by_cases hwb : w = b
      · subst hwb
        have hcond : x.1 ≤ w.1 ∧ w.1 ≤ w.1 := ⟨le_of_lt hlt, le_refl _⟩
        simp only [MovingObstacle.segLoop]
        rw [if_pos hcond, if_neg (by exact fun h => absurd h (ne_of_gt hlt)),
          interp1_right x.1 x.2.1 w.1 w.2.1 (ne_of_lt hlt),
          interp1_right x.1 x.2.2 w.1 w.2.2 (ne_of_lt hlt)]
      · haveI : IsTrans (ℤ × ℤ × ℤ) (fun u v => u.1 < v.1) :=
          ⟨fun _ _ _ h1 h2 => lt_trans h1 h2⟩
        have hp' : (b :: r).Pairwise fun u v => u.1 < v.1 :=
          List.chain'_iff_pairwise.mp hchain'
        have hwr : w ∈ r := (List.mem_cons.mp hwrest).resolve_left hwb
        have hbw : b.1 < w.1 := (List.pairwise_cons.mp hp').1 w hwr
        have hcond : ¬ (x.1 ≤ w.1 ∧ w.1 ≤ b.1) := fun hc => absurd hc.2 (not_le.mpr hbw)
        simp only [MovingObstacle.segLoop]
        rw [if_neg hcond]
        exact ih w hchain' b rfl hbw hwrest

/-- For a non-empty list, `getLast?` is `some` of `getLastD`. -/
theorem getLast?_eq_getLastD_of_ne_nil {α : Type} {l : List α} (h : l ≠ []) (d : α) :
    l.getLast? = some (l.getLastD d) := by
  rw [List.getLastD_eq_getLast?]
  obtain ⟨z, hz⟩ := Option.isSome_iff_exists.mp (List.getLast?_isSome.mpr h)
  rw [hz]
  rfl

/-- Claim C9 (amended): for every `MovingObstacle` with a non-empty sorted
schedule, a query strictly before the first waypoint time returns the first
waypoint's coordinates and a query strictly after the last waypoint time
returns the last waypoint's coordinates; a query exactly at a waypoint's
time returns that waypoint's exact coordinates provided the waypoint times
are strictly increasing (with duplicate times this last part fails, see the
counterexample). -/
theorem C9_waypoint_and_boundary_queries (ob : MovingObstacle)
    (hne : ob.schedule ≠ [])
    (hsorted : ob.schedule.Chain' fun u v => u.1 ≤ v.1) :
    (∀ time : ℤ, time < (ob.schedule.headD (0, 0, 0)).1 →
      ob.get_position_at_time time =
        ((ob.schedule.headD (0, 0, 0)).2.1, (ob.schedule.headD (0, 0, 0)).2.2)) ∧
    (∀ time : ℤ, (ob.schedule.getLastD (0, 0, 0)).1 < time →
      ob.get_position_at_time time =
        ((ob.schedule.getLastD (0, 0, 0)).2.1, (ob.schedule.getLastD (0, 0, 0)).2.2)) ∧
    ((ob.schedule.Chain' fun u v => u.1 < v.1) →
      ∀ w ∈ ob.schedule, ob.get_position_at_time w.1 = (w.2.1, w.2.2)) := by
  obtain ⟨oid, sched⟩ := ob
  cases sched with
  | nil => exact absurd rfl hne
  | cons first rest =>
    simp only [MovingObstacle.schedule] at hsorted ⊢
    have hz : (first :: rest).getLast? = some ((first :: rest).getLastD (0, 0, 0)) :=
      getLast?_eq_getLastD_of_ne_nil (by simp) _
    have hfl : first.1 ≤ ((first :: rest).getLastD (0, 0, 0)).1 :=
      head_time_le_last hsorted rfl hz
    refine ⟨?_, ?_, ?_⟩
    · intro time hlt
      simp only [List.headD_eq_head?_getD, List.head?_cons, Option.getD_some] at hlt ⊢
      simp only [MovingObstacle.get_position_at_time]
      rw [if_pos (le_of_lt hlt)]
    · intro time hgt
      simp only [MovingObstacle.get_position_at_time]
      rw [if_neg (not_le.mpr (lt_of_le_of_lt hfl hgt)), if_pos (le_of_lt hgt)]
    · intro hstrict w hw
      haveI : IsTrans (ℤ × ℤ × ℤ) (fun u v => u.1 < v.1) :=
        ⟨fun _ _ _ h1 h2 => lt_trans h1 h2⟩
      have hp : (first :: rest).Pairwise fun u v => u.1 < v.1 :=
        List.chain'_iff_pairwise.mp hstrict
      simp only [MovingObstacle.get_position_at_time]
      by_cases h1 : w.1 ≤ first.1
      · obtain rfl : w = first := waypoint_eq_head hp rfl hw h1
        rw [if_pos (le_refl _)]
      · by_cases h2 : ((first :: rest).getLastD (0, 0, 0)).1 ≤ w.1
        · have hwl : w = (first :: rest).getLastD (0, 0, 0) :=
            waypoint_eq_last hp hz hw h2
          rw [if_neg h1, if_pos h2, ← hwl]
        · rw [if_neg h1, if_neg h2]
          exact segLoop_at_waypoint (first :: rest) w hstrict first rfl (not_le.mp h1) hw

/-- Counterexample to claim C9 as stated: with two waypoints sharing time 0,
the waypoint `(0, 1, 1)` queried exactly at its time 0 yields `(0, 0)`
(the other time-0 waypoint's coordinates), not `(1, 1)`. -/
theorem C9_counterexample :
    ((0, 1, 1) : ℤ × ℤ × ℤ) ∈ obsDup.schedule ∧
    obsDup.get_position_at_time 0 = (0, 0) ∧
    ((0 : ℤ), (0 : ℤ)) ≠ ((1 : ℤ), (1 : ℤ)) := by
  decide

theorem C9_waypoint_and_boundary_queries_witness :
    obsW.get_position_at_time (-1) = (0, 0) ∧
    obsW.get_position_at_time 5 = (4, 4) ∧
    obsW.get_position_at_time 2 = (4, 4) := by
  have hsch : obsW.schedule = [(0, 0, 0), (2, 4, 4)] := by decide
  have hle : obsW.schedule.Chain' fun u v => u.1 ≤ v.1 := by
    rw [hsch]; exact List.chain'_cons.mpr ⟨by decide, List.chain'_singleton _⟩
  have hlt : obsW.schedule.Chain' fun u v => u.1 < v.1 := by
    rw [hsch]; exact List.chain'_cons.mpr ⟨by decide, List.chain'_singleton _⟩
  have h := C9_waypoint_and_boundary_queries obsW (by decide) hle
  exact ⟨(h.1 (-1) (by decide)).trans (by decide),
    (h.2.1 5 (by decide)).trans (by decide),
    (h.2.2 hlt (2, 4, 4) (by decide)).trans (by decide)⟩

/-- Every constructed obstacle's schedule is sorted by time, so the
sortedness hypotheses above hold for every `MovingObstacle.make`. -/
theorem insertByTime_head_cases (w : ℤ × ℤ × ℤ) (l : List (ℤ × ℤ × ℤ)) :
    (insertByTime w l).head? = some w ∨ (insertByTime w l).head? = l.head? := by
  cases l with
  | nil => left; rfl
  | cons a rest =>
    simp only [insertByTime]
    by_cases hc : a.1 < w.1
    · right; rw [if_pos hc]; rfl
    · left; rw [if_neg hc]; rfl

theorem insertByTime_sorted (w : ℤ × ℤ × ℤ) {l : List (ℤ × ℤ × ℤ)}
    (h : l.Chain' fun u v => u.1 ≤ v.1) :
    (insertByTime w l).Chain' fun u v => u.1 ≤ v.1 := by
  induction l with
  | nil => simp [insertByTime]
  | cons a rest ih =>
    simp only [insertByTime]
    by_cases hc : a.1 < w.1
    · rw [if_pos hc]
      have hparts := List.chain'_cons'.mp h
      refine List.chain'_cons'.mpr ⟨?_, ih hparts.2⟩
      intro z hz
      rcases insertByTime_head_cases w rest with hcase | hcase
      · rw [hcase] at hz
        obtain rfl : w = z := by simpa using hz
        exact le_of_lt hc
      · rw [hcase] at hz
        exact hparts.1 z hz
    · rw [if_neg hc]
      exact List.chain'_cons'.mpr ⟨fun z hz => by
        obtain rfl : a = z := by simpa using hz
        exact not_lt.mp hc, h⟩

theorem sortByTime_sorted (l : List (ℤ × ℤ × ℤ)) :
    (sortByTime l).Chain' fun u v => u.1 ≤ v.1 := by
  induction l with
  | nil => simp [sortByTime]
  | cons a rest ih => exact insertByTime_sorted a ih

theorem make_schedule_sorted (oid : String) (sched : List (ℤ × ℤ × ℤ)) :
    ((MovingObstacle.make oid sched).schedule).Chain' fun u v => u.1 ≤ v.1 :=
  sortByTime_sorted sched

/-! ## Claim C8: simulated annealing need not terminate -/

/-- On a single-waypoint seed path that does not end at the goal, `mutate`
returns the path unchanged (its length is below 3), the `continue` branch
fires, the temperature is never updated, and the annealing loop never
terminates: the loop state is reproduced verbatim except for counters. -/
theorem saLoop_stuck (G : GridLike) (rng : ℕ → ℕ) (accept : ℕ → Bool)
    (cc bc : ℕ∞) (bp : List Pos) :
    ∀ fuel nev i,
      saLoop G (1, 1) (19 / 20) rng accept fuel [(0, 0)] cc bp bc 1000 nev i = none := by
  intro fuel
  induction fuel with
  | zero => intro nev i; rfl
  | succ n ih =>
    intro nev i
    have hm : mutate_path G rng [((0 : ℤ), (0 : ℤ))] i = ([(0, 0)], i) := by
      unfold mutate_path
      rw [if_pos (by simp)]
    simp only [saLoop, hm]
    rw [if_neg (by norm_num), if_pos (by simp)]
    exact ih (nev + 1) i

/-- Claim C8 is contradicted by the code: with the default temperature
parameters and the non-empty seed path `[(0,0)]` toward goal `(1,1)`, the
`continue` taken when the mutated path does not end at the goal skips
`temperature *= cooling_rate`, so `SimulatedAnnealing.search` loops forever
(the fueled embedding returns `none` for every fuel, every grid, every
random stream and every acceptance oracle). -/
theorem C8_sa_nontermination (G : GridLike) (rng : ℕ → ℕ) (accept : ℕ → Bool) (fuel : ℕ) :
    SimulatedAnnealing.search G 1000 (19 / 20) (0, 0) (1, 1) [(0, 0)] rng accept fuel = none := by
  unfold SimulatedAnnealing.search
  exact saLoop_stuck G rng accept _ _ _ fuel 1 0

/-! ## Claim C7: local search and the goal-terminal property -/

/-- A successful random walk ends at the goal and is non-empty. -/
theorem genRandomLoop_ends_goal (G : GridLike) (goal : Pos) (rng : ℕ → ℕ) :
    ∀ (budget : ℕ) (path : List Pos) (visited : Finset Pos) (current : Pos) (i : ℕ)
      (l : List Pos) (i' : ℕ),
      genRandomLoop G goal rng budget path visited current i = (some l, i') →
      l ≠ [] ∧ l.getLast? = some goal := by
  intro budget
  induction budget with
  | zero => intro path visited current i l i' h; simp [genRandomLoop] at h
  | succ n ih =>
    intro path visited current i l i' h
    simp only [genRandomLoop] at h
    by_cases hn : ((G.get_neighbors current.1 current.2).filter
        fun p => G.is_traversable p.1 p.2 && decide (p ∉ visited)) = []
    · rw [if_pos hn] at h
      simp at h
    · rw [if_neg hn] at h
      by_cases hg : ((G.get_neighbors current.1 current.2).filter
          fun p => G.is_traversable p.1 p.2 && decide (p ∉ visited)).getD
            (rng i % ((G.get_neighbors current.1 current.2).filter
              fun p => G.is_traversable p.1 p.2 && decide (p ∉ visited)).length) (0, 0) = goal
      · rw [if_pos hg] at h
        injection h with h1 h2
        injection h1 with h1
        subst h1
        refine ⟨by simp, ?_⟩
        rw [List.getLast?_concat, hg]
      · rw [if_neg hg] at h
        exact ih _ _ _ _ _ _ h

/-- The iteration loop of hill climbing preserves "the best path, if
non-empty, ends at the goal": the acceptance test rejects every mutated
path that does not end at the goal. -/
theorem hcIterate_ok (G : GridLike) (goal : Pos) (rng : ℕ → ℕ) :
    ∀ (iters : ℕ) (current : List Pos) (ccost : ℕ∞) (best : Option (List Pos)) (bcost : ℕ∞)
      (nev i : ℕ),
      current ≠ [] → current.getLast? = some goal →
      (∀ l, best = some l → l ≠ [] → l.getLast? = some goal) →
      ∀ l, (hcIterate G goal rng iters current ccost best bcost nev i).1 = some l →
        l ≠ [] → l.getLast? = some goal := by
  intro iters
  induction iters with
  | zero =>
    intro current ccost best bcost nev i hc1 hc2 hbest l hl
    exact hbest l hl
  | succ n ih =>
    intro current ccost best bcost nev i hc1 hc2 hbest l hl
    simp only [hcIterate] at hl
    by_cases hbad : (mutate_path G rng current i).1 = [] ∨
        (mutate_path G rng current i).1.getLast? ≠ some goal
    · rw [if_pos hbad] at hl
      exact ih current ccost best bcost nev (mutate_path G rng current i).2 hc1 hc2 hbest l hl
    · rw [if_neg hbad] at hl
      push_neg at hbad
      obtain ⟨hne, hg⟩ := hbad
      refine ih _ _ _ _ _ _ ?_ ?_ ?_ l hl
      · split_ifs <;> simp_all
      · split_ifs <;> simp_all
      · intro l' hbb
        revert hbb
        split_ifs <;> intro hbb <;> simp_all

/-- The restart loop of hill climbing preserves "the best path, if
non-empty, ends at the goal"; fresh random walks end at the goal by
construction. -/
theorem hcRestarts_ok (G : GridLike) (start goal : Pos) (rng : ℕ → ℕ) (max_iterations : ℕ) :
    ∀ (r : ℕ) (best : Option (List Pos)) (bcost : ℕ∞) (nev i : ℕ),
      (∀ l, best = some l → l ≠ [] → l.getLast? = some goal) →
      ∀ l, (hcRestarts G start goal rng max_iterations r best bcost nev i).1 = some l →
        l ≠ [] → l.getLast? = some goal := by
  intro r
  induction r with
  | zero =>
    intro best bcost nev i hbest l hl
    exact hbest l hl
  | succ n ih =>
    intro best bcost nev i hbest l hl
    cases best with
    | none =>
      simp only [hcRestarts] at hl
      by_cases hskip : (HillClimbing.generate_random_path G start goal rng 50 i).1 = none ∨
          (HillClimbing.generate_random_path G start goal rng 50 i).1 = some []
      · rw [if_pos hskip] at hl
        exact ih none bcost nev _ (by simp) l hl
      · rw [if_neg hskip] at hl
        push_neg at hskip
        cases hgen : (HillClimbing.generate_random_path G start goal rng 50 i).1 with
        | none => exact absurd hgen hskip.1
        | some cur =>
          rw [hgen] at hl
          simp only [Option.getD_some] at hl
          obtain ⟨hne, hgl⟩ := genRandomLoop_ends_goal G goal rng 50 [start] {start} start i cur
            (HillClimbing.generate_random_path G start goal rng 50 i).2
            (Prod.ext_iff.mpr ⟨hgen, rfl⟩)
          exact ih _ _ _ _ (fun l' h1 h2 =>
            hcIterate_ok G goal rng max_iterations cur (get_path_cost G cur) none bcost
              (nev + 1) _ hne hgl (by simp) l' h1 h2) l hl
    | some bp =>
      simp only [hcRestarts] at hl
      by_cases hcur : bp = []
      · rw [if_pos (Or.inr (by rw [hcur]))] at hl
        exact ih (some bp) bcost nev i hbest l hl
      · rw [if_neg (by simp [hcur])] at hl
        simp only [Option.getD_some] at hl
        have hbp : bp.getLast? = some goal := hbest bp rfl hcur
        exact ih _ _ _ _ (fun l' h1 h2 =>
          hcIterate_ok G goal rng max_iterations bp (get_path_cost G bp) (some bp) bcost
            (nev + 1) i hcur hbp (fun l'' h1' h2' => by
              injection h1' with h1'
              exact h1' ▸ hbp) l' h1 h2) l hl

/-- The annealing loop preserves "current and best are non-empty and end at
the goal". -/
theorem saLoop_ends_goal (G : GridLike) (goal : Pos) (cooling_rate : ℚ) (rng : ℕ → ℕ)
    (accept : ℕ → Bool) :
    ∀ (fuel : ℕ) (current : List Pos) (ccost : ℕ∞) (best : List Pos) (bcost : ℕ∞)
      (temp : ℚ) (nev i : ℕ) (r : List Pos) (c : ℕ∞) (n : ℕ),
      current ≠ [] → current.getLast? = some goal →
      best ≠ [] → best.getLast? = some goal →
      saLoop G goal cooling_rate rng accept fuel current ccost best bcost temp nev i =
        some (r, c, n) →
      r ≠ [] ∧ r.getLast? = some goal := by
  intro fuel
  induction fuel with
  | zero =>
    intro current ccost best bcost temp nev i r c n _ _ _ _ h
    simp [saLoop] at h
  | succ m ih =>
    intro current ccost best bcost temp nev i r c n hc1 hc2 hb1 hb2 h
    simp only [saLoop] at h
    by_cases ht : temp ≤ 1
    · rw [if_pos ht] at h
      simp only [Option.some.injEq, Prod.mk.injEq] at h
      obtain ⟨rfl, -, -⟩ := h
      exact ⟨hb1, hb2⟩
    · rw [if_neg ht] at h
      by_cases hbad : (mutate_path G rng current i).1 = [] ∨
          (mutate_path G rng current i).1.getLast? ≠ some goal
      · rw [if_pos hbad] at h
        exact ih current ccost best bcost temp (nev + 1) _ r c n hc1 hc2 hb1 hb2 h
      · rw [if_neg hbad] at h
        push_neg at hbad
        obtain ⟨hne, hgl⟩ := hbad
        by_cases hacc : (decide (get_path_cost G (mutate_path G rng current i).1 < ccost) ||
            accept (mutate_path G rng current i).2) = true
        · rw [if_pos hacc] at h
          refine ih _ _ _ _ _ _ _ r c n hne hgl ?_ ?_ h
          · split_ifs <;> simp_all
          · split_ifs <;> simp_all
        · rw [if_neg hacc] at h
          exact ih current ccost best bcost _ (nev + 1) _ r c n hc1 hc2 hb1 hb2 h

/-- Counterexample to claim C7 as stated: hill climbing seeded with the
path `[(0,0)]`, which does not end at the goal `(1,1)`, returns that very
seed path. -/
theorem C7_counterexample :
    HillClimbing.search gFlat3.toGridLike 1 1 (0, 0) (1, 1) (some [(0, 0)]) rng0 =
      (some [(0, 0)], 0, 1) ∧
    [((0 : ℤ), (0 : ℤ))].getLast? = some ((0 : ℤ), (0 : ℤ)) ∧
    ((0 : ℤ), (0 : ℤ)) ≠ ((1 : ℤ), (1 : ℤ)) := by
  refine ⟨by decide, rfl, by decide⟩

/-- Claim C7 (amended): provided every supplied seed path is empty or ends
at the goal, `HillClimbing.search` never returns a non-empty path whose
final element differs from the goal; and `SimulatedAnnealing.search`,
whenever its loop terminates, returns a non-empty path ending at the goal
provided its (required) seed path is non-empty and ends at the goal. -/
theorem C7_local_search_goal_terminal (G : GridLike) (max_restarts max_iterations : ℕ)
    (start goal : Pos) (seed : Option (List Pos)) (rng : ℕ → ℕ)
    (hseed : ∀ l, seed = some l → l ≠ [] → l.getLast? = some goal) :
    (∀ l, (HillClimbing.search G max_restarts max_iterations start goal seed rng).1 = some l →
      l ≠ [] → l.getLast? = some goal) ∧
    (∀ (initial_temp cooling_rate : ℚ) (seedp : List Pos) (accept : ℕ → Bool) (fuel : ℕ)
      (r : List Pos) (c : ℕ∞) (n : ℕ), seedp ≠ [] → seedp.getLast? = some goal →
      SimulatedAnnealing.search G initial_temp cooling_rate start goal seedp rng accept fuel =
        some (r, c, n) → r ≠ [] ∧ r.getLast? = some goal) := by
  constructor
  · intro l hl
    exact hcRestarts_ok G start goal rng max_iterations max_restarts seed _ 0 0 hseed l hl
  · intro it cr seedp accept fuel r c n h1 h2 h
    exact saLoop_ends_goal G goal cr rng accept fuel seedp _ seedp _ it 1 0 r c n h1 h2 h1 h2 h

theorem C7_local_search_goal_terminal_witness :
    (HillClimbing.search gFlat3.toGridLike 1 1 (0, 0) (1, 1) (some [(0, 0), (1, 1)]) rng0).1 =
      some [(0, 0), (1, 1)] ∧
    [((0 : ℤ), (0 : ℤ)), ((1 : ℤ), (1 : ℤ))].getLast? = some ((1 : ℤ), (1 : ℤ)) ∧
    SimulatedAnnealing.search gFlat3.toGridLike 1 (19 / 20) (0, 0) (1, 1) [(0, 0), (1, 1)]
      rng0 (fun _ => false) 5 = some ([(0, 0), (1, 1)], 1, 1) ∧
    ([((0 : ℤ), (0 : ℤ)), ((1 : ℤ), (1 : ℤ))] ≠ [] ∧
      [((0 : ℤ), (0 : ℤ)), ((1 : ℤ), (1 : ℤ))].getLast? = some ((1 : ℤ), (1 : ℤ))) := by
  have h := C7_local_search_goal_terminal gFlat3.toGridLike 1 1 (0, 0) (1, 1)
    (some [(0, 0), (1, 1)]) rng0 (by intro l hl hne; injection hl with hl; rw [← hl]; rfl)
  refine ⟨by decide, ?_, by decide, ?_⟩
  · exact h.1 [(0, 0), (1, 1)] (by decide) (by decide)
  · exact h.2 1 (19 / 20) [(0, 0), (1, 1)] (fun _ => false) 5 [(0, 0), (1, 1)] 1 1
      (by decide) (by decide) (by decide)

/-! ## Claim C2: reconstructed paths are well-formed walks -/

/-- `reconstruct_path` on a node with a valid parent chain yields a
non-empty walk from `s` ending at the node's position. -/
theorem WalkChain.reconstruct {G : GridLike} {s : Pos} {nd : Node} (h : WalkChain G s nd) :
    reconstruct_path nd ≠ [] ∧
    (reconstruct_path nd).head? = some s ∧
    (reconstruct_path nd).getLast? = some nd.pos ∧
    (reconstruct_path nd).Chain' (StepOK G) := by
  induction h with
  | root c t =>
    refine ⟨by simp [reconstruct_path, Node.chainList], ?_, ?_, ?_⟩ <;>
      simp [reconstruct_path, Node.chainList, Node.pos, Node.x, Node.y]
  | step par x y c t hpar hstep ih =>
    obtain ⟨ih1, ih2, ih3, ih4⟩ := ih
    have hre : reconstruct_path (Node.mk x y (some par) c t) =
        reconstruct_path par ++ [(x, y)] := by
      simp [reconstruct_path, Node.chainList]
    refine ⟨by simp [hre], ?_, ?_, ?_⟩
    · rw [hre]
      cases hc : reconstruct_path par with
      | nil => exact absurd hc ih1
      | cons z zs => rw [hc] at ih2; simpa using ih2
    · rw [hre, List.getLast?_concat]
      rfl
    · rw [hre]
      refine List.Chain'.append ih4 (List.chain'_singleton _) ?_
      intro z hz w hw
      obtain rfl : par.pos = z := by rw [ih3] at hz; simpa using hz
      obtain rfl : (x, y) = w := by simpa using hw
      exact hstep

/-- Rebinding a node's cost does not disturb its parent chain. -/
theorem WalkChain.setCost {G : GridLike} {s : Pos} {nd : Node} (h : WalkChain G s nd)
    (v : ℕ∞) : WalkChain G s (nd.setCost v) := by
  cases h with
  | root c t => exact WalkChain.root v t
  | step par x y c t hp hs => exact WalkChain.step par x y v t hp hs

/-- Every successor of a chained node is chained. -/
theorem get_successors_walkChain {G : GridLike} {s : Pos} {nd : Node}
    (h : WalkChain G s nd) : ∀ m ∈ get_successors G nd, WalkChain G s m := by
  intro m hm
  simp only [get_successors, List.mem_filterMap] at hm
  obtain ⟨q, hq, hcond⟩ := hm
  by_cases ht : G.is_traversable q.1 q.2 = true
  · rw [if_pos ht] at hcond
    injection hcond with hcond
    subst hcond
    have : StepOK G nd.pos (q.1, q.2) := ⟨by simpa using hq, ht⟩
    exact WalkChain.step nd q.1 q.2 _ _ h this
  · rw [if_neg ht] at hcond
    exact absurd hcond (by simp)

/-- A pushed A* successor (parent rebound to the expanded node, cost
rebound to the tentative `g`) is chained. -/
theorem astar_push_walkChain {G : GridLike} {s : Pos} {cur : Node}
    (h : WalkChain G s cur) :
    ∀ m ∈ get_successors G cur, ∀ v : ℕ∞,
      WalkChain G s ((m.setParent (some cur)).setCost v) := by
  intro m hm v
  simp only [get_successors, List.mem_filterMap] at hm
  obtain ⟨q, hq, hcond⟩ := hm
  by_cases ht : G.is_traversable q.1 q.2 = true
  · rw [if_pos ht] at hcond
    injection hcond with hcond
    subst hcond
    have hstep : StepOK G cur.pos (q.1, q.2) := ⟨by simpa using hq, ht⟩
    exact WalkChain.step cur q.1 q.2 v _ h hstep
  · rw [if_neg ht] at hcond
    exact absurd hcond (by simp)

/-- `popMin` returns `none` exactly on the empty list. -/
theorem popMin_eq_none {κ α : Type} [LinearOrder κ] :
    ∀ (l : List (κ × α)), popMin l = none ↔ l = [] := by
  intro l
  cases l with
  | nil => simp [popMin]
  | cons e rest =>
    simp only [popMin]
    cases hm : popMin rest with
    | none => simp
    | some p => by_cases hle : e.1 ≤ p.1.1 <;> simp [hle]

/-- The list is a permutation of the popped entry together with the
remaining entries. -/
theorem popMin_perm {κ α : Type} [LinearOrder κ] :
    ∀ (l : List (κ × α)) (m : κ × α) (r : List (κ × α)),
      popMin l = some (m, r) → l.Perm (m :: r) := by
  intro l
  induction l with
  | nil => intro m r h; simp [popMin] at h
  | cons e rest ih =>
    intro m r h
    cases hm : popMin rest with
    | none =>
      simp only [popMin, hm] at h
      injection h with h
      injection h with h1 h2
      subst h1; subst h2
      rw [(popMin_eq_none rest).mp hm]
    | some p =>
      obtain ⟨m', rest'⟩ := p
      simp only [popMin, hm] at h
      by_cases hle : e.1 ≤ m'.1
      · rw [if_pos hle] at h
        injection h with h
        injection h with h1 h2
        subst h1; subst h2
        exact List.Perm.refl _
      · rw [if_neg hle] at h
        injection h with h
        injection h with h1 h2
        subst h1; subst h2
        exact ((ih m' rest' hm).cons e).trans (List.Perm.swap m' e rest')

/-- The popped entry carries a minimal key. -/
theorem popMin_min {κ α : Type} [LinearOrder κ] :
    ∀ (l : List (κ × α)) (m : κ × α) (r : List (κ × α)),
      popMin l = some (m, r) → ∀ e ∈ l, m.1 ≤ e.1 := by
  intro l
  induction l with
  | nil => intro m r h; simp [popMin] at h
  | cons e rest ih =>
    intro m r h x hx
    cases hm : popMin rest with
    | none =>
      simp only [popMin, hm] at h
      injection h with h
      injection h with h1 h2
      subst h1
      rw [(popMin_eq_none rest).mp hm] at hx
      obtain rfl : x = e := by simpa using hx
      exact le_refl _
    | some p =>
      obtain ⟨m', rest'⟩ := p
      simp only [popMin, hm] at h
      by_cases hle : e.1 ≤ m'.1
      · rw [if_pos hle] at h
        injection h with h
        injection h with h1 h2
        subst h1
        rcases List.mem_cons.mp hx with rfl | hxr
        · exact le_refl _
        · exact le_trans hle (ih m' rest' hm x hxr)
      · rw [if_neg hle] at h
        injection h with h
        injection h with h1 h2
        subst h1
        rcases List.mem_cons.mp hx with rfl | hxr
        · exact le_of_lt (not_le.mp hle)
        · exact ih m' rest' hm x hxr

/-- Entries produced by the BFS enqueue fold come from the previous
frontier or from the successor list. -/
theorem bfs_fold_mem (succs : List Node) :
    ∀ (acc : List Node × Finset Pos) (nd : Node),
      nd ∈ (succs.foldl (fun (acc : List Node × Finset Pos) s =>
        if s.pos ∈ acc.2 then acc else (acc.1 ++ [s], insert s.pos acc.2)) acc).1 →
      nd ∈ acc.1 ∨ nd ∈ succs := by
  induction succs with
  | nil => intro acc nd h; exact Or.inl h
  | cons s rest ih =>
    intro acc nd h
    rw [List.foldl_cons] at h
    rcases ih _ nd h with h' | h'
    · by_cases hmem : s.pos ∈ acc.2
      · rw [if_pos hmem] at h'
        exact Or.inl h'
      · rw [if_neg hmem] at h'
        rcases List.mem_append.mp h' with h'' | h''
        · exact Or.inl h''
        · obtain rfl : nd = s := by simpa using h''
          exact Or.inr (List.mem_cons_self _ _)
    · exact Or.inr (List.mem_cons_of_mem _ h')

/-- Every node ever on the BFS frontier carries a valid parent chain, so
a returned non-empty path is a goal-terminated walk from the start. -/
theorem bfsLoop_path_ok (G : GridLike) (s goal : Pos) :
    ∀ (fuel : ℕ) (frontier : List Node) (explored : Finset Pos) (nexp : ℕ),
      (∀ nd ∈ frontier, WalkChain G s nd) →
      ∀ p c n, bfsLoop G goal fuel frontier explored nexp = some (p, c, n) →
        p = [] ∨ (p.head? = some s ∧ p.getLast? = some goal ∧ p.Chain' (StepOK G)) := by
  intro fuel
  induction fuel with
  | zero => intro frontier explored nexp hinv p c n h; simp [bfsLoop] at h
  | succ m ih =>
    intro frontier explored nexp hinv p c n h
    cases frontier with
    | nil =>
      simp only [bfsLoop, Option.some.injEq, Prod.mk.injEq] at h
      exact Or.inl h.1.symm
    | cons current rest =>
      simp only [bfsLoop] at h
      by_cases hg : current.pos = goal
      · rw [if_pos hg] at h
        simp only [Option.some.injEq, Prod.mk.injEq] at h
        obtain ⟨h1, -, -⟩ := h
        subst h1
        right
        obtain ⟨-, h2', h3', h4'⟩ :=
          (hinv current (List.mem_cons_self _ _)).reconstruct
        exact ⟨h2', by rw [h3', hg], h4'⟩
      · rw [if_neg hg] at h
        refine ih _ _ _ ?_ p c n h
        intro nd hnd
        rcases bfs_fold_mem _ _ nd hnd with h' | h'
        · exact hinv nd (List.mem_cons_of_mem _ h')
        · exact get_successors_walkChain (hinv current (List.mem_cons_self _ _)) nd h'

/-- Entries produced by the UCS relaxation loop come from the previous
frontier or are freshly pushed successors with rebound cost. -/
theorem ucsExpand_mem (G : GridLike) (k : ℕ∞) :
    ∀ (succs : List Node) (frontier : List (ℕ∞ × Node)) (explored : List (Pos × ℕ∞))
      (e : ℕ∞ × Node),
      e ∈ (ucsExpand G k succs frontier explored).1 →
      e ∈ frontier ∨ ∃ m ∈ succs, ∃ v, e = (v, m.setCost v) := by
  intro succs
  induction succs with
  | nil => intro frontier explored e h; exact Or.inl h
  | cons s rest ih =>
    intro frontier explored e h
    simp only [ucsExpand] at h
    by_cases hc : k + G.get_cost s.x s.y < getDK explored s.pos ⊤
    · rw [if_pos hc] at h
      rcases ih _ _ e h with h' | ⟨m, hm, v, hv⟩
      · rcases List.mem_append.mp h' with h'' | h''
        · exact Or.inl h''
        · obtain rfl : e = (k + G.get_cost s.x s.y, s.setCost (k + G.get_cost s.x s.y)) := by
            simpa using h''
          exact Or.inr ⟨s, List.mem_cons_self _ _, _, rfl⟩
      · exact Or.inr ⟨m, List.mem_cons_of_mem _ hm, v, hv⟩
    · rw [if_neg hc] at h
      rcases ih _ _ e h with h' | ⟨m, hm, v, hv⟩
      · exact Or.inl h'
      · exact Or.inr ⟨m, List.mem_cons_of_mem _ hm, v, hv⟩

/-- Every entry ever on the UCS frontier carries a valid parent chain. -/
theorem ucsLoop_path_ok (G : GridLike) (s goal : Pos) :
    ∀ (fuel : ℕ) (frontier : List (ℕ∞ × Node)) (explored : List (Pos × ℕ∞)) (nexp : ℕ),
      (∀ e ∈ frontier, WalkChain G s (e : ℕ∞ × Node).2) →
      ∀ p c n, ucsLoop G goal fuel frontier explored nexp = some (p, c, n) →
        p = [] ∨ (p.head? = some s ∧ p.getLast? = some goal ∧ p.Chain' (StepOK G)) := by
  intro fuel
  induction fuel with
  | zero => intro frontier explored nexp hinv p c n h; simp [ucsLoop] at h
  | succ m ih =>
    intro frontier explored nexp hinv p c n h
    cases hpop : popMin frontier with
    | none =>
      simp only [ucsLoop, hpop, Option.some.injEq, Prod.mk.injEq] at h
      exact Or.inl h.1.symm
    | some pr =>
      obtain ⟨⟨k, current⟩, rest⟩ := pr
      simp only [ucsLoop, hpop] at h
      have hperm := popMin_perm frontier _ _ hpop
      have hcur : WalkChain G s current :=
        hinv (k, current) (hperm.mem_iff.mpr (List.mem_cons_self _ _))
      have hrest : ∀ e ∈ rest, WalkChain G s (e : ℕ∞ × Node).2 := fun e he =>
        hinv e (hperm.mem_iff.mpr (List.mem_cons_of_mem _ he))
      by_cases hg : current.pos = goal
      · rw [if_pos hg] at h
        simp only [Option.some.injEq, Prod.mk.injEq] at h
        obtain ⟨h1, -, -⟩ := h
        subst h1
        right
        obtain ⟨-, h2', h3', h4'⟩ := hcur.reconstruct
        exact ⟨h2', by rw [h3', hg], h4'⟩
      · rw [if_neg hg] at h
        by_cases hstale : getDK explored current.pos ⊤ < k
        · rw [if_pos hstale] at h
          exact ih _ _ _ hrest p c n h
        · rw [if_neg hstale] at h
          refine ih _ _ _ ?_ p c n h
          intro e he
          rcases ucsExpand_mem G k _ _ _ e he with h' | ⟨mm, hmm, v, hv⟩
          · exact hrest e h'
          · rw [hv]
            exact (get_successors_walkChain hcur mm hmm).setCost v

/-- Entries produced by the A* relaxation loop come from the previous
open set or are freshly pushed successors with rebound parent and cost. -/
theorem astarExpand_mem (G : GridLike) (hfn : ℤ → ℤ → ℤ → ℤ → ℚ) (goal : Pos)
    (current : Node) :
    ∀ (succs : List Node) (open_set : List (WithTop ℚ × Node)) (g_score : List (Pos × ℕ∞))
      (f_score : List (Pos × WithTop ℚ)) (e : WithTop ℚ × Node),
      e ∈ (astarExpand G hfn goal current succs open_set g_score f_score).1 →
      e ∈ open_set ∨ ∃ m ∈ succs, ∃ (v : ℕ∞) (fv : WithTop ℚ),
        e = (fv, (m.setParent (some current)).setCost v) := by
  intro succs
  induction succs with
  | nil => intro open_set g_score f_score e h; exact Or.inl h
  | cons s rest ih =>
    intro open_set g_score f_score e h
    simp only [astarExpand] at h
    by_cases hc : getDK g_score current.pos ⊤ + G.get_cost s.x s.y < getDK g_score s.pos ⊤
    · rw [if_pos hc] at h
      rcases ih _ _ _ e h with h' | ⟨m, hm, v, fv, hv⟩
      · rcases List.mem_append.mp h' with h'' | h''
        · exact Or.inl h''
        · refine Or.inr ⟨s, List.mem_cons_self _ _, _, _, by simpa using h''⟩
      · exact Or.inr ⟨m, List.mem_cons_of_mem _ hm, v, fv, hv⟩
    · rw [if_neg hc] at h
      rcases ih _ _ _ e h with h' | ⟨m, hm, v, fv, hv⟩
      · exact Or.inl h'
      · exact Or.inr ⟨m, List.mem_cons_of_mem _ hm, v, fv, hv⟩

/-- Every entry ever on the A* open set carries a valid parent chain. -/
theorem astarLoop_path_ok (G : GridLike) (hfn : ℤ → ℤ → ℤ → ℤ → ℚ) (s goal : Pos) :
    ∀ (fuel : ℕ) (open_set : List (WithTop ℚ × Node)) (g_score : List (Pos × ℕ∞))
      (f_score : List (Pos × WithTop ℚ)) (nexp : ℕ),
      (∀ e ∈ open_set, WalkChain G s (e : WithTop ℚ × Node).2) →
      ∀ p c n, astarLoop G hfn goal fuel open_set g_score f_score nexp = some (p, c, n) →
        p = [] ∨ (p.head? = some s ∧ p.getLast? = some goal ∧ p.Chain' (StepOK G)) := by
  intro fuel
  induction fuel with
  | zero => intro open_set g_score f_score nexp hinv p c n h; simp [astarLoop] at h
  | succ m ih =>
    intro open_set g_score f_score nexp hinv p c n h
    cases hpop : popMin open_set with
    | none =>
      simp only [astarLoop, hpop, Option.some.injEq, Prod.mk.injEq] at h
      exact Or.inl h.1.symm
    | some pr =>
      obtain ⟨⟨k, current⟩, rest⟩ := pr
      simp only [astarLoop, hpop] at h
      have hperm := popMin_perm open_set _ _ hpop
      have hcur : WalkChain G s current :=
        hinv (k, current) (hperm.mem_iff.mpr (List.mem_cons_self _ _))
      have hrest : ∀ e ∈ rest, WalkChain G s (e : WithTop ℚ × Node).2 := fun e he =>
        hinv e (hperm.mem_iff.mpr (List.mem_cons_of_mem _ he))
      by_cases hg : current.pos = goal
      · rw [if_pos hg] at h
        simp only [Option.some.injEq, Prod.mk.injEq] at h
        obtain ⟨h1, -, -⟩ := h
        subst h1
        right
        obtain ⟨-, h2', h3', h4'⟩ := hcur.reconstruct
        exact ⟨h2', by rw [h3', hg], h4'⟩
      · rw [if_neg hg] at h
        refine ih _ _ _ _ ?_ p c n h
        intro e he
        rcases astarExpand_mem G hfn goal current _ _ _ _ e he with h' | ⟨mm, hmm, v, fv, hv⟩
        · exact hrest e h'
        · rw [hv]
          exact astar_push_walkChain hcur mm hmm v

/-- On a `Grid`, a legal step is a 4-connected step: exactly one coordinate
changes, by exactly one. -/
theorem stepOK_fourStep (g : Grid) {p q : Pos} (h : StepOK g.toGridLike p q) : FourStep p q := by
  obtain ⟨hmem, -⟩ := h
  simp only [Grid.toGridLike, Grid.get_neighbors, List.mem_filter, List.mem_cons,
    List.mem_singleton, List.not_mem_nil, or_false] at hmem
  rcases hmem.1 with rfl | rfl | rfl | rfl <;> simp [FourStep]

/-- Claim C2: every non-empty path returned by BFS, UCS or A* starts at the
queried start, ends at the queried goal, and moves in single 4-connected
steps. -/
theorem C2_returned_paths_well_formed (g : Grid) (hfn : ℤ → ℤ → ℤ → ℤ → ℚ)
    (start goal : Pos) (fuel : ℕ) :
    (∀ p c n, BFS.search g.toGridLike start goal fuel = some (p, c, n) → p ≠ [] →
      p.head? = some start ∧ p.getLast? = some goal ∧ p.Chain' FourStep) ∧
    (∀ p c n, UCS.search g.toGridLike start goal fuel = some (p, c, n) → p ≠ [] →
      p.head? = some start ∧ p.getLast? = some goal ∧ p.Chain' FourStep) ∧
    (∀ p c n, AStar.search g.toGridLike hfn start goal fuel = some (p, c, n) → p ≠ [] →
      p.head? = some start ∧ p.getLast? = some goal ∧ p.Chain' FourStep) := by
  have conv : ∀ p : List Pos,
      p = [] ∨ (p.head? = some start ∧ p.getLast? = some goal ∧ p.Chain' (StepOK g.toGridLike)) →
      p ≠ [] → p.head? = some start ∧ p.getLast? = some goal ∧ p.Chain' FourStep := by
    intro p hp hne
    rcases hp with rfl | ⟨h1, h2, h3⟩
    · exact absurd rfl hne
    · exact ⟨h1, h2, h3.imp fun a b hab => stepOK_fourStep g hab⟩
  refine ⟨?_, ?_, ?_⟩
  · intro p c n h
    unfold BFS.search at h
    by_cases hsg : start = goal
    · rw [if_pos hsg] at h
      simp only [Option.some.injEq, Prod.mk.injEq] at h
      obtain ⟨h1, -, -⟩ := h
      subst h1
      intro hne
      exact ⟨rfl, by rw [← hsg]; rfl, List.chain'_singleton _⟩
    · rw [if_neg hsg] at h
      exact conv p (bfsLoop_path_ok g.toGridLike start goal fuel _ _ _
        (fun nd hnd => by
          obtain rfl : nd = Node.mk start.1 start.2 none 0 0 := by simpa using hnd
          exact WalkChain.root 0 0) p c n h)
  · intro p c n h
    exact conv p (ucsLoop_path_ok g.toGridLike start goal fuel _ _ _
      (fun e he => by
        obtain rfl : e = ((0 : ℕ∞), Node.mk start.1 start.2 none 0 0) := by simpa using he
        exact WalkChain.root 0 0) p c n h)
  · intro p c n h
    exact conv p (astarLoop_path_ok g.toGridLike hfn start goal fuel _ _ _ _
      (fun e he => by
        obtain rfl : e = ((0 : WithTop ℚ), Node.mk start.1 start.2 none 0 0) := by simpa using he
        exact WalkChain.root 0 0) p c n h)

theorem C2_returned_paths_well_formed_witness :
    BFS.search gFlat3.toGridLike (0, 0) (1, 1) 50 = some ([(0, 0), (0, 1), (1, 1)], 2, 5) ∧
    ([((0 : ℤ), (0 : ℤ)), (0, 1), (1, 1)].head? = some ((0 : ℤ), (0 : ℤ)) ∧
      [((0 : ℤ), (0 : ℤ)), (0, 1), (1, 1)].getLast? = some ((1 : ℤ), (1 : ℤ)) ∧
      [((0 : ℤ), (0 : ℤ)), (0, 1), (1, 1)].Chain' FourStep) := by
  refine ⟨by decide, ?_⟩
  exact (C2_returned_paths_well_formed gFlat3 manhattan_distance (0, 0) (1, 1) 50).1
    [(0, 0), (0, 1), (1, 1)] 2 5 (by decide) (by decide)

/-! ## Claim C4: unreachable goals — dictionary lemmas -/

theorem lookupK_mem {β : Type} : ∀ (m : List (Pos × β)) (p : Pos) (w : β),
    lookupK m p = some w → (p, w) ∈ m := by
  intro m
  induction m with
  | nil => intro p w h; simp [lookupK] at h
  | cons e rest ih =>
    intro p w h
    simp only [lookupK] at h
    by_cases he : e.1 = p
    · rw [if_pos he] at h
      injection h with h
      subst h; subst he
      exact List.mem_cons_self _ _
    · rw [if_neg he] at h
      exact List.mem_cons_of_mem _ (ih p w h)

theorem lookupK_eq_none_iff {β : Type} : ∀ (m : List (Pos × β)) (p : Pos),
    lookupK m p = none ↔ p ∉ m.map Prod.fst := by
  intro m
  induction m with
  | nil => intro p; simp [lookupK]
  | cons e rest ih =>
    intro p
    simp only [lookupK, List.map_cons, List.mem_cons]
    by_cases he : e.1 = p
    · rw [if_pos he]; simp [he]
    · rw [if_neg he]
      rw [ih p]
      constructor
      · intro h hc
        rcases hc with hc | hc
        · exact he hc.symm
        · exact h hc
      · intro h
        exact fun hc => h (Or.inr hc)

theorem lookupK_setK_self {β : Type} : ∀ (m : List (Pos × β)) (p : Pos) (v : β),
    lookupK (setK m p v) p = some v := by
  intro m
  induction m with
  | nil => intro p v; simp [setK, lookupK]
  | cons e rest ih =>
    intro p v
    simp only [setK]
    by_cases he : e.1 = p
    · rw [if_pos he]
      simp [lookupK, he]
    · rw [if_neg he]
      simp only [lookupK, if_neg he]
      exact ih p v

theorem lookupK_setK_ne {β : Type} : ∀ (m : List (Pos × β)) (p q : Pos) (v : β),
    q ≠ p → lookupK (setK m p v) q = lookupK m q := by
  intro m
  induction m with
  | nil =>
    intro p q v hqp
    simp [setK, lookupK, Ne.symm hqp]
  | cons e rest ih =>
    intro p q v hqp
    simp only [setK]
    by_cases he : e.1 = p
    · rw [if_pos he]
      simp only [lookupK]
      by_cases heq : e.1 = q
      · exact absurd (he.symm.trans heq) fun hpq => hqp hpq.symm
      · rw [if_neg heq, if_neg heq]
    · rw [if_neg he]
      simp only [lookupK]
      by_cases heq : e.1 = q
      · rw [if_pos heq, if_pos heq]
      · rw [if_neg heq, if_neg heq]
        exact ih p q v hqp

theorem setK_map_fst_some {β : Type} : ∀ (m : List (Pos × β)) (p : Pos) (v w : β),
    lookupK m p = some w → (setK m p v).map Prod.fst = m.map Prod.fst := by
  intro m
  induction m with
  | nil => intro p v w h; simp [lookupK] at h
  | cons e rest ih =>
    intro p v w h
    simp only [lookupK] at h
    simp only [setK]
    by_cases he : e.1 = p
    · rw [if_pos he]; simp [he]
    · rw [if_neg he] at h ⊢
      simp [ih p v w h]

theorem setK_map_fst_none {β : Type} : ∀ (m : List (Pos × β)) (p : Pos) (v : β),
    lookupK m p = none → (setK m p v).map Prod.fst = m.map Prod.fst ++ [p] := by
  intro m
  induction m with
  | nil => intro p v h; simp [setK]
  | cons e rest ih =>
    intro p v h
    simp only [lookupK] at h
    by_cases he : e.1 = p
    · rw [if_pos he] at h; simp at h
    · rw [if_neg he] at h
      simp only [setK, if_neg he, List.map_cons, List.cons_append]
      simp [ih p v h]

theorem mem_setK {β : Type} : ∀ (m : List (Pos × β)) (p : Pos) (v : β) (e : Pos × β),
    e ∈ setK m p v → e = (p, v) ∨ e ∈ m := by
  intro m
  induction m with
  | nil => intro p v e h; simpa [setK] using h
  | cons x rest ih =>
    intro p v e h
    simp only [setK] at h
    by_cases he : x.1 = p
    · rw [if_pos he] at h
      rcases List.mem_cons.mp h with rfl | hm
      · left
        rw [he]
      · right; exact List.mem_cons_of_mem _ hm
    · rw [if_neg he] at h
      rcases List.mem_cons.mp h with rfl | hm
      · right; exact List.mem_cons_self _ _
      · rcases ih p v e hm with h' | h'
        · exact Or.inl h'
        · exact Or.inr (List.mem_cons_of_mem _ h')

theorem length_setK_some {β : Type} : ∀ (m : List (Pos × β)) (p : Pos) (v w : β),
    lookupK m p = some w → (setK m p v).length = m.length := by
  intro m p v w h
  have := setK_map_fst_some m p v w h
  calc (setK m p v).length = ((setK m p v).map Prod.fst).length := by simp
    _ = (m.map Prod.fst).length := by rw [this]
    _ = m.length := by simp

theorem length_setK_none {β : Type} : ∀ (m : List (Pos × β)) (p : Pos) (v : β),
    lookupK m p = none → (setK m p v).length = m.length + 1 := by
  intro m p v h
  have := setK_map_fst_none m p v h
  calc (setK m p v).length = ((setK m p v).map Prod.fst).length := by simp
    _ = (m.map Prod.fst ++ [p]).length := by rw [this]
    _ = m.length + 1 := by simp

theorem mapValSum_setK_none : ∀ (m : List (Pos × ℕ∞)) (p : Pos) (v : ℕ∞),
    lookupK m p = none → mapValSum (setK m p v) = mapValSum m + v.untop' 0 := by
  intro m
  induction m with
  | nil => intro p v h; simp [setK, mapValSum]
  | cons e rest ih =>
    intro p v h
    simp only [lookupK] at h
    by_cases he : e.1 = p
    · rw [if_pos he] at h; simp at h
    · rw [if_neg he] at h
      simp only [setK, if_neg he, mapValSum, List.map_cons, List.sum_cons]
      have := ih p v h
      simp only [mapValSum] at this
      rw [this]
      ring

theorem mapValSum_setK_some : ∀ (m : List (Pos × ℕ∞)) (p : Pos) (v w : ℕ∞),
    (m.map Prod.fst).Nodup →
    lookupK m p = some w →
    mapValSum (setK m p v) + w.untop' 0 = mapValSum m + v.untop' 0 := by
  intro m
  induction m with
  | nil => intro p v w _ h; simp [lookupK] at h
  | cons e rest ih =>
    intro p v w hnd h
    simp only [lookupK] at h
    by_cases he : e.1 = p
    · rw [if_pos he] at h
      injection h with h
      subst h
      simp only [setK, if_pos he, mapValSum, List.map_cons, List.sum_cons]
      ring
    · rw [if_neg he] at h
      simp only [setK, if_neg he, mapValSum, List.map_cons, List.sum_cons]
      have := ih p v w (by simpa using (List.nodup_cons.mp (by simpa using hnd)).2) h
      simp only [mapValSum] at this
      omega

theorem validFinset_mem (g : Grid) (p : Pos) :
    p ∈ g.validFinset ↔ g.is_valid_position p.1 p.2 = true := by
  rw [is_valid_position_iff]
  constructor
  · intro h
    simp only [Grid.validFinset, Finset.mem_image, Finset.mem_product, Finset.mem_range] at h
    obtain ⟨⟨a, b⟩, ⟨ha, hb⟩, heq⟩ := h
    subst heq
    simp only at ha hb ⊢
    exact ⟨Int.natCast_nonneg a, by exact_mod_cast ha, Int.natCast_nonneg b, by exact_mod_cast hb⟩
  · intro ⟨h1, h2, h3, h4⟩
    simp only [Grid.validFinset, Finset.mem_image, Finset.mem_product, Finset.mem_range]
    refine ⟨(p.1.toNat, p.2.toNat), ⟨?_, ?_⟩, ?_⟩
    · omega
    · omega
    · have e1 : (p.1.toNat : ℤ) = p.1 := Int.toNat_of_nonneg h1
      have e2 : (p.2.toNat : ℤ) = p.2 := Int.toNat_of_nonneg h3
      simp [e1, e2]

theorem validFinset_card (g : Grid) : g.validFinset.card ≤ g.width * g.height := by
  calc g.validFinset.card ≤ (Finset.range g.width ×ˢ Finset.range g.height).card :=
        Finset.card_image_le
    _ = g.width * g.height := by simp [Finset.card_product]

theorem MapB.length_le {s : Pos} {g : Grid} {m : List (Pos × ℕ∞)} (h : MapB s g m) :
    m.length ≤ g.width * g.height + 1 := by
  have h1 : (m.map Prod.fst).toFinset.card = (m.map Prod.fst).length :=
    List.toFinset_card_of_nodup h.nodup
  have h2 : (m.map Prod.fst).toFinset ⊆ insert s g.validFinset := by
    intro p hp
    rw [List.mem_toFinset, List.mem_map] at hp
    obtain ⟨e, he, rfl⟩ := hp
    exact h.keys_sub e he
  have h3 : (insert s g.validFinset).card ≤ g.validFinset.card + 1 :=
    Finset.card_insert_le _ _
  have h4 := Finset.card_le_card h2
  have h5 := validFinset_card g
  have h6 : (m.map Prod.fst).length = m.length := by simp
  omega

theorem neighbors_valid (g : Grid) {x y : ℤ} {q : Pos} (h : q ∈ g.get_neighbors x y) :
    g.is_valid_position q.1 q.2 = true := by
  simp only [Grid.get_neighbors, List.mem_filter] at h
  exact h.2

theorem cell_cost_le_four (c : Cell) : c.cost ≤ 4 := by
  rcases c with ⟨t, o⟩
  cases t <;> simp [Cell.cost, Cell.get_terrain_cost]

theorem cell_cost_pos (c : Cell) : 1 ≤ c.cost := by
  rcases c with ⟨t, o⟩
  cases t <;> simp [Cell.cost, Cell.get_terrain_cost]

theorem get_cost_le_four (g : Grid) {x y : ℤ} (h : g.is_valid_position x y = true) :
    g.get_cost x y ≤ (4 : ℕ∞) := by
  rw [Grid.get_cost, if_pos h]
  exact_mod_cast Nat.cast_le.mpr (cell_cost_le_four _)

theorem get_cost_pos (g : Grid) {x y : ℤ} (h : g.is_valid_position x y = true) :
    (1 : ℕ∞) ≤ g.get_cost x y := by
  rw [Grid.get_cost, if_pos h]
  exact_mod_cast Nat.cast_le.mpr (cell_cost_pos _)

theorem get_cost_ne_top (g : Grid) {x y : ℤ} (h : g.is_valid_position x y = true) :
    g.get_cost x y ≠ ⊤ := by
  rw [Grid.get_cost, if_pos h]
  exact WithTop.coe_ne_top

/-- Successors are in bounds with bounded step cost. -/
theorem successor_valid (g : Grid) (nd : Node) :
    ∀ m ∈ get_successors g.toGridLike nd,
      (m : Node).pos ∈ g.validFinset ∧ g.toGridLike.get_cost (m : Node).x (m : Node).y ≤ (4 : ℕ∞) := by
  intro m hm
  simp only [get_successors, List.mem_filterMap] at hm
  obtain ⟨q, hq, hcond⟩ := hm
  by_cases ht : g.toGridLike.is_traversable q.1 q.2 = true
  · rw [if_pos ht] at hcond
    injection hcond with hcond
    subst hcond
    have hv : g.is_valid_position q.1 q.2 = true := neighbors_valid g hq
    constructor
    · rw [validFinset_mem]
      exact hv
    · exact get_cost_le_four g hv
  · rw [if_neg ht] at hcond
    exact absurd hcond (by simp)

/-- Casts between `ℕ` and `ℕ∞` orderings. -/
theorem enat_coe_le_coe {a b : ℕ} : ((a : ℕ∞) ≤ (b : ℕ∞)) ↔ a ≤ b := by
  exact_mod_cast Iff.rfl

theorem enat_coe_lt_coe {a b : ℕ} : ((a : ℕ∞) < (b : ℕ∞)) ↔ a < b := by
  exact_mod_cast Iff.rfl

/-- One relaxation push: setting key `p` to a strictly better value
preserves the map invariant, strictly decreases the potential, and can only
improve recorded values. -/
theorem setK_push_le (s : Pos) (g : Grid) (n : ℕ) (hn : n = g.width * g.height + 1)
    (explored : List (Pos × ℕ∞)) (hB : MapB s g explored)
    (p : Pos) (hp : p ∈ insert s g.validFinset) (v : ℕ∞)
    (hvlt : v < getDK explored p ⊤)
    (hvbound : v ≤ ((4 * explored.length + 4 : ℕ) : ℕ∞)) :
    MapB s g (setK explored p v) ∧
    mapPotential n (setK explored p v) + 1 ≤ mapPotential n explored ∧
    (∀ q w, lookupK explored q = some w →
      ∃ w', lookupK (setK explored p v) q = some w' ∧ w' ≤ w) ∧
    lookupK (setK explored p v) p = some v ∧
    explored.length ≤ (setK explored p v).length := by
  cases hold : lookupK explored p with
  | none =>
    have hlen := length_setK_none explored p v hold
    have hkeys := setK_map_fst_none explored p v hold
    have hvne : v ≠ ⊤ := by
      intro hv
      rw [hv, top_le_iff] at hvbound
      exact absurd hvbound (by
        intro hc
        exact absurd hc.symm (by exact_mod_cast WithTop.top_ne_coe))
    lift v to ℕ using hvne with vn hvn
    have hvn4 : vn ≤ 4 * explored.length + 4 := enat_coe_le_coe.mp hvbound
    have hBnew : MapB s g (setK explored p (vn : ℕ∞)) := by
      refine ⟨?_, ?_, ?_⟩
      · rw [hkeys, List.nodup_append]
        refine ⟨hB.nodup, List.nodup_singleton _, ?_⟩
        intro a ha hb
        have hap : a = p := by simpa using hb
        rw [hap] at ha
        exact (lookupK_eq_none_iff explored p).mp hold ha
      · intro e he
        rcases mem_setK explored p _ e he with rfl | he'
        · exact hp
        · exact hB.keys_sub e he'
      · intro e he
        rw [hlen]
        rcases mem_setK explored p _ e he with rfl | he'
        · exact enat_coe_le_coe.mpr (by omega)
        · exact (hB.vals_le e he').trans (enat_coe_le_coe.mpr (by omega))
    have hsum := mapValSum_setK_none explored p (vn : ℕ∞) hold
    have hlenle : (setK explored p (vn : ℕ∞)).length ≤ n := hBnew.length_le.trans (by omega)
    refine ⟨hBnew, ?_, ?_, lookupK_setK_self explored p _, by omega⟩
    · unfold mapPotential
      rw [hsum, hlen]
      have huntop : ((vn : ℕ∞)).untop' 0 = vn := rfl
      rw [huntop]
      have hprod : (n - explored.length) * (4 * n + 1) =
          (n - (explored.length + 1)) * (4 * n + 1) + (4 * n + 1) := by
        have hc : n - explored.length = (n - (explored.length + 1)) + 1 := by omega
        rw [hc]; ring
      have hvnC : vn + 1 ≤ 4 * n + 1 := by omega
      omega
    · intro q w hq
      by_cases hqp : q = p
      · rw [hqp, hold] at hq; simp at hq
      · exact ⟨w, by rw [lookupK_setK_ne explored p q _ hqp]; exact hq, le_refl w⟩
  | some w =>
    have hlen := length_setK_some explored p v w hold
    have hkeys := setK_map_fst_some explored p v w hold
    have hwle : w ≤ ((4 * explored.length : ℕ) : ℕ∞) :=
      hB.vals_le (p, w) (lookupK_mem explored p w hold)
    have hvltw : v < w := by
      have hgd : getDK explored p ⊤ = w := by simp [getDK, hold]
      rw [hgd] at hvlt
      exact hvlt
    have hwne : w ≠ ⊤ := by
      intro hw
      rw [hw, top_le_iff] at hwle
      exact absurd hwle (by
        intro hc
        exact absurd hc.symm (by exact_mod_cast WithTop.top_ne_coe))
    lift w to ℕ using hwne with wn hwn
    have hvne : v ≠ ⊤ := fun hv => by
      rw [hv] at hvltw
      exact absurd hvltw (by simp)
    lift v to ℕ using hvne with vn hvn
    have hvnwn : vn < wn := enat_coe_lt_coe.mp hvltw
    have hwn4 : wn ≤ 4 * explored.length := enat_coe_le_coe.mp hwle
    have hBnew : MapB s g (setK explored p (vn : ℕ∞)) := by
      refine ⟨?_, ?_, ?_⟩
      · rw [hkeys]; exact hB.nodup
      · intro e he
        rcases mem_setK explored p _ e he with rfl | he'
        · exact hp
        · exact hB.keys_sub e he'
      · intro e he
        rw [hlen]
        rcases mem_setK explored p _ e he with rfl | he'
        · exact enat_coe_le_coe.mpr (by omega)
        · exact hB.vals_le e he'
    have hsum := mapValSum_setK_some explored p (vn : ℕ∞) (wn : ℕ∞) hB.nodup hold
    refine ⟨hBnew, ?_, ?_, lookupK_setK_self explored p _, by omega⟩
    · unfold mapPotential
      rw [hlen]
      have h1 : ((vn : ℕ∞)).untop' 0 = vn := rfl
      have h2 : ((wn : ℕ∞)).untop' 0 = wn := rfl
      rw [h1, h2] at hsum
      omega
    · intro q w' hq
      by_cases hqp : q = p
      · subst hqp
        rw [hold] at hq
        injection hq with hq
        subst hq
        exact ⟨(vn : ℕ∞), lookupK_setK_self explored q _, le_of_lt hvltw⟩
      · exact ⟨w', by rw [lookupK_setK_ne explored p q _ hqp]; exact hq, le_refl w'⟩

/-- The UCS relaxation loop: preserves the map invariant, does not
increase `frontier length + potential`, only improves recorded values, and
every frontier entry is old or has its key recorded at its position. -/
theorem ucsExpand_spec (g : Grid) (s : Pos) (n : ℕ) (hn : n = g.width * g.height + 1)
    (k : ℕ∞) :
    ∀ (succs : List Node) (frontier : List (ℕ∞ × Node)) (explored : List (Pos × ℕ∞)),
      MapB s g explored →
      (∀ m ∈ succs, (m : Node).pos ∈ g.validFinset ∧
        g.toGridLike.get_cost (m : Node).x (m : Node).y ≤ (4 : ℕ∞)) →
      k ≤ ((4 * explored.length : ℕ) : ℕ∞) →
      MapB s g (ucsExpand g.toGridLike k succs frontier explored).2 ∧
      ((ucsExpand g.toGridLike k succs frontier explored).1.length +
          mapPotential n (ucsExpand g.toGridLike k succs frontier explored).2 ≤
        frontier.length + mapPotential n explored) ∧
      (∀ p w, lookupK explored p = some w →
        ∃ w', lookupK (ucsExpand g.toGridLike k succs frontier explored).2 p = some w' ∧
          w' ≤ w) ∧
      (∀ e ∈ (ucsExpand g.toGridLike k succs frontier explored).1,
        e ∈ frontier ∨ ∃ w', lookupK (ucsExpand g.toGridLike k succs frontier explored).2
          (e : ℕ∞ × Node).2.pos = some w' ∧ w' ≤ e.1) := by
  intro succs
  induction succs with
  | nil =>
    intro frontier explored hB hsucc hk
    exact ⟨hB, le_refl _, fun p w h => ⟨w, h, le_refl w⟩, fun e he => Or.inl he⟩
  | cons m rest ih =>
    intro frontier explored hB hsucc hk
    simp only [ucsExpand]
    by_cases hpush : k + g.toGridLike.get_cost m.x m.y < getDK explored m.pos ⊤
    · rw [if_pos hpush]
      obtain ⟨hmv, hmc⟩ := hsucc m (List.mem_cons_self _ _)
      have hvbound : k + g.toGridLike.get_cost m.x m.y ≤
          ((4 * explored.length + 4 : ℕ) : ℕ∞) := by
        calc k + g.toGridLike.get_cost m.x m.y ≤
            ((4 * explored.length : ℕ) : ℕ∞) + 4 := add_le_add hk hmc
          _ = ((4 * explored.length + 4 : ℕ) : ℕ∞) := by push_cast; ring
      obtain ⟨hB', hpot', hmono', hself', hlen'⟩ := setK_push_le s g n hn explored hB
        m.pos (Finset.mem_insert_of_mem hmv) _ hpush hvbound
      have hk' : k ≤ ((4 * (setK explored m.pos (k + g.toGridLike.get_cost m.x m.y)).length : ℕ) : ℕ∞) :=
        hk.trans (enat_coe_le_coe.mpr (by omega))
      obtain ⟨ihB, ihpot, ihmono, ihmem⟩ := ih (frontier ++ [(k + g.toGridLike.get_cost m.x m.y,
        m.setCost (k + g.toGridLike.get_cost m.x m.y))]) _ hB'
        (fun m' hm' => hsucc m' (List.mem_cons_of_mem _ hm')) hk'
      refine ⟨ihB, ?_, ?_, ?_⟩
      · calc _ ≤ (frontier ++ [_]).length +
            mapPotential n (setK explored m.pos (k + g.toGridLike.get_cost m.x m.y)) := ihpot
          _ ≤ frontier.length + mapPotential n explored := by
            simp only [List.length_append, List.length_singleton]
            omega
      · intro p w hw
        obtain ⟨w1, hw1, hle1⟩ := hmono' p w hw
        obtain ⟨w2, hw2, hle2⟩ := ihmono p w1 hw1
        exact ⟨w2, hw2, hle2.trans hle1⟩
      · intro e he
        rcases ihmem e he with he' | he'
        · rcases List.mem_append.mp he' with he'' | he''
          · exact Or.inl he''
          · right
            have heq : e = (k + g.toGridLike.get_cost m.x m.y,
                m.setCost (k + g.toGridLike.get_cost m.x m.y)) := by simpa using he''
            subst heq
            have hpos : (m.setCost (k + g.toGridLike.get_cost m.x m.y)).pos = m.pos := by
              rcases m with ⟨x, y, par, c, t⟩
              rfl
            rw [hpos]
            obtain ⟨w2, hw2, hle2⟩ := ihmono m.pos _ hself'
            exact ⟨w2, hw2, hle2⟩
        · exact Or.inr he'
    · rw [if_neg hpush]
      exact ih frontier explored hB (fun m' hm' => hsucc m' (List.mem_cons_of_mem _ hm')) hk

/-- With enough fuel (tracked by the potential), `ucsLoop` cannot run out:
each iteration pops one entry and the relaxation pushes strictly pay for
themselves out of the potential. -/
theorem ucsLoop_some (g : Grid) (s goal : Pos) (n : ℕ) (hn : n = g.width * g.height + 1) :
    ∀ (fuel : ℕ) (frontier : List (ℕ∞ × Node)) (explored : List (Pos × ℕ∞)) (nexp : ℕ),
      MapB s g explored →
      (∀ e ∈ frontier, ∃ w, lookupK explored (e : ℕ∞ × Node).2.pos = some w) →
      frontier.length + mapPotential n explored < fuel →
      (ucsLoop g.toGridLike goal fuel frontier explored nexp).isSome := by
  intro fuel
  induction fuel with
  | zero =>
    intro frontier explored nexp _ _ hΦ
    exact absurd hΦ (Nat.not_lt_zero _)
  | succ m ih =>
    intro frontier explored nexp hB hD hΦ
    cases hpop : popMin frontier with
    | none => simp [ucsLoop, hpop]
    | some pr =>
      obtain ⟨⟨k, cur⟩, rest⟩ := pr
      have hperm := popMin_perm frontier _ _ hpop
      have hlen : frontier.length = rest.length + 1 := by
        rw [hperm.length_eq]; rfl
      simp only [ucsLoop, hpop]
      by_cases hg : cur.pos = goal
      · rw [if_pos hg]; rfl
      · rw [if_neg hg]
        by_cases hstale : getDK explored cur.pos ⊤ < k
        · rw [if_pos hstale]
          refine ih rest explored (nexp + 1) hB
            (fun e he => hD e (hperm.mem_iff.mpr (List.mem_cons_of_mem _ he))) (by omega)
        · rw [if_neg hstale]
          obtain ⟨w, hw⟩ := hD (k, cur) (hperm.mem_iff.mpr (List.mem_cons_self _ _))
          have hgd : getDK explored cur.pos ⊤ = w := by simp [getDK, hw]
          have hkw : k ≤ w := by
            rw [hgd] at hstale
            exact not_lt.mp hstale
          have hk4 : k ≤ ((4 * explored.length : ℕ) : ℕ∞) :=
            hkw.trans (hB.vals_le (cur.pos, w) (lookupK_mem explored cur.pos w hw))
          obtain ⟨hB', hpot', hmono', hmem'⟩ := ucsExpand_spec g s n hn k
            (get_successors g.toGridLike cur) rest explored hB (successor_valid g cur) hk4
          refine ih _ _ (nexp + 1) hB' ?_ ?_
          · intro e he
            rcases hmem' e he with he' | ⟨w', hw', -⟩
            · obtain ⟨w0, hw0⟩ := hD e (hperm.mem_iff.mpr (List.mem_cons_of_mem _ he'))
              obtain ⟨w1, hw1, -⟩ := hmono' _ w0 hw0
              exact ⟨w1, hw1⟩
            · exact ⟨w', hw'⟩
          · omega

/-- The shape of every UCS result: either the frontier drained (empty path,
infinite cost) or a chained goal node was popped and reconstructed. -/
theorem ucsLoop_shape (G : GridLike) (s goal : Pos) :
    ∀ (fuel : ℕ) (frontier : List (ℕ∞ × Node)) (explored : List (Pos × ℕ∞)) (nexp : ℕ),
      (∀ e ∈ frontier, WalkChain G s (e : ℕ∞ × Node).2) →
      ∀ p c nn, ucsLoop G goal fuel frontier explored nexp = some (p, c, nn) →
        (p = [] ∧ c = ⊤) ∨
        ∃ nd, WalkChain G s nd ∧ nd.pos = goal ∧ p = reconstruct_path nd ∧ c = nd.cost := by
  intro fuel
  induction fuel with
  | zero => intro frontier explored nexp hinv p c nn h; simp [ucsLoop] at h
  | succ m ih =>
    intro frontier explored nexp hinv p c nn h
    cases hpop : popMin frontier with
    | none =>
      simp only [ucsLoop, hpop, Option.some.injEq, Prod.mk.injEq] at h
      exact Or.inl ⟨h.1.symm, h.2.1.symm⟩
    | some pr =>
      obtain ⟨⟨k, cur⟩, rest⟩ := pr
      simp only [ucsLoop, hpop] at h
      have hperm := popMin_perm frontier _ _ hpop
      have hcur : WalkChain G s cur :=
        hinv (k, cur) (hperm.mem_iff.mpr (List.mem_cons_self _ _))
      have hrest : ∀ e ∈ rest, WalkChain G s (e : ℕ∞ × Node).2 := fun e he =>
        hinv e (hperm.mem_iff.mpr (List.mem_cons_of_mem _ he))
      by_cases hg : cur.pos = goal
      · rw [if_pos hg] at h
        simp only [Option.some.injEq, Prod.mk.injEq] at h
        exact Or.inr ⟨cur, hcur, hg, h.1.symm, h.2.1.symm⟩
      · rw [if_neg hg] at h
        by_cases hstale : getDK explored cur.pos ⊤ < k
        · rw [if_pos hstale] at h
          exact ih _ _ _ hrest p c nn h
        · rw [if_neg hstale] at h
          refine ih _ _ _ ?_ p c nn h
          intro e he
          rcases ucsExpand_mem G k _ _ _ e he with h' | ⟨mm, hmm, v, hv⟩
          · exact hrest e h'
          · rw [hv]
            exact (get_successors_walkChain hcur mm hmm).setCost v

/-- The BFS successor fold: the explored set stays inside the valid cells
(plus the start), and each appended frontier entry pays for itself out of
the `2 * (cells not yet explored)` potential. -/
theorem bfs_fold_spec (g : Grid) (start : Pos) (succs : List Node) :
    ∀ (acc : List Node × Finset Pos),
      acc.2 ⊆ insert start g.validFinset →
      (∀ m ∈ succs, (m : Node).pos ∈ g.validFinset) →
      (succs.foldl (fun (acc : List Node × Finset Pos) s =>
          if s.pos ∈ acc.2 then acc else (acc.1 ++ [s], insert s.pos acc.2)) acc).2 ⊆
          insert start g.validFinset ∧
      (succs.foldl (fun (acc : List Node × Finset Pos) s =>
          if s.pos ∈ acc.2 then acc else (acc.1 ++ [s], insert s.pos acc.2)) acc).1.length +
          2 * ((insert start g.validFinset).card -
            (succs.foldl (fun (acc : List Node × Finset Pos) s =>
              if s.pos ∈ acc.2 then acc else (acc.1 ++ [s], insert s.pos acc.2)) acc).2.card) ≤
        acc.1.length + 2 * ((insert start g.validFinset).card - acc.2.card) := by
  induction succs with
  | nil => intro acc hsub _; exact ⟨hsub, le_refl _⟩
  | cons s rest ih =>
    intro acc hsub hval
    rw [List.foldl_cons]
    by_cases hmem : s.pos ∈ acc.2
    · rw [if_pos hmem]
      exact ih acc hsub (fun m hm => hval m (List.mem_cons_of_mem _ hm))
    · rw [if_neg hmem]
      have hspos : s.pos ∈ insert start g.validFinset :=
        Finset.mem_insert_of_mem (hval s (List.mem_cons_self _ _))
      have hsub' : insert s.pos acc.2 ⊆ insert start g.validFinset :=
        Finset.insert_subset hspos hsub
      have hlt : acc.2.card < (insert start g.validFinset).card :=
        Finset.card_lt_card (Finset.ssubset_iff_of_subset hsub |>.mpr ⟨s.pos, hspos, hmem⟩)
      have hcard : (insert s.pos acc.2).card = acc.2.card + 1 :=
        Finset.card_insert_of_not_mem hmem
      obtain ⟨ih1, ih2⟩ := ih (acc.1 ++ [s], insert s.pos acc.2) hsub'
        (fun m hm => hval m (List.mem_cons_of_mem _ hm))
      refine ⟨ih1, ih2.trans ?_⟩
      simp only [List.length_append, List.length_singleton, hcard]
      omega

/-- With fuel exceeding the BFS potential, `bfsLoop` cannot run out. -/
theorem bfsLoop_some (g : Grid) (start goal : Pos) :
    ∀ (fuel : ℕ) (frontier : List Node) (explored : Finset Pos) (nexp : ℕ),
      explored ⊆ insert start g.validFinset →
      frontier.length + 2 * ((insert start g.validFinset).card - explored.card) < fuel →
      (bfsLoop g.toGridLike goal fuel frontier explored nexp).isSome := by
  intro fuel
  induction fuel with
  | zero =>
    intro frontier explored nexp _ hΦ
    exact absurd hΦ (Nat.not_lt_zero _)
  | succ m ih =>
    intro frontier explored nexp hsub hΦ
    cases frontier with
    | nil => simp [bfsLoop]
    | cons current rest =>
      simp only [bfsLoop]
      by_cases hg : current.pos = goal
      · rw [if_pos hg]; rfl
      · rw [if_neg hg]
        obtain ⟨h1, h2⟩ := bfs_fold_spec g start (get_successors g.toGridLike current)
          (rest, explored) hsub
          (fun mm hmm => (successor_valid g current mm hmm).1)
        refine ih _ _ (nexp + 1) h1 ?_
        simp only [List.length_cons] at hΦ
        have h2' : (List.foldl (fun (acc : List Node × Finset Pos) s =>
            if s.pos ∈ acc.2 then acc else (acc.1 ++ [s], insert s.pos acc.2))
            (rest, explored) (get_successors g.toGridLike current)).1.length +
            2 * ((insert start g.validFinset).card -
              (List.foldl (fun (acc : List Node × Finset Pos) s =>
                if s.pos ∈ acc.2 then acc else (acc.1 ++ [s], insert s.pos acc.2))
                (rest, explored) (get_successors g.toGridLike current)).2.card) ≤
            rest.length + 2 * ((insert start g.validFinset).card - explored.card) := h2
        omega

/-- The shape of every BFS result: either the frontier drained (empty path,
infinite cost) or a chained goal node was popped and reconstructed. -/
theorem bfsLoop_shape (G : GridLike) (s goal : Pos) :
    ∀ (fuel : ℕ) (frontier : List Node) (explored : Finset Pos) (nexp : ℕ),
      (∀ nd ∈ frontier, WalkChain G s nd) →
      ∀ p c nn, bfsLoop G goal fuel frontier explored nexp = some (p, c, nn) →
        (p = [] ∧ c = ⊤) ∨
        ∃ nd, WalkChain G s nd ∧ nd.pos = goal ∧ p = reconstruct_path nd ∧ c = nd.cost := by
  intro fuel
  induction fuel with
  | zero => intro frontier explored nexp hinv p c nn h; simp [bfsLoop] at h
  | succ m ih =>
    intro frontier explored nexp hinv p c nn h
    cases frontier with
    | nil =>
      simp only [bfsLoop, Option.some.injEq, Prod.mk.injEq] at h
      exact Or.inl ⟨h.1.symm, h.2.1.symm⟩
    | cons current rest =>
      simp only [bfsLoop] at h
      have hcur : WalkChain G s current := hinv current (List.mem_cons_self _ _)
      by_cases hg : current.pos = goal
      · rw [if_pos hg] at h
        simp only [Option.some.injEq, Prod.mk.injEq] at h
        exact Or.inr ⟨current, hcur, hg, h.1.symm, h.2.1.symm⟩
      · rw [if_neg hg] at h
        refine ih _ _ _ ?_ p c nn h
        intro nd hnd
        rcases bfs_fold_mem _ _ nd hnd with h' | h'
        · exact hinv nd (List.mem_cons_of_mem _ h')
        · exact get_successors_walkChain hcur nd h'

/-- The A* relaxation fold: as long as the expanded node's position has a
recorded `g_score`, the fold preserves the map invariant, pays for each push
out of the potential, only improves recorded values, and records a `g_score`
for every position it enqueues. -/
theorem astarExpand_spec (g : Grid) (s : Pos) (n : ℕ) (hn : n = g.width * g.height + 1)
    (hfn : ℤ → ℤ → ℤ → ℤ → ℚ) (goal : Pos) (current : Node) :
    ∀ (succs : List Node) (open_set : List (WithTop ℚ × Node)) (g_score : List (Pos × ℕ∞))
      (f_score : List (Pos × WithTop ℚ)),
      MapB s g g_score →
      (∀ m ∈ succs, (m : Node).pos ∈ g.validFinset ∧
        g.toGridLike.get_cost (m : Node).x (m : Node).y ≤ (4 : ℕ∞)) →
      (∃ w0, lookupK g_score current.pos = some w0) →
      MapB s g (astarExpand g.toGridLike hfn goal current succs open_set g_score f_score).2.1 ∧
      ((astarExpand g.toGridLike hfn goal current succs open_set g_score f_score).1.length +
          mapPotential n
            (astarExpand g.toGridLike hfn goal current succs open_set g_score f_score).2.1 ≤
        open_set.length + mapPotential n g_score) ∧
      (∀ p w, lookupK g_score p = some w →
        ∃ w', lookupK
          (astarExpand g.toGridLike hfn goal current succs open_set g_score f_score).2.1 p =
            some w' ∧ w' ≤ w) ∧
      (∀ e ∈ (astarExpand g.toGridLike hfn goal current succs open_set g_score f_score).1,
        e ∈ open_set ∨ ∃ w', lookupK
          (astarExpand g.toGridLike hfn goal current succs open_set g_score f_score).2.1
            (e : WithTop ℚ × Node).2.pos = some w') := by
  intro succs
  induction succs with
  | nil =>
    intro open_set g_score f_score hB hsucc hcur
    exact ⟨hB, le_refl _, fun p w h => ⟨w, h, le_refl w⟩, fun e he => Or.inl he⟩
  | cons m rest ih =>
    intro open_set g_score f_score hB hsucc hcur
    obtain ⟨w0, hw0⟩ := hcur
    have hgd : getDK g_score current.pos ⊤ = w0 := by simp [getDK, hw0]
    simp only [astarExpand]
    by_cases hpush : getDK g_score current.pos ⊤ + g.toGridLike.get_cost m.x m.y <
        getDK g_score m.pos ⊤
    · rw [if_pos hpush]
      obtain ⟨hmv, hmc⟩ := hsucc m (List.mem_cons_self _ _)
      have hw0b : w0 ≤ ((4 * g_score.length : ℕ) : ℕ∞) :=
        hB.vals_le (current.pos, w0) (lookupK_mem g_score current.pos w0 hw0)
      have hvbound : getDK g_score current.pos ⊤ + g.toGridLike.get_cost m.x m.y ≤
          ((4 * g_score.length + 4 : ℕ) : ℕ∞) := by
        rw [hgd]
        calc w0 + g.toGridLike.get_cost m.x m.y ≤
            ((4 * g_score.length : ℕ) : ℕ∞) + 4 := add_le_add hw0b hmc
          _ = ((4 * g_score.length + 4 : ℕ) : ℕ∞) := by push_cast; ring
      obtain ⟨hB', hpot', hmono', hself', hlen'⟩ := setK_push_le s g n hn g_score hB
        m.pos (Finset.mem_insert_of_mem hmv) _ hpush hvbound
      obtain ⟨w1, hw1, -⟩ := hmono' current.pos w0 hw0
      obtain ⟨ihB, ihpot, ihmono, ihmem⟩ := ih
        (open_set ++ [(toQ (getDK g_score current.pos ⊤ + g.toGridLike.get_cost m.x m.y) +
          ((hfn m.x m.y goal.1 goal.2 : ℚ) : WithTop ℚ),
          (m.setParent (some current)).setCost
            (getDK g_score current.pos ⊤ + g.toGridLike.get_cost m.x m.y))]) _ _ hB'
        (fun m' hm' => hsucc m' (List.mem_cons_of_mem _ hm')) ⟨w1, hw1⟩
      refine ⟨ihB, ?_, ?_, ?_⟩
      · refine le_trans ihpot ?_
        simp only [List.length_append, List.length_singleton]
        omega
      · intro p w hw
        obtain ⟨wa, hwa, hlea⟩ := hmono' p w hw
        obtain ⟨wb, hwb, hleb⟩ := ihmono p wa hwa
        exact ⟨wb, hwb, hleb.trans hlea⟩
      · intro e he
        rcases ihmem e he with he' | ⟨w', hw'⟩
        · rcases List.mem_append.mp he' with he'' | he''
          · exact Or.inl he''
          · right
            have heq : e = (toQ (getDK g_score current.pos ⊤ +
                g.toGridLike.get_cost m.x m.y) +
                ((hfn m.x m.y goal.1 goal.2 : ℚ) : WithTop ℚ),
                (m.setParent (some current)).setCost
                  (getDK g_score current.pos ⊤ + g.toGridLike.get_cost m.x m.y)) := by
              simpa using he''
            subst heq
            have hpos : ((m.setParent (some current)).setCost
                (getDK g_score current.pos ⊤ + g.toGridLike.get_cost m.x m.y)).pos = m.pos := by
              rcases m with ⟨x, y, par, c, t⟩
              rfl
            simp only [hpos]
            obtain ⟨wc, hwc, -⟩ := ihmono m.pos _ hself'
            exact ⟨wc, hwc⟩
        · exact Or.inr ⟨w', hw'⟩
    · rw [if_neg hpush]
      exact ih open_set g_score f_score hB
        (fun m' hm' => hsucc m' (List.mem_cons_of_mem _ hm')) ⟨w0, hw0⟩

/-- With enough fuel (tracked by the potential), `astarLoop` cannot run
out. -/
theorem astarLoop_some (g : Grid) (s goal : Pos) (n : ℕ)
    (hn : n = g.width * g.height + 1) (hfn : ℤ → ℤ → ℤ → ℤ → ℚ) :
    ∀ (fuel : ℕ) (open_set : List (WithTop ℚ × Node)) (g_score : List (Pos × ℕ∞))
      (f_score : List (Pos × WithTop ℚ)) (nexp : ℕ),
      MapB s g g_score →
      (∀ e ∈ open_set, ∃ w, lookupK g_score (e : WithTop ℚ × Node).2.pos = some w) →
      open_set.length + mapPotential n g_score < fuel →
      (astarLoop g.toGridLike hfn goal fuel open_set g_score f_score nexp).isSome := by
  intro fuel
  induction fuel with
  | zero =>
    intro open_set g_score f_score nexp _ _ hΦ
    exact absurd hΦ (Nat.not_lt_zero _)
  | succ m ih =>
    intro open_set g_score f_score nexp hB hD hΦ
    cases hpop : popMin open_set with
    | none => simp [astarLoop, hpop]
    | some pr =>
      obtain ⟨⟨k, cur⟩, rest⟩ := pr
      have hperm := popMin_perm open_set _ _ hpop
      have hlen : open_set.length = rest.length + 1 := by
        rw [hperm.length_eq]; rfl
      simp only [astarLoop, hpop]
      by_cases hg : cur.pos = goal
      · rw [if_pos hg]; rfl
      · rw [if_neg hg]
        obtain ⟨w0, hw0⟩ := hD (k, cur) (hperm.mem_iff.mpr (List.mem_cons_self _ _))
        obtain ⟨hB', hpot', hmono', hmem'⟩ := astarExpand_spec g s n hn hfn goal cur
          (get_successors g.toGridLike cur) rest g_score f_score hB
          (successor_valid g cur) ⟨w0, hw0⟩
        refine ih _ _ _ (nexp + 1) hB' ?_ ?_
        · intro e he
          rcases hmem' e he with he' | ⟨w', hw'⟩
          · obtain ⟨wa, hwa⟩ := hD e (hperm.mem_iff.mpr (List.mem_cons_of_mem _ he'))
            obtain ⟨wb, hwb, -⟩ := hmono' _ wa hwa
            exact ⟨wb, hwb⟩
          · exact ⟨w', hw'⟩
        · omega

/-- The shape of every A* result: either the open set drained (empty path,
infinite cost) or a chained goal node was popped and reconstructed. -/
theorem astarLoop_shape (G : GridLike) (hfn : ℤ → ℤ → ℤ → ℤ → ℚ) (s goal : Pos) :
    ∀ (fuel : ℕ) (open_set : List (WithTop ℚ × Node)) (g_score : List (Pos × ℕ∞))
      (f_score : List (Pos × WithTop ℚ)) (nexp : ℕ),
      (∀ e ∈ open_set, WalkChain G s (e : WithTop ℚ × Node).2) →
      ∀ p c nn, astarLoop G hfn goal fuel open_set g_score f_score nexp = some (p, c, nn) →
        (p = [] ∧ c = ⊤) ∨
        ∃ nd, WalkChain G s nd ∧ nd.pos = goal ∧ p = reconstruct_path nd ∧ c = nd.cost := by
  intro fuel
  induction fuel with
  | zero => intro open_set g_score f_score nexp hinv p c nn h; simp [astarLoop] at h
  | succ m ih =>
    intro open_set g_score f_score nexp hinv p c nn h
    cases hpop : popMin open_set with
    | none =>
      simp only [astarLoop, hpop, Option.some.injEq, Prod.mk.injEq] at h
      exact Or.inl ⟨h.1.symm, h.2.1.symm⟩
    | some pr =>
      obtain ⟨⟨k, current⟩, rest⟩ := pr
      simp only [astarLoop, hpop] at h
      have hperm := popMin_perm open_set _ _ hpop
      have hcur : WalkChain G s current :=
        hinv (k, current) (hperm.mem_iff.mpr (List.mem_cons_self _ _))
      have hrest : ∀ e ∈ rest, WalkChain G s (e : WithTop ℚ × Node).2 := fun e he =>
        hinv e (hperm.mem_iff.mpr (List.mem_cons_of_mem _ he))
      by_cases hg : current.pos = goal
      · rw [if_pos hg] at h
        simp only [Option.some.injEq, Prod.mk.injEq] at h
        exact Or.inr ⟨current, hcur, hg, h.1.symm, h.2.1.symm⟩
      · rw [if_neg hg] at h
        refine ih _ _ _ _ ?_ p c nn h
        intro e he
        rcases astarExpand_mem G hfn goal current _ _ _ _ e he with h' | ⟨mm, hmm, v, fv, hv⟩
        · exact hrest e h'
        · rw [hv]
          exact astar_push_walkChain hcur mm hmm v

/-! ## Reachability lemmas for the unreachable-goal claim -/

/-- Every position reaches itself (by the one-element walk). -/
theorem reachable_self (G : GridLike) (s : Pos) : Reachable G s s :=
  ⟨[s], ⟨rfl, List.chain'_singleton s⟩, rfl⟩

/-- Reachability extends along a legal step. -/
theorem reachable_step {G : GridLike} {s p q : Pos}
    (h : Reachable G s p) (hs : StepOK G p q) : Reachable G s q := by
  obtain ⟨l, ⟨hhead, hchain⟩, hlast⟩ := h
  refine ⟨l ++ [q], ⟨?_, ?_⟩, ?_⟩
  · cases l with
    | nil => simp at hhead
    | cons a rest => simpa using hhead
  · rw [List.chain'_append]
    refine ⟨hchain, List.chain'_singleton q, ?_⟩
    intro x hx y hy
    rw [hlast, Option.mem_some_iff] at hx
    subst hx
    simp only [List.head?_cons, Option.mem_some_iff] at hy
    subst hy
    exact hs
  · simp

/-- A node with a valid parent chain certifies reachability of its
position. -/
theorem walkChain_reachable {G : GridLike} {s : Pos} {nd : Node}
    (h : WalkChain G s nd) : Reachable G s nd.pos := by
  induction h with
  | root c t => exact reachable_self G s
  | step par x y c t hp hs ih => exact reachable_step ih hs

/-- Every element of a walk is the start or a traversable cell. -/
theorem walk_mem_traversable (G : GridLike) :
    ∀ (l : List Pos) (s : Pos), l.head? = some s → l.Chain' (StepOK G) →
      ∀ x ∈ l, x = s ∨ G.is_traversable x.1 x.2 = true := by
  intro l
  induction l with
  | nil => intro s _ _ x hx; simp at hx
  | cons a rest ih =>
    intro s hhead hchain x hx
    have ha : a = s := by simpa using hhead
    subst ha
    rcases List.mem_cons.mp hx with rfl | hx'
    · exact Or.inl rfl
    · cases rest with
      | nil => simp at hx'
      | cons b rest' =>
        obtain ⟨hab, hchain'⟩ := List.chain'_cons.mp hchain
        rcases ih b rfl hchain' x hx' with rfl | ht
        · exact Or.inr hab.2
        · exact Or.inr ht

/-- A non-start, non-traversable cell is unreachable. -/
theorem not_reachable_of_blocked {G : GridLike} {s t : Pos}
    (hst : s ≠ t) (ht : G.is_traversable t.1 t.2 = false) : ¬ Reachable G s t := by
  rintro ⟨l, ⟨hhead, hchain⟩, hlast⟩
  have htl : t ∈ l := by
    cases l with
    | nil => simp at hlast
    | cons a rest =>
      have := List.getLast?_eq_getLast (a :: rest) (by simp)
      rw [this] at hlast
      injection hlast with hlast
      rw [← hlast]
      exact List.getLast_mem _
  rcases walk_mem_traversable G l s hhead hchain t htl with rfl | h
  · exact hst rfl
  · rw [ht] at h
    exact Bool.false_ne_true h

/-- When the goal is unreachable, the bounded random walk of
`generate_random_path` can never end at the goal, hence always yields
`None`. -/
theorem genRandomLoop_unreach (G : GridLike) (start goal : Pos) (rng : ℕ → ℕ)
    (h : ¬ Reachable G start goal) :
    ∀ (budget : ℕ) (path : List Pos) (visited : Finset Pos) (current : Pos) (i : ℕ),
      Reachable G start current →
      (genRandomLoop G goal rng budget path visited current i).1 = none := by
  intro budget
  induction budget with
  | zero => intro path visited current i _; rfl
  | succ b ih =>
    intro path visited current i hcur
    simp only [genRandomLoop]
    by_cases hne : (G.get_neighbors current.1 current.2).filter
        (fun n => G.is_traversable n.1 n.2 && decide (n ∉ visited)) = []
    · rw [if_pos hne]
    · rw [if_neg hne]
      set neighbors := (G.get_neighbors current.1 current.2).filter
        (fun n => G.is_traversable n.1 n.2 && decide (n ∉ visited)) with hnb
      have hlen : 0 < neighbors.length := List.length_pos.mpr hne
      have hlt : rng i % neighbors.length < neighbors.length := Nat.mod_lt _ hlen
      have hmem : neighbors.getD (rng i % neighbors.length) (0, 0) ∈ neighbors := by
        rw [List.getD_eq_get _ _ hlt]
        exact List.get_mem _ _ _
      have hstep : StepOK G current (neighbors.getD (rng i % neighbors.length) (0, 0)) := by
        rw [hnb] at hmem
        obtain ⟨hmem', hcond⟩ := List.mem_filter.mp hmem
        simp only [Bool.and_eq_true, decide_eq_true_eq] at hcond
        exact ⟨hmem', hcond.1⟩
      have hreach' : Reachable G start (neighbors.getD (rng i % neighbors.length) (0, 0)) :=
        reachable_step hcur hstep
      by_cases hgoal : neighbors.getD (rng i % neighbors.length) (0, 0) = goal
      · exact absurd (hgoal ▸ hreach') h
      · rw [if_neg hgoal]
        exact ih _ _ _ _ hreach'

/-- With an unreachable goal and no seed path, every restart of hill
climbing skips (the random path generator returns `None`), leaving the
initial `None` best path, the initial best cost and the initial evaluation
count untouched. -/
theorem hcRestarts_unreach (G : GridLike) (start goal : Pos) (rng : ℕ → ℕ)
    (max_iterations : ℕ) (h : ¬ Reachable G start goal) :
    ∀ (r : ℕ) (bcost : ℕ∞) (nev i : ℕ), ∃ i',
      hcRestarts G start goal rng max_iterations r none bcost nev i = (none, bcost, nev, i') := by
  intro r
  induction r with
  | zero => intro bcost nev i; exact ⟨i, rfl⟩
  | succ r ih =>
    intro bcost nev i
    have hgen : (HillClimbing.generate_random_path G start goal rng 50 i).1 = none :=
      genRandomLoop_unreach G start goal rng h 50 [start] {start} start i
        (reachable_self G start)
    simp only [hcRestarts]
    rw [if_pos (Or.inl hgen)]
    exact ih bcost nev _

/-- Claim C4 (amended): with sufficient fuel, BFS, uniform-cost and A*
(any heuristic) return an empty path with infinite cost whenever the goal
is unreachable from the start, and terminate normally; hill climbing with
no seed path returns the `None` path (falsy, as callers test) with
infinite cost and zero evaluations.  (Hill climbing *with* a seed path can
instead return the non-empty seed with finite cost — see the
counterexample.) -/
theorem C4_unreachable_returns_empty_infinite (g : Grid) (start goal : Pos)
    (hfn : ℤ → ℤ → ℤ → ℤ → ℚ) (rng : ℕ → ℕ) (max_restarts max_iterations : ℕ)
    (fuelB fuelD : ℕ) (hfB : g.bfsFuel ≤ fuelB) (hfD : g.dijkstraFuel ≤ fuelD)
    (hunreach : ¬ Reachable g.toGridLike start goal) :
    (∃ nn, BFS.search g.toGridLike start goal fuelB = some ([], ⊤, nn)) ∧
    (∃ nn, UCS.search g.toGridLike start goal fuelD = some ([], ⊤, nn)) ∧
    (∃ nn, AStar.search g.toGridLike hfn start goal fuelD = some ([], ⊤, nn)) ∧
    HillClimbing.search g.toGridLike max_restarts max_iterations start goal none rng =
      (none, ⊤, 0) := by
  have hsg : start ≠ goal := fun h => hunreach (h ▸ reachable_self g.toGridLike start)
  have hNcard : (insert start g.validFinset).card ≤ g.width * g.height + 1 := by
    have h1 := Finset.card_insert_le start g.validFinset
    have h2 := validFinset_card g
    omega
  have hn : g.width * g.height + 1 = g.width * g.height + 1 := rfl
  have hpotinit : mapPotential (g.width * g.height + 1) [(start, (0 : ℕ∞))] =
      (g.width * g.height + 1 - 1) * (4 * (g.width * g.height + 1) + 1) := by
    simp [mapPotential, mapValSum]
  have harith : 1 + mapPotential (g.width * g.height + 1) [(start, (0 : ℕ∞))] < fuelD := by
    rw [hpotinit]
    have hA : (g.width * g.height + 1 - 1) * (4 * (g.width * g.height + 1) + 1) ≤
        (g.width * g.height + 1) * (4 * (g.width * g.height + 1) + 1) :=
      Nat.mul_le_mul_right _ (Nat.sub_le _ _)
    have hC : (g.width * g.height + 1) * (4 * (g.width * g.height + 1) + 2) =
        (g.width * g.height + 1) * (4 * (g.width * g.height + 1) + 1) +
          (g.width * g.height + 1) := by ring
    have hfD' : (g.width * g.height + 1) * (4 * (g.width * g.height + 1) + 2) + 2 ≤ fuelD := hfD
    omega
  have hMapB : MapB start g [(start, (0 : ℕ∞))] := by
    refine ⟨by simp, ?_, ?_⟩
    · intro e he
      simp only [List.mem_singleton] at he
      subst he
      exact Finset.mem_insert_self _ _
    · intro e he
      simp only [List.mem_singleton] at he
      subst he
      exact zero_le _
  have hlook : lookupK [(start, (0 : ℕ∞))] (Node.mk start.1 start.2 none 0 0).pos =
      some (0 : ℕ∞) := by
    simp only [lookupK, Node.pos]
    rw [if_pos]
    exact Prod.mk.eta.symm
  refine ⟨?_, ?_, ?_, ?_⟩
  · -- BFS
    have hsome := bfsLoop_some g start goal fuelB [Node.mk start.1 start.2 none 0 0] {start} 0
      (by
        intro x hx
        simp only [Finset.mem_singleton] at hx
        subst hx
        exact Finset.mem_insert_self _ _)
      (by
        simp only [List.length_singleton, Finset.card_singleton]
        have : g.bfsFuel = 2 * (g.width * g.height + 1) + 2 := rfl
        omega)
    obtain ⟨res, hres⟩ := Option.isSome_iff_exists.mp hsome
    obtain ⟨p, c, nn⟩ := res
    rcases bfsLoop_shape g.toGridLike start goal fuelB _ _ _
      (by
        intro nd hnd
        simp only [List.mem_singleton] at hnd
        subst hnd
        exact WalkChain.root 0 0) p c nn hres with ⟨hp, hc⟩ | ⟨nd, hw, hpos, -, -⟩
    · subst hp; subst hc
      refine ⟨nn, ?_⟩
      rw [BFS.search, if_neg hsg]
      exact hres
    · exact absurd (hpos ▸ walkChain_reachable hw) hunreach
  · -- UCS
    have hsome := ucsLoop_some g start goal (g.width * g.height + 1) hn fuelD
      [((0 : ℕ∞), Node.mk start.1 start.2 none 0 0)] [(start, (0 : ℕ∞))] 0 hMapB
      (by
        intro e he
        simp only [List.mem_singleton] at he
        subst he
        exact ⟨0, hlook⟩)
      (by simpa using harith)
    obtain ⟨res, hres⟩ := Option.isSome_iff_exists.mp hsome
    obtain ⟨p, c, nn⟩ := res
    rcases ucsLoop_shape g.toGridLike start goal fuelD _ _ _
      (by
        intro e he
        simp only [List.mem_singleton] at he
        subst he
        exact WalkChain.root 0 0) p c nn hres with ⟨hp, hc⟩ | ⟨nd, hw, hpos, -, -⟩
    · subst hp; subst hc
      exact ⟨nn, hres⟩
    · exact absurd (hpos ▸ walkChain_reachable hw) hunreach
  · -- A*
    have hsome := astarLoop_some g start goal (g.width * g.height + 1) hn hfn fuelD
      [((0 : WithTop ℚ), Node.mk start.1 start.2 none 0 0)] [(start, (0 : ℕ∞))]
      [(start, ((hfn start.1 start.2 goal.1 goal.2 : ℚ) : WithTop ℚ))] 0 hMapB
      (by
        intro e he
        simp only [List.mem_singleton] at he
        subst he
        exact ⟨0, hlook⟩)
      (by simpa using harith)
    obtain ⟨res, hres⟩ := Option.isSome_iff_exists.mp hsome
    obtain ⟨p, c, nn⟩ := res
    rcases astarLoop_shape g.toGridLike hfn start goal fuelD _ _ _ _
      (by
        intro e he
        simp only [List.mem_singleton] at he
        subst he
        exact WalkChain.root 0 0) p c nn hres with ⟨hp, hc⟩ | ⟨nd, hw, hpos, -, -⟩
    · subst hp; subst hc
      exact ⟨nn, hres⟩
    · exact absurd (hpos ▸ walkChain_reachable hw) hunreach
  · -- hill climbing without a seed path
    obtain ⟨i', hi⟩ := hcRestarts_unreach g.toGridLike start goal rng max_iterations
      hunreach max_restarts ⊤ 0 0
    simp only [HillClimbing.search]
    rw [if_pos (Or.inl True.intro), hi]

/-- Claim C4, counterexample: hill climbing *seeded* with a path ending at
an unreachable goal returns that non-empty path together with its finite
cost — not an empty path with infinite cost. -/
theorem C4_counterexample :
    ¬ Reachable gBlocked.toGridLike (0, 0) (1, 0) ∧
    HillClimbing.search gBlocked.toGridLike 1 1 (0, 0) (1, 0)
      (some [((0 : ℤ), (0 : ℤ)), ((1 : ℤ), (0 : ℤ))]) rng0 =
      (some [((0 : ℤ), (0 : ℤ)), ((1 : ℤ), (0 : ℤ))], 1, 2) ∧
    ([((0 : ℤ), (0 : ℤ)), ((1 : ℤ), (0 : ℤ))] : List Pos) ≠ [] ∧ ((1 : ℕ∞) ≠ ⊤) :=
  ⟨not_reachable_of_blocked (by decide) (by decide), by decide, by decide, by decide⟩

/-- Witness for claim C4 at a concrete instance: on the 2×1 grid whose
cell `(1,0)` is an obstacle, the goal `(1,0)` is unreachable from `(0,0)`
and all four unseeded strategies report it as specified. -/
theorem C4_unreachable_returns_empty_infinite_witness :
    ¬ Reachable gBlocked.toGridLike (0, 0) (1, 0) ∧
    ((∃ nn, BFS.search gBlocked.toGridLike (0, 0) (1, 0) gBlocked.bfsFuel =
        some ([], ⊤, nn)) ∧
      (∃ nn, UCS.search gBlocked.toGridLike (0, 0) (1, 0) gBlocked.dijkstraFuel =
        some ([], ⊤, nn)) ∧
      (∃ nn, AStar.search gBlocked.toGridLike manhattan_distance (0, 0) (1, 0)
        gBlocked.dijkstraFuel = some ([], ⊤, nn)) ∧
      HillClimbing.search gBlocked.toGridLike 10 100 (0, 0) (1, 0) none rng0 =
        (none, ⊤, 0)) :=
  ⟨not_reachable_of_blocked (by decide) (by decide),
    C4_unreachable_returns_empty_infinite gBlocked (0, 0) (1, 0) manhattan_distance rng0 10 100
      gBlocked.bfsFuel gBlocked.dijkstraFuel (le_refl _) (le_refl _)
      (not_reachable_of_blocked (by decide) (by decide))⟩

/-! ## Chain-cost and walk-cost lemmas for the optimality claim -/

/-- Appending one step to a non-empty walk adds the destination cost. -/
theorem get_path_cost_append (G : GridLike) (l : List Pos) (hl : l ≠ []) (q : Pos) :
    get_path_cost G (l ++ [q]) = get_path_cost G l + G.get_cost q.1 q.2 := by
  cases l with
  | nil => exact absurd rfl hl
  | cons a rest => simp [get_path_cost, List.foldl_append]

/-- A reconstructed path is never empty, whatever the node. -/
theorem reconstruct_path_ne_nil (nd : Node) : reconstruct_path nd ≠ [] := by
  rcases nd with ⟨x, y, p, c, t⟩
  cases p <;> simp [reconstruct_path, Node.chainList]

/-- Cost-correct chains are in particular valid chains. -/
theorem GoodChain.toWalkChain {G : GridLike} {s : Pos} {nd : Node}
    (h : GoodChain G s nd) : WalkChain G s nd := by
  induction h with
  | root t => exact WalkChain.root 0 t
  | step par x y t hp hs ih => exact WalkChain.step par x y _ t ih hs

/-- The walk reconstructed from a cost-correct chain costs exactly the
node's recorded cost. -/
theorem goodChain_reconstruct_cost {G : GridLike} {s : Pos} {nd : Node}
    (h : GoodChain G s nd) : get_path_cost G (reconstruct_path nd) = nd.cost := by
  induction h with
  | root t => rfl
  | step par x y t hp hs ih =>
    have hre : reconstruct_path (Node.mk x y (some par) (par.cost + G.get_cost x y) t) =
        reconstruct_path par ++ [(x, y)] := by
      simp [reconstruct_path, Node.chainList]
    rw [hre, get_path_cost_append G _ (reconstruct_path_ne_nil par) (x, y), ih]
    rfl

/-- On a `Grid`, chain costs are finite: every recorded step target is in
bounds, so its cell cost is a natural number. -/
theorem goodChain_cost_ne_top {g : Grid} {s : Pos} {nd : Node}
    (h : GoodChain g.toGridLike s nd) : nd.cost ≠ ⊤ := by
  induction h with
  | root t =>
    intro hc
    have h0 : (0 : ℕ∞) = ⊤ := hc
    simp at h0
  | step par x y t hp hs ih =>
    have hv : g.is_valid_position x y = true := neighbors_valid g hs.1
    have hc : g.toGridLike.get_cost x y ≠ ⊤ := get_cost_ne_top g hv
    simp only [Node.cost]
    exact WithTop.add_ne_top.mpr ⟨ih, hc⟩

/-- Least walk costs are unique. -/
theorem isLeastWalkCost_unique {G : GridLike} {s t : Pos} {c c' : ℕ∞}
    (h : IsLeastWalkCost G s t c) (h' : IsLeastWalkCost G s t c') : c = c' := by
  obtain ⟨⟨l, hw, hl, hc⟩, hmin⟩ := h
  obtain ⟨⟨l', hw', hl', hc'⟩, hmin'⟩ := h'
  exact le_antisymm (hc' ▸ hmin l' hw' hl') (hc ▸ hmin' l hw hl)

/-- `get_successors` covers every legal step target of the node's
position. -/
theorem get_successors_cover (G : GridLike) (nd : Node) :
    ∀ q : Pos, StepOK G nd.pos q →
      ∃ m ∈ get_successors G nd, (m : Node).pos = q ∧
        (m : Node).x = q.1 ∧ (m : Node).y = q.2 ∧
        (m : Node).cost = nd.cost + G.get_cost q.1 q.2 := by
  intro q hq
  obtain ⟨hmem, ht⟩ := hq
  refine ⟨Node.mk q.1 q.2 (some nd) (nd.cost + G.get_cost q.1 q.2) (nd.time + 1), ?_,
    ?_, rfl, rfl, rfl⟩
  case refine_2 => exact Prod.mk.eta
  simp only [get_successors, List.mem_filterMap]
  exact ⟨q, hmem, by rw [if_pos ht]⟩

/-- Every successor of a cost-correct node is itself cost-correct, reached
by one legal step, and its recorded cost is the parent cost plus its cell
cost. -/
theorem get_successors_goodChain {G : GridLike} {s : Pos} {cur : Node}
    (h : GoodChain G s cur) :
    ∀ m ∈ get_successors G cur, GoodChain G s m ∧
      (m : Node).cost = cur.cost + G.get_cost (m : Node).x (m : Node).y ∧
      StepOK G cur.pos (m : Node).pos := by
  intro m hm
  simp only [get_successors, List.mem_filterMap] at hm
  obtain ⟨q, hq, hcond⟩ := hm
  by_cases ht : G.is_traversable q.1 q.2 = true
  · rw [if_pos ht] at hcond
    injection hcond with hcond
    subst hcond
    have hstep : StepOK G cur.pos (q.1, q.2) := ⟨by simpa using hq, ht⟩
    exact ⟨GoodChain.step cur q.1 q.2 _ h hstep, rfl, hstep⟩
  · rw [if_neg ht] at hcond
    exact absurd hcond (by simp)

/-- On a `Grid`, a legal step never stays in place. -/
theorem stepOK_ne (g : Grid) {p q : Pos} (h : StepOK g.toGridLike p q) : q ≠ p := by
  have hf := stepOK_fourStep g h
  rcases hf with ⟨h1, h2 | h2⟩ | ⟨h1, h2 | h2⟩ <;>
    · intro he
      rw [he] at h2
      omega

/-- A strictly improving assignment can only improve recorded values. -/
theorem lookupK_setK_mono {explored : List (Pos × ℕ∞)} {p : Pos} {v : ℕ∞}
    (hv : v < getDK explored p ⊤) :
    ∀ q w, lookupK explored q = some w →
      ∃ w', lookupK (setK explored p v) q = some w' ∧ w' ≤ w := by
  intro q w hw
  by_cases hqp : q = p
  · subst hqp
    have hgd : getDK explored q ⊤ = w := by simp [getDK, hw]
    exact ⟨v, lookupK_setK_self explored q v, le_of_lt (hgd ▸ hv)⟩
  · exact ⟨w, (lookupK_setK_ne explored p q v hqp).trans hw, le_refl w⟩

/-- Relaxedness survives any update that only improves recorded values. -/
theorem ClosedAt.mono {G : GridLike} {m m' : List (Pos × ℕ∞)} {p : Pos} {w : ℕ∞}
    (h : ClosedAt G m p w)
    (hm : ∀ q wq, lookupK m q = some wq → ∃ w', lookupK m' q = some w' ∧ w' ≤ wq) :
    ClosedAt G m' p w := by
  intro q hq
  obtain ⟨wq, hwq, hle⟩ := h q hq
  obtain ⟨w', hw', hle'⟩ := hm q wq hwq
  exact ⟨w', hw', hle'.trans hle⟩

/-- The walk-cost lower bound maintained by the UCS loop: on any state
satisfying the invariant, every walk from the start either has its
endpoint recorded at no more than its cost, or passes through a frontier
entry whose key is at most its cost. -/
theorem ucs_walk_bound (G : GridLike) (s goal : Pos) (frontier : List (ℕ∞ × Node))
    (explored : List (Pos × ℕ∞)) (hInv : UCSInv G s goal frontier explored) :
    ∀ l, IsWalkFrom G s l → ∀ t, l.getLast? = some t →
      (∃ w, lookupK explored t = some w ∧ w ≤ get_path_cost G l) ∨
      (∃ e ∈ frontier, (e : ℕ∞ × Node).1 ≤ get_path_cost G l) := by
  intro l
  induction l using List.reverseRecOn with
  | nil => intro hw t ht; simp at ht
  | append_singleton l' q ih =>
    intro hw t ht
    have htq : t = q := by
      rw [List.getLast?_concat] at ht
      injection ht with ht
      exact ht.symm
    rw [htq]
    obtain ⟨hhead, hchain⟩ := hw
    cases l' with
    | nil =>
      have hqs : q = s := by simpa using hhead
      subst hqs
      left
      refine ⟨0, hInv.start_rec, ?_⟩
      simp [get_path_cost]
    | cons a rest =>
      have has : s = a := by
        have h' : a = s := by simpa using hhead
        exact h'.symm
      subst has
      rw [List.chain'_append] at hchain
      obtain ⟨hchain', hq, hlink⟩ := hchain
      have hlast : (s :: rest).getLast? = some ((s :: rest).getLast (by simp)) :=
        List.getLast?_eq_getLast _ _
      set p := (s :: rest).getLast (by simp) with hp
      have hstep : StepOK G p q := by
        refine hlink p ?_ q ?_
        · rw [hlast]; rfl
        · rfl
      have hcostapp : get_path_cost G (s :: rest ++ [q]) =
          get_path_cost G (s :: rest) + G.get_cost q.1 q.2 :=
        get_path_cost_append G (s :: rest) (by simp) q
      have hmono : get_path_cost G (s :: rest) ≤ get_path_cost G (s :: rest ++ [q]) := by
        rw [hcostapp]; exact le_self_add
      rcases ih ⟨rfl, hchain'⟩ p hlast with ⟨w, hwrec, hwle⟩ | ⟨e, he, heke⟩
      · rcases hInv.exp_cut p w hwrec with ⟨e, he, hepos, hekey⟩ | hclosed
        · exact Or.inr ⟨e, he, hekey.le.trans (hwle.trans hmono)⟩
        · obtain ⟨wq, hwq, hwqle⟩ := hclosed q hstep
          left
          refine ⟨wq, hwq, ?_⟩
          rw [hcostapp]
          exact hwqle.trans (add_le_add_right hwle _)
      · exact Or.inr ⟨e, he, heke.trans hmono⟩


/-- Invariant preservation through the UCS relaxation fold, for a popped
non-stale entry `(k, cur)`: chains, key domination, achievability and the
open-or-relaxed dichotomy survive; the fold never touches the popped
position; every processed successor ends up recorded within one step cost
of `k`; recorded values only improve; the frontier only grows. -/
theorem ucsExpand_inv (g : Grid) (s goal : Pos) (cur : Node) (k : ℕ∞)
    (hcost : cur.cost = k) (hkt : k ≠ ⊤) (hchain_cur : GoodChain g.toGridLike s cur) :
    ∀ (succs : List Node) (frontier : List (ℕ∞ × Node)) (explored : List (Pos × ℕ∞)),
      (∀ m ∈ succs, m ∈ get_successors g.toGridLike cur) →
      (∀ e ∈ frontier, GoodChain g.toGridLike s (e : ℕ∞ × Node).2 ∧
        (e : ℕ∞ × Node).2.cost = e.1) →
      (∀ e ∈ frontier, ∃ w, lookupK explored (e : ℕ∞ × Node).2.pos = some w ∧ w ≤ e.1) →
      (∀ p w, lookupK explored p = some w →
        ∃ nd, GoodChain g.toGridLike s nd ∧ nd.pos = p ∧ nd.cost = w) →
      (∀ p w, lookupK explored p = some w → p ≠ cur.pos →
        (∃ e ∈ frontier, (e : ℕ∞ × Node).2.pos = p ∧ e.1 = w) ∨
          ClosedAt g.toGridLike explored p w) →
      (∀ w, lookupK explored goal = some w →
        ∃ e ∈ frontier, (e : ℕ∞ × Node).2.pos = goal ∧ e.1 = w) →
      lookupK explored cur.pos = some k →
      (∀ e ∈ (ucsExpand g.toGridLike k succs frontier explored).1,
        GoodChain g.toGridLike s (e : ℕ∞ × Node).2 ∧ (e : ℕ∞ × Node).2.cost = e.1) ∧
      (∀ e ∈ (ucsExpand g.toGridLike k succs frontier explored).1,
        ∃ w, lookupK (ucsExpand g.toGridLike k succs frontier explored).2
          (e : ℕ∞ × Node).2.pos = some w ∧ w ≤ e.1) ∧
      (∀ p w, lookupK (ucsExpand g.toGridLike k succs frontier explored).2 p = some w →
        ∃ nd, GoodChain g.toGridLike s nd ∧ nd.pos = p ∧ nd.cost = w) ∧
      (∀ p w, lookupK (ucsExpand g.toGridLike k succs frontier explored).2 p = some w →
        p ≠ cur.pos →
        (∃ e ∈ (ucsExpand g.toGridLike k succs frontier explored).1,
          (e : ℕ∞ × Node).2.pos = p ∧ e.1 = w) ∨
          ClosedAt g.toGridLike (ucsExpand g.toGridLike k succs frontier explored).2 p w) ∧
      (∀ w, lookupK (ucsExpand g.toGridLike k succs frontier explored).2 goal = some w →
        ∃ e ∈ (ucsExpand g.toGridLike k succs frontier explored).1,
          (e : ℕ∞ × Node).2.pos = goal ∧ e.1 = w) ∧
      lookupK (ucsExpand g.toGridLike k succs frontier explored).2 cur.pos = some k ∧
      (∀ m ∈ succs, ∃ wq,
        lookupK (ucsExpand g.toGridLike k succs frontier explored).2 (m : Node).pos = some wq ∧
        wq ≤ k + g.toGridLike.get_cost (m : Node).x (m : Node).y) ∧
      (∀ p w, lookupK explored p = some w →
        ∃ w', lookupK (ucsExpand g.toGridLike k succs frontier explored).2 p = some w' ∧
          w' ≤ w) ∧
      (∀ e ∈ frontier, e ∈ (ucsExpand g.toGridLike k succs frontier explored).1) := by
  intro succs
  induction succs with
  | nil =>
    intro frontier explored hsuccs hchain hrec hach hcut hgoal hcurv
    exact ⟨hchain, hrec, hach, hcut, hgoal, hcurv, fun m hm => absurd hm (List.not_mem_nil m),
      fun p w hw => ⟨w, hw, le_refl w⟩, fun e he => he⟩
  | cons m rest ih =>
    intro frontier explored hsuccs hchain hrec hach hcut hgoal hcurv
    obtain ⟨hmGC, hmcost, hmstep⟩ :=
      get_successors_goodChain hchain_cur m (hsuccs m (List.mem_cons_self _ _))
    have hmne : (m : Node).pos ≠ cur.pos := stepOK_ne g hmstep
    obtain ⟨hmv, hmc4⟩ := successor_valid g cur m (hsuccs m (List.mem_cons_self _ _))
    have hmvalid : g.is_valid_position (m : Node).pos.1 (m : Node).pos.2 = true :=
      (validFinset_mem g _).mp hmv
    have hmct : g.toGridLike.get_cost (m : Node).x (m : Node).y ≠ ⊤ :=
      get_cost_ne_top g hmvalid
    have hnewt : k + g.toGridLike.get_cost (m : Node).x (m : Node).y ≠ ⊤ :=
      WithTop.add_ne_top.mpr ⟨hkt, hmct⟩
    simp only [ucsExpand]
    by_cases hpush : k + g.toGridLike.get_cost (m : Node).x (m : Node).y <
        getDK explored (m : Node).pos ⊤
    · rw [if_pos hpush]
      have hms : (m : Node).setCost (k + g.toGridLike.get_cost (m : Node).x (m : Node).y) =
          m := by
        rcases m with ⟨x, y, par, c, t⟩
        have h2 : c = k + g.toGridLike.get_cost x y := by
          rw [← hcost]
          exact hmcost
        simp only [Node.setCost]
        rw [h2]
        rfl
      rw [hms]
      have hmono1 := lookupK_setK_mono hpush
      have hsuccs' : ∀ m' ∈ rest, m' ∈ get_successors g.toGridLike cur :=
        fun m' hm' => hsuccs m' (List.mem_cons_of_mem _ hm')
      have hchain' : ∀ e ∈ frontier ++
          [(k + g.toGridLike.get_cost (m : Node).x (m : Node).y, m)],
          GoodChain g.toGridLike s (e : ℕ∞ × Node).2 ∧ (e : ℕ∞ × Node).2.cost = e.1 := by
        intro e he
        rcases List.mem_append.mp he with he' | he'
        · exact hchain e he'
        · have heq : e = (k + g.toGridLike.get_cost (m : Node).x (m : Node).y, m) := by
            simpa using he'
          subst heq
          refine ⟨hmGC, ?_⟩
          rw [hmcost, hcost]
      have hrec' : ∀ e ∈ frontier ++
          [(k + g.toGridLike.get_cost (m : Node).x (m : Node).y, m)],
          ∃ w, lookupK (setK explored (m : Node).pos
            (k + g.toGridLike.get_cost (m : Node).x (m : Node).y))
            (e : ℕ∞ × Node).2.pos = some w ∧ w ≤ e.1 := by
        intro e he
        rcases List.mem_append.mp he with he' | he'
        · obtain ⟨w, hw, hwle⟩ := hrec e he'
          obtain ⟨w', hw', hwle'⟩ := hmono1 _ w hw
          exact ⟨w', hw', hwle'.trans hwle⟩
        · have heq : e = (k + g.toGridLike.get_cost (m : Node).x (m : Node).y, m) := by
            simpa using he'
          subst heq
          exact ⟨_, lookupK_setK_self explored _ _, le_refl _⟩
      have hach' : ∀ p w, lookupK (setK explored (m : Node).pos
          (k + g.toGridLike.get_cost (m : Node).x (m : Node).y)) p = some w →
          ∃ nd, GoodChain g.toGridLike s nd ∧ nd.pos = p ∧ nd.cost = w := by
        intro p w hw
        by_cases hpm : p = (m : Node).pos
        · subst hpm
          rw [lookupK_setK_self] at hw
          injection hw with hw
          subst hw
          refine ⟨m, hmGC, rfl, ?_⟩
          rw [hmcost, hcost]
        · rw [lookupK_setK_ne explored _ _ _ hpm] at hw
          exact hach p w hw
      have hcut' : ∀ p w, lookupK (setK explored (m : Node).pos
          (k + g.toGridLike.get_cost (m : Node).x (m : Node).y)) p = some w →
          p ≠ cur.pos →
          (∃ e ∈ frontier ++ [(k + g.toGridLike.get_cost (m : Node).x (m : Node).y, m)],
            (e : ℕ∞ × Node).2.pos = p ∧ e.1 = w) ∨
          ClosedAt g.toGridLike (setK explored (m : Node).pos
            (k + g.toGridLike.get_cost (m : Node).x (m : Node).y)) p w := by
        intro p w hw hpcur
        by_cases hpm : p = (m : Node).pos
        · subst hpm
          rw [lookupK_setK_self] at hw
          injection hw with hw
          subst hw
          exact Or.inl ⟨(k + g.toGridLike.get_cost (m : Node).x (m : Node).y, m),
            List.mem_append_right _ (List.mem_singleton.mpr rfl), rfl, rfl⟩
        · rw [lookupK_setK_ne explored _ _ _ hpm] at hw
          rcases hcut p w hw hpcur with ⟨e, he, hepos, hekey⟩ | hclosed
          · exact Or.inl ⟨e, List.mem_append_left _ he, hepos, hekey⟩
          · exact Or.inr (hclosed.mono hmono1)
      have hgoal' : ∀ w, lookupK (setK explored (m : Node).pos
          (k + g.toGridLike.get_cost (m : Node).x (m : Node).y)) goal = some w →
          ∃ e ∈ frontier ++ [(k + g.toGridLike.get_cost (m : Node).x (m : Node).y, m)],
            (e : ℕ∞ × Node).2.pos = goal ∧ e.1 = w := by
        intro w hw
        by_cases hpm : goal = (m : Node).pos
        · subst hpm
          rw [lookupK_setK_self] at hw
          injection hw with hw
          subst hw
          exact ⟨(k + g.toGridLike.get_cost (m : Node).x (m : Node).y, m),
            List.mem_append_right _ (List.mem_singleton.mpr rfl), rfl, rfl⟩
        · rw [lookupK_setK_ne explored _ _ _ hpm] at hw
          obtain ⟨e, he, hepos, hekey⟩ := hgoal w hw
          exact ⟨e, List.mem_append_left _ he, hepos, hekey⟩
      have hcurv' : lookupK (setK explored (m : Node).pos
          (k + g.toGridLike.get_cost (m : Node).x (m : Node).y)) cur.pos = some k := by
        rw [lookupK_setK_ne explored _ _ _ (fun h => hmne h.symm)]
        exact hcurv
      obtain ⟨ih1, ih2, ih3, ih4, ih5, ih6, ih7, ih8, ih9⟩ :=
        ih _ _ hsuccs' hchain' hrec' hach' hcut' hgoal' hcurv'
      refine ⟨ih1, ih2, ih3, ih4, ih5, ih6, ?_, ?_, ?_⟩
      · intro m' hm'
        rcases List.mem_cons.mp hm' with rfl | hm''
        · obtain ⟨w', hw', hwle'⟩ := ih8 _ _ (lookupK_setK_self explored _ _)
          exact ⟨w', hw', hwle'⟩
        · exact ih7 m' hm''
      · intro p w hw
        obtain ⟨w1, hw1, hle1⟩ := hmono1 p w hw
        obtain ⟨w2, hw2, hle2⟩ := ih8 p w1 hw1
        exact ⟨w2, hw2, hle2.trans hle1⟩
      · intro e he
        exact ih9 e (List.mem_append_left _ he)
    · rw [if_neg hpush]
      have hlookm : ∃ wq, lookupK explored (m : Node).pos = some wq ∧
          wq ≤ k + g.toGridLike.get_cost (m : Node).x (m : Node).y := by
        cases hlm : lookupK explored (m : Node).pos with
        | none =>
          exfalso
          have hgd : getDK explored (m : Node).pos ⊤ = ⊤ := by simp [getDK, hlm]
          rw [hgd] at hpush
          exact hpush (lt_top_iff_ne_top.mpr hnewt)
        | some wq =>
          have hgd : getDK explored (m : Node).pos ⊤ = wq := by simp [getDK, hlm]
          rw [hgd] at hpush
          exact ⟨wq, rfl, not_lt.mp hpush⟩
      obtain ⟨ih1, ih2, ih3, ih4, ih5, ih6, ih7, ih8, ih9⟩ :=
        ih frontier explored (fun m' hm' => hsuccs m' (List.mem_cons_of_mem _ hm'))
          hchain hrec hach hcut hgoal hcurv
      refine ⟨ih1, ih2, ih3, ih4, ih5, ih6, ?_, ih8, ih9⟩
      intro m' hm'
      rcases List.mem_cons.mp hm' with rfl | hm''
      · obtain ⟨wq, hwq, hwqle⟩ := hlookm
        obtain ⟨w', hw', hwle'⟩ := ih8 _ _ hwq
        exact ⟨w', hw', hwle'.trans hwqle⟩
      · exact ih7 m' hm''

/-- Correctness of the UCS loop: under the invariant, any returned result
is either the drained-frontier report (empty path, infinite cost — and the
goal is genuinely unreachable) or a least-cost goal walk together with its
exact cost. -/
theorem ucsLoop_correct (g : Grid) (s goal : Pos) :
    ∀ (fuel : ℕ) (frontier : List (ℕ∞ × Node)) (explored : List (Pos × ℕ∞)) (nexp : ℕ),
      UCSInv g.toGridLike s goal frontier explored →
      ∀ p c nn, ucsLoop g.toGridLike goal fuel frontier explored nexp = some (p, c, nn) →
        ((p = [] ∧ c = ⊤) ∧ ¬ Reachable g.toGridLike s goal) ∨
        (IsLeastWalkCost g.toGridLike s goal c ∧ get_path_cost g.toGridLike p = c ∧
          p ≠ []) := by
  intro fuel
  induction fuel with
  | zero => intro frontier explored nexp hInv p c nn h; simp [ucsLoop] at h
  | succ fm ih =>
    intro frontier explored nexp hInv p c nn h
    cases hpop : popMin frontier with
    | none =>
      have hfe : frontier = [] := (popMin_eq_none frontier).mp hpop
      subst hfe
      simp only [ucsLoop, hpop, Option.some.injEq, Prod.mk.injEq] at h
      refine Or.inl ⟨⟨h.1.symm, h.2.1.symm⟩, ?_⟩
      rintro ⟨l, hw, hl⟩
      rcases ucs_walk_bound g.toGridLike s goal [] explored hInv l hw goal hl with
        ⟨w, hwrec, -⟩ | ⟨e, he, -⟩
      · obtain ⟨e, he, -, -⟩ := hInv.goal_open w hwrec
        exact absurd he (List.not_mem_nil e)
      · exact absurd he (List.not_mem_nil e)
    | some pr =>
      obtain ⟨⟨k, cur⟩, rest⟩ := pr
      simp only [ucsLoop, hpop] at h
      have hperm := popMin_perm frontier _ _ hpop
      have hmemcur : (k, cur) ∈ frontier := hperm.mem_iff.mpr (List.mem_cons_self _ _)
      obtain ⟨hGC, hck0⟩ := hInv.fr_chain _ hmemcur
      have hck : cur.cost = k := hck0
      have hrestmem : ∀ e ∈ rest, e ∈ frontier := fun e he =>
        hperm.mem_iff.mpr (List.mem_cons_of_mem _ he)
      by_cases hg : cur.pos = goal
      · rw [if_pos hg] at h
        simp only [Option.some.injEq, Prod.mk.injEq] at h
        obtain ⟨hp, hc, -⟩ := h
        subst hp
        subst hc
        right
        obtain ⟨hne, hhead, hlast, hchain⟩ := hGC.toWalkChain.reconstruct
        refine ⟨⟨⟨reconstruct_path cur, ⟨hhead, hchain⟩, by rw [hlast, hg],
          goodChain_reconstruct_cost hGC⟩, ?_⟩, goodChain_reconstruct_cost hGC,
          reconstruct_path_ne_nil cur⟩
        intro l hwl hll
        rcases ucs_walk_bound g.toGridLike s goal frontier explored hInv l hwl goal hll with
          ⟨w, hwrec, hwle⟩ | ⟨e, he, heke⟩
        · obtain ⟨e, he, -, hekey⟩ := hInv.goal_open w hwrec
          have hk := popMin_min frontier _ _ hpop e he
          rw [hck]
          exact hk.trans (hekey.le.trans hwle)
        · have hk := popMin_min frontier _ _ hpop e he
          rw [hck]
          exact hk.trans heke
      · rw [if_neg hg] at h
        by_cases hstale : getDK explored cur.pos ⊤ < k
        · rw [if_pos hstale] at h
          refine ih rest explored _ ?_ p c nn h
          refine ⟨fun e he => hInv.fr_chain e (hrestmem e he),
            fun e he => hInv.fr_rec e (hrestmem e he), hInv.exp_ach, ?_, hInv.start_rec, ?_⟩
          · intro q w hw
            rcases hInv.exp_cut q w hw with ⟨e, he, hepos, hekey⟩ | hclosed
            · rcases List.mem_cons.mp (hperm.mem_iff.mp he) with he' | he'
              · exfalso
                obtain rfl : e = (k, cur) := by simpa using he'
                have hepos' : cur.pos = q := hepos
                have hekey' : k = w := hekey
                have hgd : getDK explored q ⊤ = w := by simp [getDK, hw]
                rw [hepos', hgd, hekey'] at hstale
                exact lt_irrefl w hstale
              · exact Or.inl ⟨e, he', hepos, hekey⟩
            · exact Or.inr hclosed
          · intro w hw
            obtain ⟨e, he, hepos, hekey⟩ := hInv.goal_open w hw
            rcases List.mem_cons.mp (hperm.mem_iff.mp he) with he' | he'
            · exfalso
              obtain rfl : e = (k, cur) := by simpa using he'
              exact hg hepos
            · exact ⟨e, he', hepos, hekey⟩
        · rw [if_neg hstale] at h
          obtain ⟨w, hwrec, hwle⟩ := hInv.fr_rec _ hmemcur
          have hgd : getDK explored cur.pos ⊤ = w := by simp [getDK, hwrec]
          have hkw : k ≤ w := by
            rw [hgd] at hstale
            exact not_lt.mp hstale
          have hwk : w = k := le_antisymm hwle hkw
          subst hwk
          have hkt : w ≠ ⊤ := by
            rw [← hck]
            exact goodChain_cost_ne_top hGC
          obtain ⟨c1, c2, c3, c4, c5, c6, c7, c8, c9⟩ :=
            ucsExpand_inv g s goal cur w hck hkt hGC (get_successors g.toGridLike cur)
              rest explored (fun m hm => hm)
              (fun e he => hInv.fr_chain e (hrestmem e he))
              (fun e he => hInv.fr_rec e (hrestmem e he))
              hInv.exp_ach
              (by
                intro q w' hw' hqcur
                rcases hInv.exp_cut q w' hw' with ⟨e, he, hepos, hekey⟩ | hclosed
                · rcases List.mem_cons.mp (hperm.mem_iff.mp he) with he' | he'
                  · exfalso
                    obtain rfl : e = (w, cur) := by simpa using he'
                    exact hqcur hepos.symm
                  · exact Or.inl ⟨e, he', hepos, hekey⟩
                · exact Or.inr hclosed)
              (by
                intro w' hw'
                obtain ⟨e, he, hepos, hekey⟩ := hInv.goal_open w' hw'
                rcases List.mem_cons.mp (hperm.mem_iff.mp he) with he' | he'
                · exfalso
                  obtain rfl : e = (w, cur) := by simpa using he'
                  exact hg hepos
                · exact ⟨e, he', hepos, hekey⟩)
              hwrec
          refine ih _ _ _ ?_ p c nn h
          refine ⟨c1, c2, c3, ?_, ?_, c5⟩
          · intro q w' hw'
            by_cases hqcur : q = cur.pos
            · subst hqcur
              rw [c6] at hw'
              injection hw' with hw'
              subst hw'
              refine Or.inr ?_
              intro q' hq'
              obtain ⟨mq, hmq, hmqpos, hmx, hmy, -⟩ :=
                get_successors_cover g.toGridLike cur q' hq'
              obtain ⟨wq, hwq, hwqle⟩ := c7 mq hmq
              rw [hmqpos] at hwq
              rw [hmx, hmy] at hwqle
              exact ⟨wq, hwq, hwqle⟩
            · exact c4 q w' hw' hqcur
          · obtain ⟨w', hw', hwle'⟩ := c8 s 0 hInv.start_rec
            have hw0 : w' = 0 := le_antisymm hwle' (zero_le _)
            rw [← hw0]
            exact hw'

/-! ## The float embedding of `g`-values and the Manhattan heuristic -/

theorem toQ_top : toQ ⊤ = ⊤ := rfl

theorem toQ_coe (n : ℕ) : toQ (n : ℕ∞) = ((n : ℚ) : WithTop ℚ) := rfl

theorem toQ_le_toQ {a b : ℕ∞} : toQ a ≤ toQ b ↔ a ≤ b := by
  induction a using WithTop.recTopCoe with
  | top =>
    induction b using WithTop.recTopCoe with
    | top => simp
    | coe m =>
      constructor
      · intro h
        have htop : (⊤ : WithTop ℚ) ≤ ((m : ℚ) : WithTop ℚ) := h
        exact absurd (top_le_iff.mp htop) (WithTop.coe_ne_top)
      · intro h
        have htop : (⊤ : ℕ∞) ≤ ((m : ℕ) : ℕ∞) := h
        exact absurd (top_le_iff.mp htop) (WithTop.coe_ne_top)
  | coe n =>
    induction b using WithTop.recTopCoe with
    | top =>
      constructor
      · intro _
        exact le_top
      · intro _
        exact le_top
    | coe m =>
      show toQ ((n : ℕ) : ℕ∞) ≤ toQ ((m : ℕ) : ℕ∞) ↔ ((n : ℕ) : ℕ∞) ≤ ((m : ℕ) : ℕ∞)
      rw [toQ_coe, toQ_coe, enat_coe_le_coe, WithTop.coe_le_coe]
      exact ⟨fun h => by exact_mod_cast h, fun h => by exact_mod_cast h⟩

theorem toQ_add (a b : ℕ∞) : toQ (a + b) = toQ a + toQ b := by
  induction a using WithTop.recTopCoe with
  | top => rw [top_add, toQ_top, top_add]
  | coe n =>
    induction b using WithTop.recTopCoe with
    | top =>
      show toQ (((n : ℕ) : ℕ∞) + ⊤) = toQ ((n : ℕ) : ℕ∞) + toQ ⊤
      rw [add_top, toQ_top, add_top]
    | coe m =>
      show toQ (((n : ℕ) : ℕ∞) + ((m : ℕ) : ℕ∞)) = toQ ((n : ℕ) : ℕ∞) + toQ ((m : ℕ) : ℕ∞)
      rw [← Nat.cast_add, toQ_coe, toQ_coe, toQ_coe, ← WithTop.coe_add]
      norm_cast

theorem toQ_nonneg (a : ℕ∞) : 0 ≤ toQ a := by
  induction a using WithTop.recTopCoe with
  | top => exact le_top
  | coe n =>
    show (0 : WithTop ℚ) ≤ toQ ((n : ℕ) : ℕ∞)
    rw [toQ_coe]
    exact_mod_cast Nat.cast_nonneg n

/-- The Manhattan heuristic is consistent on every grid: step costs are at
least `1` while the heuristic changes by at most `1` per 4-connected
step. -/
theorem manhattan_consistent (g : Grid) (goal : Pos) :
    ConsistentH g.toGridLike manhattan_distance goal := by
  refine ⟨?_, ?_, ?_⟩
  · simp [fH, manhattan_distance]
  · intro p
    have h0 : (0 : ℚ) ≤ |(p.1 : ℚ) - goal.1| + |(p.2 : ℚ) - goal.2| := by positivity
    simp only [fH, manhattan_distance]
    exact_mod_cast h0
  · intro p q hs
    have hv := neighbors_valid g hs.1
    have h1 : (1 : ℕ∞) ≤ g.toGridLike.get_cost q.1 q.2 := get_cost_pos g hv
    have hne : g.toGridLike.get_cost q.1 q.2 ≠ ⊤ := get_cost_ne_top g hv
    obtain ⟨n, hn⟩ := WithTop.ne_top_iff_exists.mp hne
    have h1' : ((1 : ℕ) : ℕ∞) ≤ ((n : ℕ) : ℕ∞) := by
      rw [← hn] at h1
      exact h1
    have hn1 : (1 : ℕ) ≤ n := enat_coe_le_coe.mp h1'
    have hf := stepOK_fourStep g hs
    have hd : |(p.1 : ℚ) - q.1| + |(p.2 : ℚ) - q.2| = 1 := by
      rcases hf with ⟨h1'', h2''⟩ | ⟨h1'', h2''⟩
      · rcases h2'' with h2'' | h2'' <;>
          · rw [h1'', h2'']
            push_cast
            simp
      · rcases h2'' with h2'' | h2'' <;>
          · rw [h1'', h2'']
            push_cast
            simp
    have key : manhattan_distance p.1 p.2 goal.1 goal.2 ≤
        (n : ℚ) + manhattan_distance q.1 q.2 goal.1 goal.2 := by
      have t1 : |(p.1 : ℚ) - goal.1| ≤ |(p.1 : ℚ) - q.1| + |(q.1 : ℚ) - goal.1| :=
        abs_sub_le _ _ _
      have t2 : |(p.2 : ℚ) - goal.2| ≤ |(p.2 : ℚ) - q.2| + |(q.2 : ℚ) - goal.2| :=
        abs_sub_le _ _ _
      have hq1 : (1 : ℚ) ≤ (n : ℚ) := by exact_mod_cast hn1
      simp only [manhattan_distance]
      linarith [t1, t2, hd, hq1]
    have hgoal : fH manhattan_distance goal p ≤ ((n : ℚ) : WithTop ℚ) +
        fH manhattan_distance goal q := by
      simp only [fH]
      exact_mod_cast key
    rw [← hn]
    exact hgoal

/-- The exact shape of a successor node: position fields from the
neighbour, parent preset to the expanded node, cost preset to the parent
cost plus the cell cost, time incremented. -/
theorem get_successors_shape (G : GridLike) (nd : Node) :
    ∀ m ∈ get_successors G nd, ∃ q : Pos,
      m = Node.mk q.1 q.2 (some nd) (nd.cost + G.get_cost q.1 q.2) (nd.time + 1) ∧
      StepOK G nd.pos q := by
  intro m hm
  simp only [get_successors, List.mem_filterMap] at hm
  obtain ⟨q, hq, hcond⟩ := hm
  by_cases ht : G.is_traversable q.1 q.2 = true
  · rw [if_pos ht] at hcond
    injection hcond with hcond
    exact ⟨q, hcond.symm, ⟨by simpa using hq, ht⟩⟩
  · rw [if_neg ht] at hcond
    exact absurd hcond (by simp)

theorem toQ_lt_toQ {a b : ℕ∞} (h : a < b) : toQ a < toQ b := by
  induction b using WithTop.recTopCoe with
  | top =>
    induction a using WithTop.recTopCoe with
    | top => exact absurd h (lt_irrefl ⊤)
    | coe n =>
      show toQ ((n : ℕ) : ℕ∞) < toQ ⊤
      rw [toQ_coe, toQ_top]
      exact WithTop.coe_lt_top _
  | coe m =>
    induction a using WithTop.recTopCoe with
    | top => exact absurd h (not_lt.mpr le_top)
    | coe n =>
      show toQ ((n : ℕ) : ℕ∞) < toQ ((m : ℕ) : ℕ∞)
      rw [toQ_coe, toQ_coe]
      have hnm : (n : ℕ) < m := by
        have h' : ((n : ℕ) : ℕ∞) < ((m : ℕ) : ℕ∞) := h
        exact enat_coe_lt_coe.mp h'
      exact_mod_cast hnm

/-- When no successor passes the strict-improvement test, the A*
relaxation fold changes nothing. -/
theorem astarExpand_id (G : GridLike) (hfn : ℤ → ℤ → ℤ → ℤ → ℚ) (goal : Pos)
    (current : Node) :
    ∀ (succs : List Node) (open_set : List (WithTop ℚ × Node)) (g_score : List (Pos × ℕ∞))
      (f_score : List (Pos × WithTop ℚ)),
      (∀ m ∈ succs, ¬(getDK g_score current.pos ⊤ + G.get_cost (m : Node).x (m : Node).y <
        getDK g_score (m : Node).pos ⊤)) →
      astarExpand G hfn goal current succs open_set g_score f_score =
        (open_set, g_score, f_score) := by
  intro succs
  induction succs with
  | nil => intro open_set g_score f_score _; rfl
  | cons m rest ih =>
    intro open_set g_score f_score hno
    simp only [astarExpand]
    rw [if_neg (hno m (List.mem_cons_self _ _))]
    exact ih open_set g_score f_score (fun m' hm' => hno m' (List.mem_cons_of_mem _ hm'))

/-- The walk-cost lower bound maintained by the A* loop: on any state
satisfying the invariant (with a consistent heuristic), every walk from
the start either has its endpoint's `g` recorded at no more than its cost,
or passes through an open entry whose `f`-key is at most its cost plus the
heuristic at its endpoint. -/
theorem astar_walk_bound (G : GridLike) (hfn : ℤ → ℤ → ℤ → ℤ → ℚ) (s goal : Pos)
    (open_set : List (WithTop ℚ × Node)) (g_score : List (Pos × ℕ∞))
    (hInv : AInv G hfn s goal open_set g_score) (hcons : ConsistentH G hfn goal) :
    ∀ l, IsWalkFrom G s l → ∀ t, l.getLast? = some t →
      (∃ w, lookupK g_score t = some w ∧ w ≤ get_path_cost G l) ∨
      (∃ e ∈ open_set,
        (e : WithTop ℚ × Node).1 ≤ toQ (get_path_cost G l) + fH hfn goal t) := by
  intro l
  induction l using List.reverseRecOn with
  | nil => intro hw t ht; simp at ht
  | append_singleton l' q ih =>
    intro hw t ht
    have htq : t = q := by
      rw [List.getLast?_concat] at ht
      injection ht with ht
      exact ht.symm
    rw [htq]
    obtain ⟨hhead, hchain⟩ := hw
    cases l' with
    | nil =>
      have hqs : q = s := by simpa using hhead
      subst hqs
      left
      refine ⟨0, hInv.start_rec, ?_⟩
      simp [get_path_cost]
    | cons a rest =>
      have has : s = a := by
        have h' : a = s := by simpa using hhead
        exact h'.symm
      subst has
      rw [List.chain'_append] at hchain
      obtain ⟨hchain', hq, hlink⟩ := hchain
      have hlast : (s :: rest).getLast? = some ((s :: rest).getLast (by simp)) :=
        List.getLast?_eq_getLast _ _
      set p := (s :: rest).getLast (by simp) with hp
      have hstep : StepOK G p q := by
        refine hlink p ?_ q ?_
        · rw [hlast]; rfl
        · rfl
      have hcostapp : get_path_cost G (s :: rest ++ [q]) =
          get_path_cost G (s :: rest) + G.get_cost q.1 q.2 :=
        get_path_cost_append G (s :: rest) (by simp) q
      have hkey : toQ (get_path_cost G (s :: rest)) + fH hfn goal p ≤
          toQ (get_path_cost G (s :: rest ++ [q])) + fH hfn goal q := by
        calc toQ (get_path_cost G (s :: rest)) + fH hfn goal p ≤
            toQ (get_path_cost G (s :: rest)) +
              (toQ (G.get_cost q.1 q.2) + fH hfn goal q) :=
            add_le_add_left (hcons.2.2 p q hstep) _
          _ = toQ (get_path_cost G (s :: rest) + G.get_cost q.1 q.2) + fH hfn goal q := by
            rw [← add_assoc, ← toQ_add]
          _ = toQ (get_path_cost G (s :: rest ++ [q])) + fH hfn goal q := by
            rw [hcostapp]
      rcases ih ⟨rfl, hchain'⟩ p hlast with ⟨w, hwrec, hwle⟩ | ⟨e, he, heke⟩
      · rcases hInv.exp_cut p w hwrec with ⟨e, he, hepos, hecost⟩ | hclosed
        · right
          refine ⟨e, he, ?_⟩
          have hbound : (e : WithTop ℚ × Node).1 ≤
              toQ (e : WithTop ℚ × Node).2.cost +
                fH hfn goal (e : WithTop ℚ × Node).2.pos := by
            rcases (hInv.fr_chain e he).2 with hk | ⟨hk0, -⟩
            · exact le_of_eq hk
            · rw [hk0]
              exact add_nonneg (toQ_nonneg _) (hcons.2.1 _)
          calc (e : WithTop ℚ × Node).1 ≤
              toQ (e : WithTop ℚ × Node).2.cost + fH hfn goal (e : WithTop ℚ × Node).2.pos :=
                hbound
            _ = toQ w + fH hfn goal p := by rw [hecost, hepos]
            _ ≤ toQ (get_path_cost G (s :: rest)) + fH hfn goal p :=
                add_le_add_right (toQ_le_toQ.mpr hwle) _
            _ ≤ toQ (get_path_cost G (s :: rest ++ [q])) + fH hfn goal q := hkey
        · obtain ⟨wq, hwq, hwqle⟩ := hclosed q hstep
          left
          refine ⟨wq, hwq, ?_⟩
          rw [hcostapp]
          exact hwqle.trans (add_le_add_right hwle _)
      · right
        refine ⟨e, he, heke.trans hkey⟩

/-- Invariant preservation through the A* relaxation fold, for a popped
entry `cur` whose recorded `g` equals its cost: chains with `f`-shaped
keys, `g`-domination, achievability and the open-or-relaxed dichotomy
survive; the fold never touches the popped position; every processed
successor ends up recorded within one step cost of `cur.cost`; recorded
values only improve; the open set only grows. -/
theorem astarExpand_inv (g : Grid) (hfn : ℤ → ℤ → ℤ → ℤ → ℚ) (s goal : Pos) (cur : Node)
    (hchain_cur : GoodChain g.toGridLike s cur) :
    ∀ (succs : List Node) (open_set : List (WithTop ℚ × Node)) (g_score : List (Pos × ℕ∞))
      (f_score : List (Pos × WithTop ℚ)),
      (∀ m ∈ succs, m ∈ get_successors g.toGridLike cur) →
      (∀ e ∈ open_set, GoodChain g.toGridLike s (e : WithTop ℚ × Node).2 ∧
        (e.1 = toQ (e : WithTop ℚ × Node).2.cost +
            fH hfn goal (e : WithTop ℚ × Node).2.pos ∨
          (e.1 = 0 ∧ (e : WithTop ℚ × Node).2.cost = 0))) →
      (∀ e ∈ open_set, ∃ w, lookupK g_score (e : WithTop ℚ × Node).2.pos = some w ∧
        w ≤ (e : WithTop ℚ × Node).2.cost) →
      (∀ p w, lookupK g_score p = some w →
        ∃ nd, GoodChain g.toGridLike s nd ∧ nd.pos = p ∧ nd.cost = w) →
      (∀ p w, lookupK g_score p = some w → p ≠ cur.pos →
        (∃ e ∈ open_set, (e : WithTop ℚ × Node).2.pos = p ∧
          (e : WithTop ℚ × Node).2.cost = w) ∨ ClosedAt g.toGridLike g_score p w) →
      (∀ w, lookupK g_score goal = some w →
        ∃ e ∈ open_set, (e : WithTop ℚ × Node).2.pos = goal ∧
          (e : WithTop ℚ × Node).2.cost = w) →
      lookupK g_score cur.pos = some cur.cost →
      (∀ e ∈ (astarExpand g.toGridLike hfn goal cur succs open_set g_score f_score).1,
        GoodChain g.toGridLike s (e : WithTop ℚ × Node).2 ∧
        (e.1 = toQ (e : WithTop ℚ × Node).2.cost +
            fH hfn goal (e : WithTop ℚ × Node).2.pos ∨
          (e.1 = 0 ∧ (e : WithTop ℚ × Node).2.cost = 0))) ∧
      (∀ e ∈ (astarExpand g.toGridLike hfn goal cur succs open_set g_score f_score).1,
        ∃ w, lookupK (astarExpand g.toGridLike hfn goal cur succs open_set g_score f_score).2.1
          (e : WithTop ℚ × Node).2.pos = some w ∧ w ≤ (e : WithTop ℚ × Node).2.cost) ∧
      (∀ p w,
        lookupK (astarExpand g.toGridLike hfn goal cur succs open_set g_score f_score).2.1 p =
          some w → ∃ nd, GoodChain g.toGridLike s nd ∧ nd.pos = p ∧ nd.cost = w) ∧
      (∀ p w,
        lookupK (astarExpand g.toGridLike hfn goal cur succs open_set g_score f_score).2.1 p =
          some w → p ≠ cur.pos →
        (∃ e ∈ (astarExpand g.toGridLike hfn goal cur succs open_set g_score f_score).1,
          (e : WithTop ℚ × Node).2.pos = p ∧ (e : WithTop ℚ × Node).2.cost = w) ∨
          ClosedAt g.toGridLike
            (astarExpand g.toGridLike hfn goal cur succs open_set g_score f_score).2.1 p w) ∧
      (∀ w,
        lookupK (astarExpand g.toGridLike hfn goal cur succs open_set g_score f_score).2.1
          goal = some w →
        ∃ e ∈ (astarExpand g.toGridLike hfn goal cur succs open_set g_score f_score).1,
          (e : WithTop ℚ × Node).2.pos = goal ∧ (e : WithTop ℚ × Node).2.cost = w) ∧
      lookupK (astarExpand g.toGridLike hfn goal cur succs open_set g_score f_score).2.1
        cur.pos = some cur.cost ∧
      (∀ m ∈ succs, ∃ wq,
        lookupK (astarExpand g.toGridLike hfn goal cur succs open_set g_score f_score).2.1
          (m : Node).pos = some wq ∧
        wq ≤ cur.cost + g.toGridLike.get_cost (m : Node).x (m : Node).y) ∧
      (∀ p w, lookupK g_score p = some w →
        ∃ w', lookupK
          (astarExpand g.toGridLike hfn goal cur succs open_set g_score f_score).2.1 p =
          some w' ∧ w' ≤ w) ∧
      (∀ e ∈ open_set,
        e ∈ (astarExpand g.toGridLike hfn goal cur succs open_set g_score f_score).1) := by
  intro succs
  induction succs with
  | nil =>
    intro open_set g_score f_score hsuccs hchain hrec hach hcut hgoal hcurv
    exact ⟨hchain, hrec, hach, hcut, hgoal, hcurv, fun m hm => absurd hm (List.not_mem_nil m),
      fun p w hw => ⟨w, hw, le_refl w⟩, fun e he => he⟩
  | cons m rest ih =>
    intro open_set g_score f_score hsuccs hchain hrec hach hcut hgoal hcurv
    obtain ⟨hmGC, hmcost, hmstep⟩ :=
      get_successors_goodChain hchain_cur m (hsuccs m (List.mem_cons_self _ _))
    have hmne : (m : Node).pos ≠ cur.pos := stepOK_ne g hmstep
    obtain ⟨hmv, hmc4⟩ := successor_valid g cur m (hsuccs m (List.mem_cons_self _ _))
    have hgd : getDK g_score cur.pos ⊤ = cur.cost := by simp [getDK, hcurv]
    simp only [astarExpand]
    by_cases hpush : getDK g_score cur.pos ⊤ + g.toGridLike.get_cost (m : Node).x (m : Node).y <
        getDK g_score (m : Node).pos ⊤
    · rw [if_pos hpush]
      have hms : ((m : Node).setParent (some cur)).setCost
          (getDK g_score cur.pos ⊤ + g.toGridLike.get_cost (m : Node).x (m : Node).y) = m := by
        obtain ⟨q, hqeq, -⟩ := get_successors_shape g.toGridLike cur m
          (hsuccs m (List.mem_cons_self _ _))
        subst hqeq
        simp only [Node.setParent, Node.setCost]
        rw [hgd]
        rfl
      rw [hms]
      have hmono1 := lookupK_setK_mono hpush
      have hval : getDK g_score cur.pos ⊤ +
          g.toGridLike.get_cost (m : Node).x (m : Node).y = (m : Node).cost := by
        rw [hgd, ← hmcost]
      have hsuccs' : ∀ m' ∈ rest, m' ∈ get_successors g.toGridLike cur :=
        fun m' hm' => hsuccs m' (List.mem_cons_of_mem _ hm')
      have hchain' : ∀ e ∈ open_set ++
          [(toQ (getDK g_score cur.pos ⊤ + g.toGridLike.get_cost (m : Node).x (m : Node).y) +
            ((hfn (m : Node).x (m : Node).y goal.1 goal.2 : ℚ) : WithTop ℚ), m)],
          GoodChain g.toGridLike s (e : WithTop ℚ × Node).2 ∧
          (e.1 = toQ (e : WithTop ℚ × Node).2.cost +
              fH hfn goal (e : WithTop ℚ × Node).2.pos ∨
            (e.1 = 0 ∧ (e : WithTop ℚ × Node).2.cost = 0)) := by
        intro e he
        rcases List.mem_append.mp he with he' | he'
        · exact hchain e he'
        · have heq : e = (toQ (getDK g_score cur.pos ⊤ +
              g.toGridLike.get_cost (m : Node).x (m : Node).y) +
              ((hfn (m : Node).x (m : Node).y goal.1 goal.2 : ℚ) : WithTop ℚ), m) := by
            simpa using he'
          subst heq
          refine ⟨hmGC, Or.inl ?_⟩
          rw [hval]
          rfl
      have hrec' : ∀ e ∈ open_set ++
          [(toQ (getDK g_score cur.pos ⊤ + g.toGridLike.get_cost (m : Node).x (m : Node).y) +
            ((hfn (m : Node).x (m : Node).y goal.1 goal.2 : ℚ) : WithTop ℚ), m)],
          ∃ w, lookupK (setK g_score (m : Node).pos
            (getDK g_score cur.pos ⊤ + g.toGridLike.get_cost (m : Node).x (m : Node).y))
            (e : WithTop ℚ × Node).2.pos = some w ∧ w ≤ (e : WithTop ℚ × Node).2.cost := by
        intro e he
        rcases List.mem_append.mp he with he' | he'
        · obtain ⟨w, hw, hwle⟩ := hrec e he'
          obtain ⟨w', hw', hwle'⟩ := hmono1 _ w hw
          exact ⟨w', hw', hwle'.trans hwle⟩
        · have heq : e = (toQ (getDK g_score cur.pos ⊤ +
              g.toGridLike.get_cost (m : Node).x (m : Node).y) +
              ((hfn (m : Node).x (m : Node).y goal.1 goal.2 : ℚ) : WithTop ℚ), m) := by
            simpa using he'
          subst heq
          refine ⟨_, lookupK_setK_self g_score _ _, ?_⟩
          rw [hval]
      have hach' : ∀ p w, lookupK (setK g_score (m : Node).pos
          (getDK g_score cur.pos ⊤ + g.toGridLike.get_cost (m : Node).x (m : Node).y)) p =
          some w → ∃ nd, GoodChain g.toGridLike s nd ∧ nd.pos = p ∧ nd.cost = w := by
        intro p w hw
        by_cases hpm : p = (m : Node).pos
        · subst hpm
          rw [lookupK_setK_self] at hw
          injection hw with hw
          subst hw
          exact ⟨m, hmGC, rfl, hval.symm⟩
        · rw [lookupK_setK_ne g_score _ _ _ hpm] at hw
          exact hach p w hw
      have hcut' : ∀ p w, lookupK (setK g_score (m : Node).pos
          (getDK g_score cur.pos ⊤ + g.toGridLike.get_cost (m : Node).x (m : Node).y)) p =
          some w → p ≠ cur.pos →
          (∃ e ∈ open_set ++
            [(toQ (getDK g_score cur.pos ⊤ +
              g.toGridLike.get_cost (m : Node).x (m : Node).y) +
              ((hfn (m : Node).x (m : Node).y goal.1 goal.2 : ℚ) : WithTop ℚ), m)],
            (e : WithTop ℚ × Node).2.pos = p ∧ (e : WithTop ℚ × Node).2.cost = w) ∨
          ClosedAt g.toGridLike (setK g_score (m : Node).pos
            (getDK g_score cur.pos ⊤ +
              g.toGridLike.get_cost (m : Node).x (m : Node).y)) p w := by
        intro p w hw hpcur
        by_cases hpm : p = (m : Node).pos
        · subst hpm
          rw [lookupK_setK_self] at hw
          injection hw with hw
          subst hw
          exact Or.inl ⟨(toQ (getDK g_score cur.pos ⊤ +
            g.toGridLike.get_cost (m : Node).x (m : Node).y) +
            ((hfn (m : Node).x (m : Node).y goal.1 goal.2 : ℚ) : WithTop ℚ), m),
            List.mem_append_right _ (List.mem_singleton.mpr rfl), rfl, hval.symm⟩
        · rw [lookupK_setK_ne g_score _ _ _ hpm] at hw
          rcases hcut p w hw hpcur with ⟨e, he, hepos, hecost⟩ | hclosed
          · exact Or.inl ⟨e, List.mem_append_left _ he, hepos, hecost⟩
          · exact Or.inr (hclosed.mono hmono1)
      have hgoal' : ∀ w, lookupK (setK g_score (m : Node).pos
          (getDK g_score cur.pos ⊤ + g.toGridLike.get_cost (m : Node).x (m : Node).y))
          goal = some w →
          ∃ e ∈ open_set ++
            [(toQ (getDK g_score cur.pos ⊤ +
              g.toGridLike.get_cost (m : Node).x (m : Node).y) +
              ((hfn (m : Node).x (m : Node).y goal.1 goal.2 : ℚ) : WithTop ℚ), m)],
            (e : WithTop ℚ × Node).2.pos = goal ∧ (e : WithTop ℚ × Node).2.cost = w := by
        intro w hw
        by_cases hpm : goal = (m : Node).pos
        · rw [hpm, lookupK_setK_self] at hw
          injection hw with hw
          subst hw
          exact ⟨(toQ (getDK g_score cur.pos ⊤ +
            g.toGridLike.get_cost (m : Node).x (m : Node).y) +
            ((hfn (m : Node).x (m : Node).y goal.1 goal.2 : ℚ) : WithTop ℚ), m),
            List.mem_append_right _ (List.mem_singleton.mpr rfl), hpm.symm, hval.symm⟩
        · rw [lookupK_setK_ne g_score _ _ _ hpm] at hw
          obtain ⟨e, he, hepos, hecost⟩ := hgoal w hw
          exact ⟨e, List.mem_append_left _ he, hepos, hecost⟩
      have hcurv' : lookupK (setK g_score (m : Node).pos
          (getDK g_score cur.pos ⊤ + g.toGridLike.get_cost (m : Node).x (m : Node).y))
          cur.pos = some cur.cost := by
        rw [lookupK_setK_ne g_score _ _ _ (fun h => hmne h.symm)]
        exact hcurv
      obtain ⟨ih1, ih2, ih3, ih4, ih5, ih6, ih7, ih8, ih9⟩ :=
        ih _ _ _ hsuccs' hchain' hrec' hach' hcut' hgoal' hcurv'
      refine ⟨ih1, ih2, ih3, ih4, ih5, ih6, ?_, ?_, ?_⟩
      · intro m' hm'
        rcases List.mem_cons.mp hm' with rfl | hm''
        · obtain ⟨w', hw', hwle'⟩ := ih8 _ _ (lookupK_setK_self g_score _ _)
          refine ⟨w', hw', hwle'.trans ?_⟩
          rw [hgd]
        · exact ih7 m' hm''
      · intro p w hw
        obtain ⟨w1, hw1, hle1⟩ := hmono1 p w hw
        obtain ⟨w2, hw2, hle2⟩ := ih8 p w1 hw1
        exact ⟨w2, hw2, hle2.trans hle1⟩
      · intro e he
        exact ih9 e (List.mem_append_left _ he)
    · rw [if_neg hpush]
      have hlookm : ∃ wq, lookupK g_score (m : Node).pos = some wq ∧
          wq ≤ cur.cost + g.toGridLike.get_cost (m : Node).x (m : Node).y := by
        have hmvalid : g.is_valid_position (m : Node).pos.1 (m : Node).pos.2 = true :=
          (validFinset_mem g _).mp hmv
        have hmct : g.toGridLike.get_cost (m : Node).x (m : Node).y ≠ ⊤ :=
          get_cost_ne_top g hmvalid
        have hkt : cur.cost ≠ ⊤ := goodChain_cost_ne_top hchain_cur
        have hnewt : cur.cost + g.toGridLike.get_cost (m : Node).x (m : Node).y ≠ ⊤ :=
          WithTop.add_ne_top.mpr ⟨hkt, hmct⟩
        cases hlm : lookupK g_score (m : Node).pos with
        | none =>
          exfalso
          have hgdm : getDK g_score (m : Node).pos ⊤ = ⊤ := by simp [getDK, hlm]
          rw [hgdm, hgd] at hpush
          exact hpush (lt_top_iff_ne_top.mpr hnewt)
        | some wq =>
          have hgdm : getDK g_score (m : Node).pos ⊤ = wq := by simp [getDK, hlm]
          rw [hgdm, hgd] at hpush
          exact ⟨wq, rfl, not_lt.mp hpush⟩
      obtain ⟨ih1, ih2, ih3, ih4, ih5, ih6, ih7, ih8, ih9⟩ :=
        ih open_set g_score f_score (fun m' hm' => hsuccs m' (List.mem_cons_of_mem _ hm'))
          hchain hrec hach hcut hgoal hcurv
      refine ⟨ih1, ih2, ih3, ih4, ih5, ih6, ?_, ih8, ih9⟩
      intro m' hm'
      rcases List.mem_cons.mp hm' with rfl | hm''
      · obtain ⟨wq, hwq, hwqle⟩ := hlookm
        obtain ⟨w', hw', hwle'⟩ := ih8 _ _ hwq
        exact ⟨w', hw', hwle'.trans hwqle⟩
      · exact ih7 m' hm''

/-- Correctness of the A* loop under a consistent heuristic: any returned
result is either the drained-open-set report (empty path, infinite cost —
and the goal is genuinely unreachable) or a least-cost goal walk together
with its exact cost. -/
theorem astarLoop_correct (g : Grid) (hfn : ℤ → ℤ → ℤ → ℤ → ℚ) (s goal : Pos)
    (hcons : ConsistentH g.toGridLike hfn goal) :
    ∀ (fuel : ℕ) (open_set : List (WithTop ℚ × Node)) (g_score : List (Pos × ℕ∞))
      (f_score : List (Pos × WithTop ℚ)) (nexp : ℕ),
      AInv g.toGridLike hfn s goal open_set g_score →
      ∀ p c nn,
        astarLoop g.toGridLike hfn goal fuel open_set g_score f_score nexp = some (p, c, nn) →
        ((p = [] ∧ c = ⊤) ∧ ¬ Reachable g.toGridLike s goal) ∨
        (IsLeastWalkCost g.toGridLike s goal c ∧ get_path_cost g.toGridLike p = c ∧
          p ≠ []) := by
  intro fuel
  induction fuel with
  | zero => intro open_set g_score f_score nexp hInv p c nn h; simp [astarLoop] at h
  | succ fm ih =>
    intro open_set g_score f_score nexp hInv p c nn h
    cases hpop : popMin open_set with
    | none =>
      have hfe : open_set = [] := (popMin_eq_none open_set).mp hpop
      subst hfe
      simp only [astarLoop, hpop, Option.some.injEq, Prod.mk.injEq] at h
      refine Or.inl ⟨⟨h.1.symm, h.2.1.symm⟩, ?_⟩
      rintro ⟨l, hw, hl⟩
      rcases astar_walk_bound g.toGridLike hfn s goal [] g_score hInv hcons l hw goal hl with
        ⟨w, hwrec, -⟩ | ⟨e, he, -⟩
      · obtain ⟨e, he, -, -⟩ := hInv.goal_open w hwrec
        exact absurd he (List.not_mem_nil e)
      · exact absurd he (List.not_mem_nil e)
    | some pr =>
      obtain ⟨⟨f, cur⟩, rest⟩ := pr
      simp only [astarLoop, hpop] at h
      have hperm := popMin_perm open_set _ _ hpop
      have hmemcur : (f, cur) ∈ open_set := hperm.mem_iff.mpr (List.mem_cons_self _ _)
      obtain ⟨hGC, hfform0⟩ := hInv.fr_chain _ hmemcur
      have hfform : f = toQ cur.cost + fH hfn goal cur.pos ∨
          (f = 0 ∧ cur.cost = 0) := hfform0
      have hrestmem : ∀ e ∈ rest, e ∈ open_set := fun e he =>
        hperm.mem_iff.mpr (List.mem_cons_of_mem _ he)
      by_cases hg : cur.pos = goal
      · rw [if_pos hg] at h
        simp only [Option.some.injEq, Prod.mk.injEq] at h
        obtain ⟨hp, hc, -⟩ := h
        subst hp
        subst hc
        right
        obtain ⟨hne, hhead, hlast, hchain⟩ := hGC.toWalkChain.reconstruct
        have hf0 : f = toQ cur.cost := by
          rcases hfform with hk | ⟨hk0, hc0⟩
          · rw [hk, hg, hcons.1, add_zero]
          · rw [hk0, hc0]
            rfl
        refine ⟨⟨⟨reconstruct_path cur, ⟨hhead, hchain⟩, by rw [hlast, hg],
          goodChain_reconstruct_cost hGC⟩, ?_⟩, goodChain_reconstruct_cost hGC,
          reconstruct_path_ne_nil cur⟩
        intro l hwl hll
        rcases astar_walk_bound g.toGridLike hfn s goal open_set g_score hInv hcons
          l hwl goal hll with ⟨w, hwrec, hwle⟩ | ⟨e, he, heke⟩
        · obtain ⟨e, he, hepos, hecost⟩ := hInv.goal_open w hwrec
          have hk := popMin_min open_set _ _ hpop e he
          have hekey : (e : WithTop ℚ × Node).1 = toQ w := by
            rcases (hInv.fr_chain e he).2 with hk | ⟨hk0, hc0⟩
            · rw [hk, hepos, hcons.1, add_zero, hecost]
            · rw [hk0, ← hecost, hc0]
              rfl
          rw [hf0, hekey] at hk
          exact (toQ_le_toQ.mp hk).trans hwle
        · have hk := popMin_min open_set _ _ hpop e he
          have hle : f ≤ toQ (get_path_cost g.toGridLike l) := by
            have h' := hk.trans heke
            rw [hcons.1, add_zero] at h'
            exact h'
          rw [hf0] at hle
          exact toQ_le_toQ.mp hle
      · rw [if_neg hg] at h
        obtain ⟨w, hwrec, hwle⟩ := hInv.fr_rec _ hmemcur
        by_cases heq : w = cur.cost
        · subst heq
          obtain ⟨c1, c2, c3, c4, c5, c6, c7, c8, c9⟩ :=
            astarExpand_inv g hfn s goal cur hGC (get_successors g.toGridLike cur)
              rest g_score f_score (fun m hm => hm)
              (fun e he => hInv.fr_chain e (hrestmem e he))
              (fun e he => hInv.fr_rec e (hrestmem e he))
              hInv.exp_ach
              (by
                intro q w' hw' hqcur
                rcases hInv.exp_cut q w' hw' with ⟨e, he, hepos, hecost⟩ | hclosed
                · rcases List.mem_cons.mp (hperm.mem_iff.mp he) with he' | he'
                  · exfalso
                    obtain rfl : e = (f, cur) := by simpa using he'
                    exact hqcur hepos.symm
                  · exact Or.inl ⟨e, he', hepos, hecost⟩
                · exact Or.inr hclosed)
              (by
                intro w' hw'
                obtain ⟨e, he, hepos, hecost⟩ := hInv.goal_open w' hw'
                rcases List.mem_cons.mp (hperm.mem_iff.mp he) with he' | he'
                · exfalso
                  obtain rfl : e = (f, cur) := by simpa using he'
                  exact hg hepos
                · exact ⟨e, he', hepos, hecost⟩)
              hwrec
          refine ih _ _ _ _ ?_ p c nn h
          refine ⟨c1, c2, c3, ?_, ?_, c5⟩
          · intro q w' hw'
            by_cases hqcur : q = cur.pos
            · subst hqcur
              rw [c6] at hw'
              injection hw' with hw'
              subst hw'
              refine Or.inr ?_
              intro q' hq'
              obtain ⟨mq, hmq, hmqpos, hmx, hmy, -⟩ :=
                get_successors_cover g.toGridLike cur q' hq'
              obtain ⟨wq, hwq, hwqle⟩ := c7 mq hmq
              rw [hmqpos] at hwq
              rw [hmx, hmy] at hwqle
              exact ⟨wq, hwq, hwqle⟩
            · exact c4 q w' hw' hqcur
          · obtain ⟨w', hw', hwle'⟩ := c8 s 0 hInv.start_rec
            have hw0 : w' = 0 := le_antisymm hwle' (zero_le _)
            rw [← hw0]
            exact hw'
        · have hwlt : w < cur.cost := lt_of_le_of_ne hwle heq
          have hnoexp : astarExpand g.toGridLike hfn goal cur
              (get_successors g.toGridLike cur) rest g_score f_score =
              (rest, g_score, f_score) := by
            rcases hInv.exp_cut cur.pos w hwrec with ⟨e, he, hepos, hecost⟩ | hclosed
            · exfalso
              have hk := popMin_min open_set _ _ hpop e he
              have hcpos : (0 : ℕ∞) < cur.cost := lt_of_le_of_lt (zero_le w) hwlt
              have hfexact : f = toQ cur.cost + fH hfn goal cur.pos := by
                rcases hfform with hk' | ⟨-, hc0⟩
                · exact hk'
                · exact absurd hc0 (ne_of_gt hcpos)
              have hebound : (e : WithTop ℚ × Node).1 ≤
                  toQ w + fH hfn goal cur.pos := by
                rcases (hInv.fr_chain e he).2 with hk' | ⟨hk0, -⟩
                · rw [hk', hepos, hecost]
                · rw [hk0]
                  exact add_nonneg (toQ_nonneg _) (hcons.2.1 _)
              have hlt : (e : WithTop ℚ × Node).1 < f := by
                refine lt_of_le_of_lt hebound ?_
                rw [hfexact]
                refine WithTop.add_lt_add_right ?_ (toQ_lt_toQ hwlt)
                simp [fH]
              exact absurd hk (not_le.mpr hlt)
            · apply astarExpand_id
              intro m hm
              obtain ⟨-, -, hmstep⟩ := get_successors_goodChain hGC m hm
              obtain ⟨wq, hwq, hwqle⟩ := hclosed (m : Node).pos hmstep
              have hgd : getDK g_score cur.pos ⊤ = w := by simp [getDK, hwrec]
              have hgdm : getDK g_score (m : Node).pos ⊤ = wq := by simp [getDK, hwq]
              rw [hgd, hgdm]
              exact not_lt.mpr hwqle
          rw [hnoexp] at h
          refine ih _ _ _ _ ?_ p c nn h
          refine ⟨fun e he => hInv.fr_chain e (hrestmem e he),
            fun e he => hInv.fr_rec e (hrestmem e he), hInv.exp_ach, ?_, hInv.start_rec, ?_⟩
          · intro q w' hw'
            rcases hInv.exp_cut q w' hw' with ⟨e, he, hepos, hecost⟩ | hclosed
            · rcases List.mem_cons.mp (hperm.mem_iff.mp he) with he' | he'
              · exfalso
                obtain rfl : e = (f, cur) := by simpa using he'
                have hepos' : cur.pos = q := hepos
                have hecost' : cur.cost = w' := hecost
                rw [← hepos'] at hw'
                rw [hwrec] at hw'
                injection hw' with hw'
                rw [← hecost'] at hw'
                exact heq hw'
              · exact Or.inl ⟨e, he', hepos, hecost⟩
            · exact Or.inr hclosed
          · intro w' hw'
            obtain ⟨e, he, hepos, hecost⟩ := hInv.goal_open w' hw'
            rcases List.mem_cons.mp (hperm.mem_iff.mp he) with he' | he'
            · exfalso
              obtain rfl : e = (f, cur) := by simpa using he'
              exact hg hepos
            · exact ⟨e, he', hepos, hecost⟩

theorem lookupK_singleton {β : Type} (p q : Pos) (v : β) :
    lookupK [(p, v)] q = if p = q then some v else none := rfl

/-- The initial UCS state satisfies the loop invariant. -/
theorem ucs_initial_inv (g : Grid) (start goal : Pos) :
    UCSInv g.toGridLike start goal [((0 : ℕ∞), Node.mk start.1 start.2 none 0 0)]
      [(start, (0 : ℕ∞))] := by
  have hlook0 : lookupK [(start, (0 : ℕ∞))] start = some 0 := by
    rw [lookupK_singleton, if_pos rfl]
  have hrootpos : (Node.mk start.1 start.2 none 0 0).pos = start := Prod.mk.eta
  refine ⟨?_, ?_, ?_, ?_, hlook0, ?_⟩
  · intro e he
    simp only [List.mem_singleton] at he
    subst he
    exact ⟨GoodChain.root 0, rfl⟩
  · intro e he
    simp only [List.mem_singleton] at he
    subst he
    refine ⟨0, ?_, le_refl 0⟩
    rw [hrootpos]
    exact hlook0
  · intro p w hw
    rw [lookupK_singleton] at hw
    split_ifs at hw with hsp
    · injection hw with hw
      exact ⟨Node.mk start.1 start.2 none 0 0, GoodChain.root 0, hrootpos.trans hsp, hw⟩
  · intro p w hw
    rw [lookupK_singleton] at hw
    split_ifs at hw with hsp
    · injection hw with hw
      exact Or.inl ⟨((0 : ℕ∞), Node.mk start.1 start.2 none 0 0),
        List.mem_singleton.mpr rfl, hrootpos.trans hsp, hw⟩
  · intro w hw
    rw [lookupK_singleton] at hw
    split_ifs at hw with hsp
    · injection hw with hw
      exact ⟨((0 : ℕ∞), Node.mk start.1 start.2 none 0 0),
        List.mem_singleton.mpr rfl, hrootpos.trans hsp, hw⟩

/-- The initial A* state satisfies the loop invariant (the start entry is
pushed with the literal key `0`, covered by the zero-cost special case). -/
theorem astar_initial_inv (g : Grid) (hfn : ℤ → ℤ → ℤ → ℤ → ℚ) (start goal : Pos) :
    AInv g.toGridLike hfn start goal
      [((0 : WithTop ℚ), Node.mk start.1 start.2 none 0 0)] [(start, (0 : ℕ∞))] := by
  have hlook0 : lookupK [(start, (0 : ℕ∞))] start = some 0 := by
    rw [lookupK_singleton, if_pos rfl]
  have hrootpos : (Node.mk start.1 start.2 none 0 0).pos = start := Prod.mk.eta
  refine ⟨?_, ?_, ?_, ?_, hlook0, ?_⟩
  · intro e he
    simp only [List.mem_singleton] at he
    subst he
    exact ⟨GoodChain.root 0, Or.inr ⟨rfl, rfl⟩⟩
  · intro e he
    simp only [List.mem_singleton] at he
    subst he
    refine ⟨0, ?_, le_refl 0⟩
    rw [hrootpos]
    exact hlook0
  · intro p w hw
    rw [lookupK_singleton] at hw
    split_ifs at hw with hsp
    · injection hw with hw
      exact ⟨Node.mk start.1 start.2 none 0 0, GoodChain.root 0, hrootpos.trans hsp, hw⟩
  · intro p w hw
    rw [lookupK_singleton] at hw
    split_ifs at hw with hsp
    · injection hw with hw
      exact Or.inl ⟨((0 : WithTop ℚ), Node.mk start.1 start.2 none 0 0),
        List.mem_singleton.mpr rfl, hrootpos.trans hsp, hw⟩
  · intro w hw
    rw [lookupK_singleton] at hw
    split_ifs at hw with hsp
    · injection hw with hw
      exact ⟨((0 : WithTop ℚ), Node.mk start.1 start.2 none 0 0),
        List.mem_singleton.mpr rfl, hrootpos.trans hsp, hw⟩

/-- Claim C1: with sufficient fuel, `UniformCostSearch.search` and
`AStarSearch.search` with the Manhattan heuristic both terminate, report
the same cost, and return paths of equal total cost; when the goal is
reachable that common cost is the least walk cost and both returned paths
attain it, and when it is unreachable both return the empty path with
infinite cost. -/
theorem C1_ucs_astar_equal_optimal_cost (g : Grid) (start goal : Pos) (fuel : ℕ)
    (hf : g.dijkstraFuel ≤ fuel) :
    ∃ pU cU nU pA cA nA,
      UCS.search g.toGridLike start goal fuel = some (pU, cU, nU) ∧
      AStar.search g.toGridLike manhattan_distance start goal fuel = some (pA, cA, nA) ∧
      cU = cA ∧
      get_path_cost g.toGridLike pU = get_path_cost g.toGridLike pA ∧
      (Reachable g.toGridLike start goal →
        IsLeastWalkCost g.toGridLike start goal cU ∧
        get_path_cost g.toGridLike pU = cU ∧ get_path_cost g.toGridLike pA = cA) ∧
      (¬ Reachable g.toGridLike start goal →
        pU = [] ∧ pA = [] ∧ cU = ⊤ ∧ cA = ⊤) := by
  have hn : g.width * g.height + 1 = g.width * g.height + 1 := rfl
  have hpotinit : mapPotential (g.width * g.height + 1) [(start, (0 : ℕ∞))] =
      (g.width * g.height + 1 - 1) * (4 * (g.width * g.height + 1) + 1) := by
    simp [mapPotential, mapValSum]
  have harith : 1 + mapPotential (g.width * g.height + 1) [(start, (0 : ℕ∞))] < fuel := by
    rw [hpotinit]
    have hA : (g.width * g.height + 1 - 1) * (4 * (g.width * g.height + 1) + 1) ≤
        (g.width * g.height + 1) * (4 * (g.width * g.height + 1) + 1) :=
      Nat.mul_le_mul_right _ (Nat.sub_le _ _)
    have hC : (g.width * g.height + 1) * (4 * (g.width * g.height + 1) + 2) =
        (g.width * g.height + 1) * (4 * (g.width * g.height + 1) + 1) +
          (g.width * g.height + 1) := by ring
    have hfD' : (g.width * g.height + 1) * (4 * (g.width * g.height + 1) + 2) + 2 ≤ fuel := hf
    omega
  have hMapB : MapB start g [(start, (0 : ℕ∞))] := by
    refine ⟨by simp, ?_, ?_⟩
    · intro e he
      simp only [List.mem_singleton] at he
      subst he
      exact Finset.mem_insert_self _ _
    · intro e he
      simp only [List.mem_singleton] at he
      subst he
      exact zero_le _
  have hlook : lookupK [(start, (0 : ℕ∞))] (Node.mk start.1 start.2 none 0 0).pos =
      some (0 : ℕ∞) := by
    rw [show (Node.mk start.1 start.2 none 0 0).pos = start from Prod.mk.eta,
      lookupK_singleton, if_pos rfl]
  have hUsome := ucsLoop_some g start goal (g.width * g.height + 1) hn fuel
    [((0 : ℕ∞), Node.mk start.1 start.2 none 0 0)] [(start, (0 : ℕ∞))] 0 hMapB
    (by
      intro e he
      simp only [List.mem_singleton] at he
      subst he
      exact ⟨0, hlook⟩)
    (by simpa using harith)
  have hAsome := astarLoop_some g start goal (g.width * g.height + 1) hn manhattan_distance
    fuel [((0 : WithTop ℚ), Node.mk start.1 start.2 none 0 0)] [(start, (0 : ℕ∞))]
    [(start, ((manhattan_distance start.1 start.2 goal.1 goal.2 : ℚ) : WithTop ℚ))] 0 hMapB
    (by
      intro e he
      simp only [List.mem_singleton] at he
      subst he
      exact ⟨0, hlook⟩)
    (by simpa using harith)
  obtain ⟨resU, hresU⟩ := Option.isSome_iff_exists.mp hUsome
  obtain ⟨pU, cU, nU⟩ := resU
  obtain ⟨resA, hresA⟩ := Option.isSome_iff_exists.mp hAsome
  obtain ⟨pA, cA, nA⟩ := resA
  refine ⟨pU, cU, nU, pA, cA, nA, hresU, hresA, ?_⟩
  have hUres := ucsLoop_correct g start goal fuel _ _ 0 (ucs_initial_inv g start goal)
    pU cU nU hresU
  have hAres := astarLoop_correct g manhattan_distance start goal
    (manhattan_consistent g goal) fuel _ _ _ 0 (astar_initial_inv g manhattan_distance
      start goal) pA cA nA hresA
  rcases hUres with ⟨⟨hpU, hcU⟩, hnRU⟩ | ⟨hLU, hgU, hneU⟩
  · rcases hAres with ⟨⟨hpA, hcA⟩, -⟩ | ⟨hLA, -, -⟩
    · subst hpU; subst hcU; subst hpA; subst hcA
      refine ⟨rfl, rfl, ?_, fun _ => ⟨rfl, rfl, rfl, rfl⟩⟩
      intro hr
      exact absurd hr hnRU
    · exfalso
      obtain ⟨l, hw, hl, -⟩ := hLA.1
      exact hnRU ⟨l, hw, hl⟩
  · rcases hAres with ⟨⟨hpA, hcA⟩, hnRA⟩ | ⟨hLA, hgA, hneA⟩
    · exfalso
      obtain ⟨l, hw, hl, -⟩ := hLU.1
      exact hnRA ⟨l, hw, hl⟩
    · have hceq : cU = cA := isLeastWalkCost_unique hLU hLA
      refine ⟨hceq, ?_, fun _ => ⟨hLU, hgU, hgA⟩, ?_⟩
      · rw [hgU, hgA, hceq]
      · intro hnr
        exfalso
        obtain ⟨l, hw, hl, -⟩ := hLU.1
        exact hnr ⟨l, hw, hl⟩

/-- Witness for claim C1 at a concrete instance: the 3×3 flat grid with
its provably sufficient fuel. -/
theorem C1_ucs_astar_equal_optimal_cost_witness :
    gFlat3.dijkstraFuel ≤ gFlat3.dijkstraFuel ∧
    (∃ pU cU nU pA cA nA,
      UCS.search gFlat3.toGridLike (0, 0) (2, 2) gFlat3.dijkstraFuel = some (pU, cU, nU) ∧
      AStar.search gFlat3.toGridLike manhattan_distance (0, 0) (2, 2) gFlat3.dijkstraFuel =
        some (pA, cA, nA) ∧
      cU = cA ∧
      get_path_cost gFlat3.toGridLike pU = get_path_cost gFlat3.toGridLike pA ∧
      (Reachable gFlat3.toGridLike (0, 0) (2, 2) →
        IsLeastWalkCost gFlat3.toGridLike (0, 0) (2, 2) cU ∧
        get_path_cost gFlat3.toGridLike pU = cU ∧
        get_path_cost gFlat3.toGridLike pA = cA) ∧
      (¬ Reachable gFlat3.toGridLike (0, 0) (2, 2) →
        pU = [] ∧ pA = [] ∧ cU = ⊤ ∧ cA = ⊤)) :=
  ⟨le_refl _,
    C1_ucs_astar_equal_optimal_cost gFlat3 (0, 0) (2, 2) gFlat3.dijkstraFuel (le_refl _)⟩
